import Mathlib

/-!
Supermarket checkout: catalog, register, deal resolution and receipt totals.

A shallow embedding of `catalog.cpp` and `checkout_register.cpp`.

Conventions of the embedding

* `int` values (item ids, deal ids, quantities) are `Int`; the only `int`
  arithmetic that can leave the 32-bit range is `it->second += quantity` in
  `scanItem`, which is modelled as undefined behaviour when it does.
* `double` prices are exact rationals: comparisons are those of the
  numbers, sums and products are not rounded, and there is no NaN.
* `std::unordered_map<K, int>` is a function `K → Option Int` (only `find`,
  `operator[]` and `erase` are used, never the iteration order);
  `std::vector` and `std::list` are `List`; `std::set<int>` is the list of
  its elements in ascending order; `std::array<int,3>` is `Array3`.
* A member function that can throw after having changed the object returns
  the `Status` of the call together with the object as the call leaves it.
* `std::sort` is a parameter `StdSort`: any function that returns a
  permutation of its input, ordered by the comparator.
-/

namespace Supermarket

/-! ## Outcomes -/

/-- How a call ends: it returns, it throws `std::runtime_error`, or it runs
into undefined behaviour (an index past the end of a vector, signed
overflow). -/
inductive Status where
  | ok
  | runtime_error
  | undefined
  deriving DecidableEq, Repr

/-- Outcome of a lookup that returns a reference into a vector. -/
inductive Lookup (α : Type) where
  | ref (a : α)
  | runtime_error
  | undefined
  deriving DecidableEq, Repr

/-! ## Catalog (`catalog_item.h`, `catalog.h`, `catalog.cpp`) -/

/-- The struct `CatalogItem`. -/
structure CatalogItem where
  name : String
  price : ℚ
  dealId : Int
  deriving DecidableEq

/-- Modelled from the spec: the body of the constructor
`CatalogItem(name, price)` (catalog_item.cpp) is not among the sources; the
spec says a new item is stored with no deal, which `catalog_item.h` encodes
as `dealId = -1`. -/
def CatalogItem.new (name : String) (price : ℚ) : CatalogItem :=
  { name := name, price := price, dealId := -1 }

/-- The private data of class `Catalog`. -/
structure Catalog where
  itemIdMap : String → Option Int
  items : List CatalogItem
  deals : List (List Int)

/-- A default-constructed `Catalog`. -/
def Catalog.empty : Catalog :=
  { itemIdMap := fun _ => none, items := [], deals := [] }

/-- The static member `Catalog::reservedNames`. -/
def reservedNames : List String :=
  ["Remove", "Cart", "Items", "Deals", "Checkout", "Options"]

/-- Assignment `m[k] = v` on an unordered map. -/
def mapSet {κ : Type} [DecidableEq κ] (m : κ → Option Int) (k : κ) (v : Int) : κ → Option Int :=
  fun x => if x = k then some v else m x

/-- The call `m.erase(k)` on an unordered map. -/
def mapErase {κ : Type} [DecidableEq κ] (m : κ → Option Int) (k : κ) : κ → Option Int :=
  fun x => if x = k then none else m x

/-- The method `Catalog::addItem`. -/
def addItem (c : Catalog) (name : String) (price : ℚ) : Status × Catalog :=
  if name ∈ reservedNames then (Status.runtime_error, c)
  else if (c.itemIdMap name).isSome then (Status.runtime_error, c)
  else
    let id : Int := c.items.length
    (Status.ok,
      { c with items := c.items ++ [CatalogItem.new name price],
               itemIdMap := mapSet c.itemIdMap name id })

/-- The C function `isspace` in the "C" locale. -/
def isspace (ch : Char) : Bool :=
  ch = ' ' || ch = '\t' || ch = '\n' || ch = '\x0b' || ch = '\x0c' || ch = '\r'

/-- The loop of `IOHelper::toCamelCase` over the characters of the string. -/
def toCamelCaseLoop : Bool → List Char → List Char
  | _, [] => []
  | capitalizeNext, ch :: rest =>
    if isspace ch then ch :: toCamelCaseLoop true rest
    else if capitalizeNext then ch.toUpper :: toCamelCaseLoop false rest
    else ch.toLower :: toCamelCaseLoop false rest

/-- The function `IOHelper::toCamelCase` (ASCII letters). -/
def toCamelCase (str : String) : String :=
  String.mk (toCamelCaseLoop true str.data)

/-- The pieces read by `while (std::getline(ss, itemName, ','))`: `cur` holds
the characters of the piece being read, latest first.  A piece ends at a
comma or at the end of the input; at the end of the input an empty piece is
not produced (the read fails). -/
def getlinePieces (cur : List Char) : List Char → List String
  | [] => if cur = [] then [] else [String.mk cur.reverse]
  | ch :: rest =>
    if ch = ',' then String.mk cur.reverse :: getlinePieces [] rest
    else getlinePieces (ch :: cur) rest

/-- The item names `Catalog::addDeal` looks up, in order: each piece of the
argument, converted by `toCamelCase`. -/
def dealNames (names : String) : List String :=
  (getlinePieces [] names.data).map toCamelCase

/-- The statement `deal.push_back(id)` where `deal` is `deals.back()`. -/
def backPushBack : List (List Int) → Int → List (List Int)
  | [], _ => []
  | [deal], id => [deal ++ [id]]
  | d :: ds, id => d :: backPushBack ds id

/-- The body of the `while (std::getline ...)` loop of `Catalog::addDeal`, run
over the names still to be read.  `items[it->second]` with an index outside
the vector is undefined behaviour. -/
def addDealLoop (dealId : Int) : List String → Catalog → Status × Catalog
  | [], c => (Status.ok, c)
  | itemName :: rest, c =>
    match c.itemIdMap itemName with
    | none => (Status.runtime_error, c)
    | some id =>
      if id < 0 then (Status.undefined, c)
      else
        match c.items[id.toNat]? with
        | none => (Status.undefined, c)
        | some item =>
          if item.dealId ≠ -1 then (Status.runtime_error, c)
          else
            addDealLoop dealId rest
              { c with items := c.items.set id.toNat { item with dealId := dealId },
                       deals := backPushBack c.deals id }

/-- The price `items[id].price` read by the comparator of `Catalog::addDeal`. -/
def priceAt (items : List CatalogItem) (id : Int) : ℚ :=
  match items[id.toNat]? with
  | some item => item.price
  | none => 0

/-- The lambda passed to `std::sort` in `Catalog::addDeal`. -/
def priceGreater (items : List CatalogItem) (id1 id2 : Int) : Bool :=
  decide (priceAt items id1 > priceAt items id2)

/-- A comparator is a strict weak ordering, the precondition of `std::sort`. -/
def StrictWeak (comp : Int → Int → Bool) : Prop :=
  (∀ a, comp a a = false) ∧
  (∀ a b c, comp a b = true → comp b c = true → comp a c = true) ∧
  (∀ a b c, comp a b = false → comp b c = false → comp a c = false)

/-- The contract of `std::sort`: the result is a permutation of the input and,
for a strict weak ordering, no element is followed by one that compares
before it.  Nothing is promised about the order of equivalent elements. -/
structure StdSort where
  sort : (Int → Int → Bool) → List Int → List Int
  perm : ∀ comp l, (sort comp l).Perm l
  sorted : ∀ comp l, StrictWeak comp → (sort comp l).Pairwise (fun a b => comp b a = false)

/-- The statement `std::sort(deal.begin(), deal.end(), comp)` where `deal` is
`deals.back()`. -/
def sortBack (S : StdSort) (comp : Int → Int → Bool) : List (List Int) → List (List Int)
  | [] => []
  | [deal] => [S.sort comp deal]
  | d :: ds => d :: sortBack S comp ds

/-- The method `Catalog::addDeal`. -/
def addDeal (S : StdSort) (c : Catalog) (names : String) : Status × Catalog :=
  if names.data = [] then (Status.runtime_error, c)
  else
    let dealId : Int := c.deals.length
    let c1 := { c with deals := c.deals ++ [[]] }
    match addDealLoop dealId (dealNames names) c1 with
    | (Status.ok, c2) =>
      (Status.ok, { c2 with deals := sortBack S (priceGreater c2.items) c2.deals })
    | (st, c2) => (st, c2)

/-- The method `Catalog::getItemId`. -/
def getItemId (c : Catalog) (itemName : String) : Int :=
  match c.itemIdMap itemName with
  | none => -1
  | some id => id

/-- The method `Catalog::getItem`: the guard is `itemId < 0 || itemId > items.size()`,
then `items[itemId]` is returned. -/
def getItem (c : Catalog) (itemId : Int) : Lookup CatalogItem :=
  if itemId < 0 ∨ itemId > c.items.length then Lookup.runtime_error
  else
    match c.items[itemId.toNat]? with
    | some item => Lookup.ref item
    | none => Lookup.undefined

/-- The method `Catalog::getDeal`: the guard is `dealId < 0 || dealId > deals.size()`,
then `deals[dealId]` is returned. -/
def getDeal (c : Catalog) (dealId : Int) : Lookup (List Int) :=
  if dealId < 0 ∨ dealId > c.deals.length then Lookup.runtime_error
  else
    match c.deals[dealId.toNat]? with
    | some deal => Lookup.ref deal
    | none => Lookup.undefined

/-! ## Register (`checkout_register.h`, `checkout_register.cpp`) -/

/-- A `std::array<int,3>`. -/
structure Array3 where
  a0 : Int
  a1 : Int
  a2 : Int
  deriving DecidableEq, Repr

/-- The read `group[i]`; an index past the end is undefined behaviour (`none`). -/
def Array3.get? (g : Array3) : Nat → Option Int
  | 0 => some g.a0
  | 1 => some g.a1
  | 2 => some g.a2
  | _ => none

/-- The write `group[i] = v`; an index past the end is undefined behaviour (`none`). -/
def Array3.set? (g : Array3) (i : Nat) (v : Int) : Option Array3 :=
  match i with
  | 0 => some { g with a0 := v }
  | 1 => some { g with a1 := v }
  | 2 => some { g with a2 := v }
  | _ => none

/-- The three slots of a group, in order. -/
def Array3.slots (g : Array3) : List Int := [g.a0, g.a1, g.a2]

/-- The session state of class `CheckoutRegister` (the catalog it refers to is
passed to each operation). -/
structure CheckoutRegister where
  cartIds : List Int
  quantityOfCartItem : Int → Option Int
  potentialDeals : List Int
  dealGroups : List Array3

/-- The largest `int`. -/
def INT_MAX : Int := 2147483647

/-- The call `potentialDeals.insert(x)` on a `std::set<int>`. -/
def setInsert (x : Int) : List Int → List Int
  | [] => [x]
  | y :: ys =>
    if x < y then x :: y :: ys
    else if x = y then y :: ys
    else y :: setInsert x ys

/-- The method `CheckoutRegister::scanItem`. -/
def scanItem (cat : Catalog) (r : CheckoutRegister) (itemName : String) (quantity : Int) :
    Status × CheckoutRegister :=
  if quantity < 1 then (Status.runtime_error, r)
  else
    let itemId := getItemId cat itemName
    if itemId = -1 then (Status.runtime_error, r)
    else
      match r.quantityOfCartItem itemId with
      | some q =>
        if q + quantity > INT_MAX then (Status.undefined, r)
        else (Status.ok, { r with quantityOfCartItem := mapSet r.quantityOfCartItem itemId (q + quantity) })
      | none =>
        let r1 := { r with cartIds := r.cartIds ++ [itemId],
                           quantityOfCartItem := mapSet r.quantityOfCartItem itemId quantity }
        match getItem cat itemId with
        | Lookup.ref item =>
          if item.dealId ≠ -1 then
            (Status.ok, { r1 with potentialDeals := setInsert item.dealId r1.potentialDeals })
          else (Status.ok, r1)
        | Lookup.runtime_error => (Status.runtime_error, r1)
        | Lookup.undefined => (Status.undefined, r1)

/-- The method `CheckoutRegister::removeItem`. -/
def removeItem (cat : Catalog) (r : CheckoutRegister) (itemName : String) :
    Status × CheckoutRegister :=
  let itemId := getItemId cat itemName
  if itemId = -1 then (Status.runtime_error, r)
  else
    match r.quantityOfCartItem itemId with
    | none => (Status.runtime_error, r)
    | some _ =>
      (Status.ok, { r with cartIds := r.cartIds.filter (fun x => x ≠ itemId),
                           quantityOfCartItem := mapErase r.quantityOfCartItem itemId })

/-- A newly constructed register: the four containers are empty. -/
def CheckoutRegister.empty : CheckoutRegister :=
  { cartIds := [], quantityOfCartItem := fun _ => none, potentialDeals := [], dealGroups := [] }

/-- The method `CheckoutRegister::clearSession`. -/
def clearSession (_r : CheckoutRegister) : CheckoutRegister :=
  { cartIds := [], quantityOfCartItem := fun _ => none, potentialDeals := [], dealGroups := [] }

/-! ### `calculateDeals` -/

/-- The locals `curGroup` and `curIndex` of `calculateDeals`, with the member
`dealGroups` the loops append to. -/
structure GroupBuilder where
  curGroup : Array3
  curIndex : Nat
  dealGroups : List Array3

/-- The loop `while (curIndex < 3 && quantity > 0)`; `none` when it has not
finished within `fuel` tests of its condition. -/
def fillGroup (itemId : Int) : Nat → GroupBuilder → Int → Option (GroupBuilder × Int)
  | 0, _, _ => none
  | fuel + 1, b, quantity =>
    if b.curIndex < 3 ∧ quantity > 0 then
      match b.curGroup.set? b.curIndex itemId with
      | none => none
      | some g =>
        fillGroup itemId fuel { b with curGroup := g, curIndex := b.curIndex + 1 } (quantity - 1)
    else some (b, quantity)

/-- The loop `while (quantity > 0)` for one member item; `none` when it has
not finished within `fuel` tests of its condition.  The inner loop runs with
fuel 4: it leaves after at most three writes. -/
def groupItem (itemId : Int) : Nat → GroupBuilder → Int → Option GroupBuilder
  | 0, _, _ => none
  | fuel + 1, b, quantity =>
    if quantity > 0 then
      match fillGroup itemId 4 b quantity with
      | none => none
      | some (b1, quantity1) =>
        if b1.curIndex = 3 then
          groupItem itemId fuel
            { curGroup := { a0 := -1, a1 := -1, a2 := -1 }, curIndex := 0,
              dealGroups := b1.dealGroups ++ [b1.curGroup] } quantity1
        else groupItem itemId fuel b1 quantity1
    else some b

/-- The loop `for (const int& itemId : deal)` that fills the groups.  The
`while (quantity > 0)` loop of an item runs with fuel `quantity + 1`. -/
def groupDeal (quantityOfCartItem : Int → Option Int) : List Int → GroupBuilder → Option GroupBuilder
  | [], b => some b
  | itemId :: rest, b =>
    match quantityOfCartItem itemId with
    | none => groupDeal quantityOfCartItem rest b
    | some quantity =>
      match groupItem itemId (quantity.toNat + 1) b quantity with
      | none => none
      | some b1 => groupDeal quantityOfCartItem rest b1

/-- The loop that sets the quantity of every member of the deal to 0. -/
def zeroDeal : List Int → (Int → Option Int) → (Int → Option Int)
  | [], q => q
  | itemId :: rest, q =>
    match q itemId with
    | some _ => zeroDeal rest (mapSet q itemId 0)
    | none => zeroDeal rest q

/-- The loop `while (curIndex > 0)` that returns the units left in the
buffer: `quantityOfCartItem[curGroup[--curIndex]]++`. -/
def restoreLeftover (curGroup : Array3) : Nat → (Int → Option Int) → Option (Int → Option Int)
  | 0, q => some q
  | curIndex + 1, q =>
    match curGroup.get? curIndex with
    | none => none
    | some last_item =>
      restoreLeftover curGroup curIndex (mapSet q last_item ((q last_item).getD 0 + 1))

/-- The body of `for (const int& dealId : potentialDeals)`; `none` when
`getDeal` does not return a deal or a loop does not finish. -/
def resolveDeal (cat : Catalog) (dealId : Int) (r : CheckoutRegister) : Option CheckoutRegister :=
  match getDeal cat dealId with
  | Lookup.ref deal =>
    match groupDeal r.quantityOfCartItem deal
        { curGroup := { a0 := -1, a1 := -1, a2 := -1 }, curIndex := 0, dealGroups := r.dealGroups } with
    | none => none
    | some b =>
      match restoreLeftover b.curGroup b.curIndex (zeroDeal deal r.quantityOfCartItem) with
      | none => none
      | some q => some { r with quantityOfCartItem := q, dealGroups := b.dealGroups }
  | Lookup.runtime_error => none
  | Lookup.undefined => none

/-- The loop of `calculateDeals` over the deal ids still to be visited. -/
def calculateDealsLoop (cat : Catalog) : List Int → CheckoutRegister → Option CheckoutRegister
  | [], r => some r
  | dealId :: rest, r =>
    match resolveDeal cat dealId r with
    | none => none
    | some r1 => calculateDealsLoop cat rest r1

/-- The method `CheckoutRegister::calculateDeals`; `none` when it does not
return (an exception of `getDeal`, undefined behaviour, a loop that does not
finish). -/
def calculateDeals (cat : Catalog) (r : CheckoutRegister) : Option CheckoutRegister :=
  calculateDealsLoop cat r.potentialDeals r

/-! ### `printReceipt`: the two totals -/

/-- The numbers `printReceipt` accumulates: `total` (printed as the grand
total) and `savings`. -/
structure Receipt where
  total : ℚ
  savings : ℚ
  deriving DecidableEq

/-- The loop `for (int i = 0; i < 3; i++)` over the slots of one group, from
index `i`; `none` when `getItem` does not return an item, a slot index is
past the end, or the loop has not finished within `fuel` tests. -/
def receiptGroup (cat : Catalog) (group : Array3) : Nat → Nat → Receipt → Option Receipt
  | 0, _, _ => none
  | fuel + 1, i, acc =>
    if i < 3 then
      match group.get? i with
      | none => none
      | some id =>
        match getItem cat id with
        | Lookup.ref item =>
          let merged : Bool := decide (i = 0 ∧ group.a0 = group.a1)
          let price := if merged then item.price * 2 else item.price
          let i1 := if merged then i + 1 else i
          if i1 = 2 then
            receiptGroup cat group fuel (i1 + 1) { acc with savings := acc.savings + price }
          else
            receiptGroup cat group fuel (i1 + 1) { acc with total := acc.total + price }
        | Lookup.runtime_error => none
        | Lookup.undefined => none
    else some acc

/-- The loop `for (const std::array<int,3>& group : dealGroups)`. -/
def receiptGroups (cat : Catalog) : List Array3 → Receipt → Option Receipt
  | [], acc => some acc
  | group :: rest, acc =>
    match receiptGroup cat group 4 0 acc with
    | none => none
    | some acc1 => receiptGroups cat rest acc1

/-- The loop `for (const int& itemId : cartIds)` of the items section. -/
def receiptItems (cat : Catalog) (quantityOfCartItem : Int → Option Int) :
    List Int → Receipt → Option Receipt
  | [], acc => some acc
  | itemId :: rest, acc =>
    match quantityOfCartItem itemId with
    | none => receiptItems cat quantityOfCartItem rest acc
    | some quantity =>
      if quantity = 0 then receiptItems cat quantityOfCartItem rest acc
      else
        match getItem cat itemId with
        | Lookup.ref item =>
          receiptItems cat quantityOfCartItem rest
            { acc with total := acc.total + (quantity : ℚ) * item.price }
        | Lookup.runtime_error => none
        | Lookup.undefined => none

/-- The totals of `CheckoutRegister::printReceipt` (the text written to the
stream is not modelled); `none` when a `getItem` call does not return an
item.  `savings` exists only in the deals section and is 0 without it. -/
def printReceipt (cat : Catalog) (r : CheckoutRegister) : Option Receipt :=
  match receiptGroups cat r.dealGroups { total := 0, savings := 0 } with
  | none => none
  | some acc => receiptItems cat r.quantityOfCartItem r.cartIds acc

/-- The method `CheckoutRegister::checkOut`: the receipt totals and the
register after the call. -/
def checkOut (cat : Catalog) (r : CheckoutRegister) : Option (Receipt × CheckoutRegister) :=
  match calculateDeals cat r with
  | none => none
  | some r1 =>
    match printReceipt cat r1 with
    | none => none
    | some receipt => some (receipt, clearSession r1)

/-! ## Vocabulary of the statements -/

/-- The member ids `getDeal` returns for a deal id, `[]` when it returns none. -/
def dealOf (cat : Catalog) (dealId : Int) : List Int :=
  match getDeal cat dealId with
  | Lookup.ref deal => deal
  | Lookup.runtime_error => []
  | Lookup.undefined => []

/-- A deal id in the dense range `0 .. M-1` of a catalog holding `M` deals. -/
def ValidDeal (cat : Catalog) (dealId : Int) : Prop :=
  0 ≤ dealId ∧ dealId < cat.deals.length

/-- An item id in the dense range `0 .. N-1` of a catalog holding `N` items. -/
def ValidItem (cat : Catalog) (itemId : Int) : Prop :=
  0 ≤ itemId ∧ itemId < cat.items.length

/-- No item id occurs in two different deals of the catalog. -/
def DealsDisjoint (cat : Catalog) : Prop :=
  cat.deals.Pairwise (fun d1 d2 => ∀ x ∈ d1, x ∉ d2)

instance (cat : Catalog) (dealId : Int) : Decidable (ValidDeal cat dealId) :=
  inferInstanceAs (Decidable (0 ≤ dealId ∧ dealId < cat.deals.length))

instance (cat : Catalog) (itemId : Int) : Decidable (ValidItem cat itemId) :=
  inferInstanceAs (Decidable (0 ≤ itemId ∧ itemId < cat.items.length))

instance (cat : Catalog) : Decidable (DealsDisjoint cat) :=
  inferInstanceAs (Decidable (cat.deals.Pairwise (fun d1 d2 => ∀ x ∈ d1, x ∉ d2)))

/-- Every quantity recorded in the cart is at least 0. -/
def QuantitiesNonneg (q : Int → Option Int) : Prop :=
  ∀ i n, q i = some n → 0 ≤ n

/-- The quantity of an item in the cart, 0 for an item without an entry. -/
def quantityOf (q : Int → Option Int) (itemId : Int) : Int :=
  (q itemId).getD 0

/-- The unit price of an item id. -/
def unitPrice (cat : Catalog) (itemId : Int) : ℚ :=
  priceAt cat.items itemId

/-- The member ids of a deal are stored in non-increasing price order. -/
def PriceSorted (cat : Catalog) (deal : List Int) : Prop :=
  deal.Pairwise (fun a b => unitPrice cat a ≥ unitPrice cat b)

instance (cat : Catalog) (deal : List Int) : Decidable (PriceSorted cat deal) :=
  inferInstanceAs (Decidable (deal.Pairwise (fun a b => unitPrice cat a ≥ unitPrice cat b)))

/-- All slots of a list of groups, group after group. -/
def slotsOf : List Array3 → List Int
  | [] => []
  | g :: gs => g.a0 :: g.a1 :: g.a2 :: slotsOf gs

/-- The groups a call appended to `dealGroups`: those of the state after the
call beyond the ones of the state before it. -/
def emitted (r r1 : CheckoutRegister) : List Array3 :=
  r1.dealGroups.drop r.dealGroups.length

/-- The groups a call appended for one deal: the emitted groups whose first
slot is a member of that deal. -/
def emittedFor (cat : Catalog) (dealId : Int) (r r1 : CheckoutRegister) : List Array3 :=
  (emitted r r1).filter (fun g => decide (g.a0 ∈ dealOf cat dealId))

/-- The sum of the cart quantities of the members of a deal. -/
def dealTotal (q : Int → Option Int) (deal : List Int) : Int :=
  (deal.map (quantityOf q)).sum

/-- The savings of a list of groups as the receipt counts them: the unit
prices of the third slots. -/
def savingsOf (cat : Catalog) (groups : List Array3) : ℚ :=
  (groups.map (fun g => unitPrice cat g.a2)).sum

/-- The price of the cheapest unit of a group. -/
def cheapest (cat : Catalog) (g : Array3) : ℚ :=
  min (unitPrice cat g.a0) (min (unitPrice cat g.a1) (unitPrice cat g.a2))

/-- A collection of disjoint 3-unit groups drawn from the cart's units of the
members of a deal: every slot is a member of the deal, and no item fills
more slots than the cart holds units of it. -/
def Grouping (q : Int → Option Int) (deal : List Int) (G : List Array3) : Prop :=
  (∀ x ∈ slotsOf G, x ∈ deal) ∧ ∀ i, (slotsOf G).count i ≤ (quantityOf q i).toNat

/-- The total charged for a list of groups: the first two slots of each. -/
def chargedOf (cat : Catalog) (groups : List Array3) : ℚ :=
  (groups.map (fun g => unitPrice cat g.a0 + unitPrice cat g.a1)).sum

/-- The total of the items section: quantity times unit price for each cart
item with a quantity above 0. -/
def remainingOf (cat : Catalog) (q : Int → Option Int) (cartIds : List Int) : ℚ :=
  ((cartIds.filter (fun i => decide (0 < quantityOf q i))).map
    (fun i => (quantityOf q i : ℚ) * unitPrice cat i)).sum

/-! ## The grouping loop, unit by unit -/

/-- Placing one unit: write it to slot `curIndex`; a third unit completes the
group, which is appended and the buffer reset. -/
def push (itemId : Int) (b : GroupBuilder) : GroupBuilder :=
  match b.curIndex with
  | 0 => { b with curGroup := { b.curGroup with a0 := itemId }, curIndex := 1 }
  | 1 => { b with curGroup := { b.curGroup with a1 := itemId }, curIndex := 2 }
  | _ => { curGroup := { a0 := -1, a1 := -1, a2 := -1 }, curIndex := 0,
           dealGroups := b.dealGroups ++ [{ b.curGroup with a2 := itemId }] }

/-- Placing `n` units of one item. -/
def pushN (itemId : Int) : Nat → GroupBuilder → GroupBuilder
  | 0, b => b
  | n + 1, b => pushN itemId n (push itemId b)

/-- Placing a list of units, first to last. -/
def pushAll : List Int → GroupBuilder → GroupBuilder
  | [], b => b
  | x :: xs, b => pushAll xs (push x b)

/-- The units of the members of a deal in the order the grouping loop meets
them: each member that has a cart entry, as many times as its quantity. -/
def dealUnits (q : Int → Option Int) : List Int → List Int
  | [] => []
  | itemId :: rest =>
    (match q itemId with
     | some n => List.replicate n.toNat itemId
     | none => []) ++ dealUnits q rest

/-- The complete groups of three cut from a list of units. -/
def groupsOf : List Int → List Array3
  | a :: b :: c :: rest => { a0 := a, a1 := b, a2 := c } :: groupsOf rest
  | _ => []

/-- The units left after the complete groups of three. -/
def leftoverOf : List Int → List Int
  | _ :: _ :: _ :: rest => leftoverOf rest
  | l => l

/-- The groups of all the deals of a list, each cut from the deal's units in
the cart `q`. -/
def allGroups (cat : Catalog) (q : Int → Option Int) : List Int → List Array3
  | [] => []
  | d :: rest => groupsOf (dealUnits q (dealOf cat d)) ++ allGroups cat q rest

/-- The buffer holds exactly the units `P` (fewer than three). -/
def Pending (b : GroupBuilder) (P : List Int) : Prop :=
  match P with
  | [] => b.curIndex = 0
  | [x] => b.curIndex = 1 ∧ b.curGroup.a0 = x
  | [x, y] => b.curIndex = 2 ∧ b.curGroup.a0 = x ∧ b.curGroup.a1 = y
  | _ => False

/-- Returning the units `P` to the cart, last first. -/
def restoreAll : List Int → (Int → Option Int) → (Int → Option Int)
  | [], q => q
  | x :: rest, q =>
    mapSet (restoreAll rest q) x (((restoreAll rest q) x).getD 0 + 1)

/-- Every third element of a list of prices. -/
def thirds : List ℚ → ℚ
  | _ :: _ :: c :: rest => c + thirds rest
  | _ => 0

/-! ## An instance of `std::sort` -/

/-- Insertion sort as one function that meets the contract of `std::sort`. -/
def insertionStdSort : StdSort where
  sort := fun comp l => l.insertionSort (fun a b => comp b a = false)
  perm := fun comp l => List.perm_insertionSort (fun a b => comp b a = false) l
  sorted := by
    intro comp l h
    obtain ⟨hirr, htr, hneg⟩ := h
    haveI : IsTotal Int (fun a b => comp b a = false) := by
      constructor
      intro a b
      by_cases hba : comp b a = true
      · right
        by_contra hab
        have hab1 : comp a b = true := by simpa using hab
        have := htr b a b hba hab1
        rw [hirr b] at this
        exact Bool.noConfusion this
      · left
        simpa using hba
    haveI : IsTrans Int (fun a b => comp b a = false) := by
      constructor
      intro a b c hab hbc
      exact hneg c b a hbc hab
    exact List.sorted_insertionSort (fun a b => comp b a = false) l

/-! ## Example catalogs -/

/-- A catalog with the one item Chips at 3.00 and no deal. -/
def chipsCatalog : Catalog :=
  (addItem Catalog.empty "Chips" 3).2

/-- The catalog with Chips 3.00, Salsa 2.00, Guac 4.00 and Soda 1.00, before
any deal is added. -/
def snackItems : Catalog :=
  (addItem (addItem (addItem (addItem Catalog.empty "Chips" 3).2 "Salsa" 2).2 "Guac" 4).2
    "Soda" 1).2

/-- The catalog `snackItems` with the cheapest-of-3 deal on Chips, Salsa and
Guac. -/
def snackCatalog : Catalog :=
  (addDeal insertionStdSort snackItems "chips,salsa,guac").2

/-- The catalog `snackCatalog` with the buy-2-get-1-free deal on Soda. -/
def sodaCatalog : Catalog :=
  (addDeal insertionStdSort snackCatalog "soda").2

/-- The cart with one Guac, one Chips and one Salsa, scanned in that order. -/
def snackCart : CheckoutRegister :=
  (scanItem snackCatalog
    (scanItem snackCatalog (scanItem snackCatalog CheckoutRegister.empty "Guac" 1).2
      "Chips" 1).2 "Salsa" 1).2

/-- The cart with five Soda. -/
def sodaCart : CheckoutRegister :=
  (scanItem sodaCatalog CheckoutRegister.empty "Soda" 5).2

/-- The cart with one Guac, two Chips, one Salsa and five Soda. -/
def mixedCart : CheckoutRegister :=
  (scanItem sodaCatalog
    (scanItem sodaCatalog
      (scanItem sodaCatalog (scanItem sodaCatalog CheckoutRegister.empty "Guac" 1).2
        "Chips" 2).2 "Salsa" 1).2 "Soda" 5).2

/-- The register as deal resolution leaves the cart with five Soda: one group
of three, two units left. -/
def sodaResolved : CheckoutRegister :=
  { cartIds := [3],
    quantityOfCartItem := fun i => if i = 3 then some 2 else none,
    potentialDeals := [1],
    dealGroups := [{ a0 := 3, a1 := 3, a2 := 3 }] }

/-! ## Sequences of calls -/

/-- A call of one of the two operations that change a catalog. -/
inductive CatalogCall where
  | addItem (name : String) (price : ℚ)
  | addDeal (names : String)

/-- The catalog after a sequence of `addItem` and `addDeal` calls, successful
or not: a call that throws leaves the catalog as it is at the throw. -/
def runCatalog (S : StdSort) : List CatalogCall → Catalog → Catalog
  | [], c => c
  | CatalogCall.addItem name price :: rest, c => runCatalog S rest (addItem c name price).2
  | CatalogCall.addDeal names :: rest, c => runCatalog S rest (addDeal S c names).2

/-- A call of one of the two operations that change a cart. -/
inductive RegisterCall where
  | scanItem (itemName : String) (quantity : Int)
  | removeItem (itemName : String)

/-- The register after a sequence of `scanItem` and `removeItem` calls,
successful or not; `none` when a call runs into undefined behaviour. -/
def runRegister (cat : Catalog) : List RegisterCall → CheckoutRegister → Option CheckoutRegister
  | [], r => some r
  | RegisterCall.scanItem itemName quantity :: rest, r =>
    match scanItem cat r itemName quantity with
    | (Status.undefined, _) => none
    | (_, r1) => runRegister cat rest r1
  | RegisterCall.removeItem itemName :: rest, r =>
    match removeItem cat r itemName with
    | (Status.undefined, _) => none
    | (_, r1) => runRegister cat rest r1

/-- The register after a sequence of `scanItem` calls that all succeed;
`none` when one of them does not. -/
def scanAll (cat : Catalog) : List (String × Int) → CheckoutRegister → Option CheckoutRegister
  | [], r => some r
  | (itemName, quantity) :: rest, r =>
    match scanItem cat r itemName quantity with
    | (Status.ok, r1) => scanAll cat rest r1
    | (_, _) => none

/-- The ids of a list, each kept at its first occurrence only. -/
def firstScans : List Int → List Int
  | [] => []
  | i :: rest => i :: (firstScans rest).filter (fun j => decide (j ≠ i))

/-- The sum of the quantities of the scans of one item id. -/
def scannedQuantity (cat : Catalog) (itemId : Int) : List (String × Int) → Int
  | [] => 0
  | (itemName, quantity) :: rest =>
    (if getItemId cat itemName = itemId then quantity else 0) + scannedQuantity cat itemId rest

/-! ## Invariants of the register -/

/-- Every register entry belongs to an id of the insertion-order list, and the
other way round. -/
def KeysMatch (r : CheckoutRegister) : Prop :=
  ∀ i, i ∈ r.cartIds ↔ (r.quantityOfCartItem i).isSome = true

/-- The invariants of the register between two checkouts, for a catalog:
quantities are not negative, the items with an entry are items of the
catalog, the deal of every item with an entry is a potential deal, and the
potential deals are deal ids of the catalog in ascending order. -/
structure RegisterInv (cat : Catalog) (r : CheckoutRegister) : Prop where
  nonneg : QuantitiesNonneg r.quantityOfCartItem
  keysValid : ∀ i, (r.quantityOfCartItem i).isSome = true → ValidItem cat i
  dealsKnown : ∀ i item, (r.quantityOfCartItem i).isSome = true →
    getItem cat i = Lookup.ref item → item.dealId ≠ -1 → item.dealId ∈ r.potentialDeals
  potentialValid : ∀ d ∈ r.potentialDeals, ValidDeal cat d
  ascending : r.potentialDeals.Pairwise (fun a b => a < b)

/-- The value of a cart: quantity times unit price, summed over the
insertion-order list. -/
def cartValue (cat : Catalog) (q : Int → Option Int) (cartIds : List Int) : ℚ :=
  (cartIds.map (fun i => (quantityOf q i : ℚ) * unitPrice cat i)).sum

/-! ## Invariants of the catalog -/

/-- The name map points at items of the catalog. -/
def MapValid (cat : Catalog) : Prop :=
  ∀ name id, cat.itemIdMap name = some id → ValidItem cat id

/-- No deal holds an item id twice. -/
def DealsNodup (cat : Catalog) : Prop :=
  ∀ deal ∈ cat.deals, deal.Nodup

instance (cat : Catalog) : Decidable (DealsNodup cat) :=
  inferInstanceAs (Decidable (∀ deal ∈ cat.deals, deal.Nodup))

/-- An item's `dealId` is `d` exactly when its id is a member of deal `d`,
and it is -1 exactly when the id is a member of no deal. -/
def DealIdsMatch (cat : Catalog) : Prop :=
  ∀ (k : Nat) (item : CatalogItem), cat.items[k]? = some item →
    (item.dealId = -1 ∨ (0 ≤ item.dealId ∧ item.dealId < cat.deals.length)) ∧
    ∀ (d : Nat) (deal : List Int), cat.deals[d]? = some deal →
      (item.dealId = (d : Int) ↔ (k : Int) ∈ deal)

/-- The members of the deals are item ids of the catalog. -/
def MembersValid (cat : Catalog) : Prop :=
  ∀ deal ∈ cat.deals, ∀ i ∈ deal, ValidItem cat i

instance (cat : Catalog) : Decidable (MembersValid cat) :=
  inferInstanceAs (Decidable (∀ deal ∈ cat.deals, ∀ i ∈ deal, ValidItem cat i))

/-- The invariants of the data model that hold in every catalog built by
`addItem` and `addDeal`. -/
structure CatalogInv (cat : Catalog) : Prop where
  mapValid : MapValid cat
  membersValid : MembersValid cat
  disjoint : DealsDisjoint cat
  nodup : DealsNodup cat
  dealIds : DealIdsMatch cat

/-- No deal of the catalog is empty. -/
def NoEmptyDeal (cat : Catalog) : Prop :=
  ∀ deal ∈ cat.deals, deal ≠ []

instance (cat : Catalog) : Decidable (NoEmptyDeal cat) :=
  inferInstanceAs (Decidable (∀ deal ∈ cat.deals, deal ≠ []))

/-! ## A second instance of `std::sort` -/

/-- Members with equal unit price are stored in the order in which they were
listed. -/
def TiesInListedOrder (cat : Catalog) (listed deal : List Int) : Prop :=
  ∀ a ∈ listed, ∀ b ∈ listed, a ≠ b → unitPrice cat a = unitPrice cat b →
    List.Sublist [a, b] listed → List.Sublist [a, b] deal

instance (cat : Catalog) (listed deal : List Int) : Decidable (TiesInListedOrder cat listed deal) :=
  inferInstanceAs (Decidable (∀ a ∈ listed, ∀ b ∈ listed, a ≠ b →
    unitPrice cat a = unitPrice cat b → List.Sublist [a, b] listed → List.Sublist [a, b] deal))

/-- Insertion sort run on the reversed input: another function that meets
the contract of `std::sort`; it stores equivalent elements in the reverse of
their input order. -/
def reversingStdSort : StdSort where
  sort := fun comp l => insertionStdSort.sort comp l.reverse
  perm := fun comp l => (insertionStdSort.perm comp l.reverse).trans (List.reverse_perm l)
  sorted := fun comp l h => insertionStdSort.sorted comp l.reverse h

/-- The catalog with Apple 1.00 and Pear 1.00 and no deal. -/
def tieCatalog : Catalog :=
  (addItem (addItem Catalog.empty "Apple" 1).2 "Pear" 1).2

/-! ## Example call sequences -/

/-- Three scans: Soda 2, Chips 1, Soda 3. -/
def sodaScans : List (String × Int) :=
  [("Soda", 2), ("Chips", 1), ("Soda", 3)]

/-- The register after the scans `sodaScans` on an empty register. -/
def scannedCart : CheckoutRegister :=
  (scanAll sodaCatalog sodaScans CheckoutRegister.empty).getD CheckoutRegister.empty

/-- Four calls: scan Guac 1, scan Soda 5, remove Guac, scan Chips 2. -/
def mixedCalls : List RegisterCall :=
  [RegisterCall.scanItem "Guac" 1, RegisterCall.scanItem "Soda" 5,
   RegisterCall.removeItem "Guac", RegisterCall.scanItem "Chips" 2]

/-- The register after the calls `mixedCalls` on a cleared register. -/
def reachedCart : CheckoutRegister :=
  (runRegister sodaCatalog mixedCalls (clearSession CheckoutRegister.empty)).getD
    CheckoutRegister.empty

/-! # Theorems -/

/-! ## The grouping loops place the units one by one -/

theorem push_curIndex_lt (itemId : Int) (b : GroupBuilder) : (push itemId b).curIndex < 3 := by
  unfold push
  split <;> simp

theorem pushN_curIndex_lt (itemId : Int) : ∀ (n : Nat) (b : GroupBuilder), b.curIndex < 3 →
    (pushN itemId n b).curIndex < 3
  | 0, _, h => h
  | n + 1, b, _ => pushN_curIndex_lt itemId n _ (push_curIndex_lt itemId b)

theorem pushN_add (itemId : Int) : ∀ (m n : Nat) (b : GroupBuilder),
    pushN itemId (m + n) b = pushN itemId n (pushN itemId m b)
  | 0, n, b => by simp [pushN]
  | m + 1, n, b => by
    rw [Nat.add_right_comm]
    simp only [pushN]
    exact pushN_add itemId m n _

theorem pushAll_append : ∀ (xs ys : List Int) (b : GroupBuilder),
    pushAll (xs ++ ys) b = pushAll ys (pushAll xs b)
  | [], _, _ => rfl
  | x :: xs, ys, b => by
    simp only [List.cons_append, pushAll]
    exact pushAll_append xs ys _

theorem pushAll_replicate (itemId : Int) : ∀ (n : Nat) (b : GroupBuilder),
    pushAll (List.replicate n itemId) b = pushN itemId n b
  | 0, _ => rfl
  | n + 1, b => by
    simp only [List.replicate_succ, pushAll, pushN]
    exact pushAll_replicate itemId n _

theorem pushAll_curIndex_lt : ∀ (xs : List Int) (b : GroupBuilder), b.curIndex < 3 →
    (pushAll xs b).curIndex < 3
  | [], _, h => h
  | x :: xs, b, _ => pushAll_curIndex_lt xs _ (push_curIndex_lt x b)

theorem groupItem_nonpos (itemId : Int) (fuel : Nat) (b : GroupBuilder) (q : Int) (hq : q ≤ 0) :
    groupItem itemId (fuel + 1) b q = some b := by
  simp [groupItem, not_lt.mpr hq]

/-- One pass of the body of `while (quantity > 0)` places
`min (3 - curIndex) quantity` units and leaves the rest to the next pass. -/
theorem groupItem_step (itemId : Int) (fuel : Nat) (b : GroupBuilder) (q : Int)
    (hb : b.curIndex < 3) (hq : 0 < q) :
    groupItem itemId (fuel + 1) b q =
      groupItem itemId fuel (pushN itemId (min (3 - b.curIndex) q.toNat) b)
        (q - (min (3 - b.curIndex) q.toNat : Nat)) := by
  obtain ⟨g, ci, dg⟩ := b
  simp only at hb
  have h1 : q = 1 ∨ q = 2 ∨ 3 ≤ q := by omega
  rcases h1 with h1 | h1 | h1
  · subst h1
    interval_cases ci <;> simp [groupItem, fillGroup, Array3.set?, pushN, push]
  · subst h1
    interval_cases ci <;> simp [groupItem, fillGroup, Array3.set?, pushN, push]
  · have e : min 3 q.toNat = 3 := by omega
    have e2 : min 2 q.toNat = 2 := by omega
    have e1 : min 1 q.toNat = 1 := by omega
    have p1 : 0 < q - 1 := by omega
    have p2 : 0 < q - 1 - 1 := by omega
    interval_cases ci <;>
      simp [groupItem, fillGroup, Array3.set?, pushN, push, e, e1, e2, hq, p1, p2]
    · congr 1
      omega
    · congr 1
      omega

/-- The loop `while (quantity > 0)` finishes within `quantity + 1` tests of
its condition and has then placed `quantity` units, one after the other. -/
theorem groupItem_eq (itemId : Int) : ∀ (n fuel : Nat) (b : GroupBuilder) (q : Int),
    b.curIndex < 3 → q.toNat = n → n < fuel →
    groupItem itemId fuel b q = some (pushN itemId n b) := by
  intro n
  induction n using Nat.strong_induction_on with
  | _ n ih =>
    intro fuel b q hb hq hfuel
    obtain ⟨fuel, rfl⟩ : ∃ f, fuel = f + 1 := ⟨fuel - 1, by omega⟩
    by_cases hpos : q ≤ 0
    · have : n = 0 := by omega
      subst this
      simp [groupItem_nonpos _ _ _ _ hpos, pushN]
    · have hq0 : 0 < q := by omega
      rw [groupItem_step itemId fuel b q hb hq0]
      have hk : 1 ≤ min (3 - b.curIndex) q.toNat := by omega
      have hkn : min (3 - b.curIndex) q.toNat ≤ n := by omega
      rw [ih (n - min (3 - b.curIndex) q.toNat) (by omega) fuel _ _
        (pushN_curIndex_lt itemId _ b hb) (by omega) (by omega)]
      rw [← pushN_add]
      congr 2
      omega

/-- The member loop finishes and has placed the units of the deal in order. -/
theorem groupDeal_eq (q : Int → Option Int) : ∀ (deal : List Int) (b : GroupBuilder),
    b.curIndex < 3 → groupDeal q deal b = some (pushAll (dealUnits q deal) b)
  | [], _, _ => rfl
  | itemId :: rest, b, hb => by
    unfold groupDeal dealUnits
    cases hq : q itemId with
    | none => simpa using groupDeal_eq q rest b hb
    | some n =>
      simp only
      rw [groupItem_eq itemId n.toNat (n.toNat + 1) b n hb rfl (Nat.lt_succ_self _)]
      simp only
      rw [pushAll_append, pushAll_replicate]
      exact groupDeal_eq q rest _ (pushN_curIndex_lt itemId _ b hb)

/-! ## Groups and leftover of a list of units -/

theorem groupsOf_of_length_lt : ∀ (P : List Int), P.length < 3 → groupsOf P = []
  | [], _ => rfl
  | [_], _ => rfl
  | [_, _], _ => rfl
  | _ :: _ :: _ :: _, h => by simp at h; omega

theorem leftoverOf_of_length_lt : ∀ (P : List Int), P.length < 3 → leftoverOf P = P
  | [], _ => rfl
  | [_], _ => rfl
  | [_, _], _ => rfl
  | _ :: _ :: _ :: _, h => by simp at h; omega

theorem Pending.length_lt {b : GroupBuilder} : ∀ {P : List Int}, Pending b P → P.length < 3
  | [], _ => by simp
  | [_], _ => by simp
  | [_, _], _ => by simp
  | _ :: _ :: _ :: _, h => by simp [Pending] at h

/-- The groups appended and the units left in the buffer after placing the
units `U` on top of a buffer holding `P`. -/
theorem pushAll_spec : ∀ (U : List Int) (b : GroupBuilder) (P : List Int), Pending b P →
    (pushAll U b).dealGroups = b.dealGroups ++ groupsOf (P ++ U) ∧
      Pending (pushAll U b) (leftoverOf (P ++ U))
  | [], b, P, h => by
    simp [pushAll, groupsOf_of_length_lt P h.length_lt, leftoverOf_of_length_lt P h.length_lt, h]
  | x :: U, b, P, h => by
    match P, h with
    | [], h =>
      have h1 : Pending (push x b) [x] := by
        simp only [Pending] at h
        simp [Pending, push, h]
      have := pushAll_spec U (push x b) [x] h1
      simp only [Pending] at h
      simpa [pushAll, push, h] using this
    | [a], h =>
      have h1 : Pending (push x b) [a, x] := by
        simp only [Pending] at h
        simp [Pending, push, h]
      have := pushAll_spec U (push x b) [a, x] h1
      simp only [Pending] at h
      simpa [pushAll, push, h] using this
    | [a, c], h =>
      have h1 : Pending (push x b) [] := by
        simp only [Pending] at h
        simp [Pending, push, h]
      have := pushAll_spec U (push x b) [] h1
      simp only [Pending] at h
      obtain ⟨hi, h0, h1'⟩ := h
      have hg : ({ b.curGroup with a2 := x } : Array3) = { a0 := a, a1 := c, a2 := x } := by
        cases hb : b.curGroup
        simp_all
      simpa [pushAll, push, hi, groupsOf, leftoverOf, hg] using this
    | _ :: _ :: _ :: _, h => simp [Pending] at h

/-- The loop `while (curIndex > 0)` returns exactly the units in the buffer. -/
theorem restoreLeftover_eq (b : GroupBuilder) (P : List Int) (h : Pending b P)
    (q : Int → Option Int) :
    restoreLeftover b.curGroup b.curIndex q = some (restoreAll P q) := by
  match P, h with
  | [], h =>
    simp only [Pending] at h
    simp [h, restoreLeftover, restoreAll]
  | [x], h =>
    simp only [Pending] at h
    simp [h, restoreLeftover, restoreAll, Array3.get?]
  | [x, y], h =>
    simp only [Pending] at h
    simp [h, restoreLeftover, restoreAll, Array3.get?]
  | _ :: _ :: _ :: _, h => simp [Pending] at h

theorem slotsOf_append : ∀ (G H : List Array3), slotsOf (G ++ H) = slotsOf G ++ slotsOf H
  | [], _ => rfl
  | g :: G, H => by simp [slotsOf, slotsOf_append G H]

theorem slotsOf_length : ∀ (G : List Array3), (slotsOf G).length = 3 * G.length
  | [] => rfl
  | g :: G => by simp [slotsOf, slotsOf_length G]; omega

/-- The units are the slots of the complete groups followed by the leftover. -/
theorem slotsOf_groupsOf_append_leftoverOf : ∀ (U : List Int),
    slotsOf (groupsOf U) ++ leftoverOf U = U
  | [] => rfl
  | [_] => rfl
  | [_, _] => rfl
  | a :: b :: c :: rest => by
    simp [groupsOf, leftoverOf, slotsOf, slotsOf_groupsOf_append_leftoverOf rest]

theorem groupsOf_length : ∀ (U : List Int), (groupsOf U).length = U.length / 3
  | [] => rfl
  | [_] => by simp [groupsOf]
  | [_, _] => by simp [groupsOf]
  | a :: b :: c :: rest => by
    simp [groupsOf, groupsOf_length rest]
    omega

theorem leftoverOf_length : ∀ (U : List Int), (leftoverOf U).length = U.length % 3
  | [] => rfl
  | [_] => by simp [leftoverOf]
  | [_, _] => by simp [leftoverOf]
  | a :: b :: c :: rest => by
    simp [leftoverOf, leftoverOf_length rest]
    omega

theorem mem_of_mem_leftoverOf {x : Int} {U : List Int} (h : x ∈ leftoverOf U) : x ∈ U := by
  rw [← slotsOf_groupsOf_append_leftoverOf U]
  exact List.mem_append_right _ h

theorem mem_of_mem_slotsOf_groupsOf {x : Int} {U : List Int} (h : x ∈ slotsOf (groupsOf U)) :
    x ∈ U := by
  rw [← slotsOf_groupsOf_append_leftoverOf U]
  exact List.mem_append_left _ h

theorem count_units (k : Int) (U : List Int) :
    (slotsOf (groupsOf U)).count k + (leftoverOf U).count k = U.count k := by
  rw [← List.count_append, slotsOf_groupsOf_append_leftoverOf]

theorem mem_slotsOf {x : Int} : ∀ {G : List Array3}, x ∈ slotsOf G ↔ ∃ g ∈ G, x ∈ g.slots
  | [] => by simp [slotsOf]
  | g :: G => by
    simp [slotsOf, Array3.slots, mem_slotsOf (G := G), or_assoc]

/-! ## The units of a deal -/

theorem mem_dealUnits {q : Int → Option Int} {x : Int} : ∀ {deal : List Int},
    x ∈ dealUnits q deal ↔ x ∈ deal ∧ ∃ n, q x = some n ∧ 0 < n
  | [] => by simp [dealUnits]
  | i :: rest => by
    unfold dealUnits
    rw [List.mem_append, @mem_dealUnits q x rest]
    cases hq : q i with
    | none =>
      simp only [List.not_mem_nil, false_or, List.mem_cons]
      constructor
      · rintro ⟨h1, h2⟩
        exact ⟨Or.inr h1, h2⟩
      · rintro ⟨h1 | h1, n, h2, h3⟩
        · subst h1
          rw [hq] at h2
          exact Option.noConfusion h2
        · exact ⟨h1, n, h2, h3⟩
    | some m =>
      simp only [List.mem_replicate, List.mem_cons]
      constructor
      · rintro (⟨h1, h2⟩ | ⟨h1, h2⟩)
        · subst h2
          exact ⟨Or.inl rfl, m, hq, by omega⟩
        · exact ⟨Or.inr h1, h2⟩
      · rintro ⟨h1 | h1, n, h2, h3⟩
        · subst h1
          rw [hq] at h2
          cases h2
          exact Or.inl ⟨by omega, rfl⟩
        · exact Or.inr ⟨h1, n, h2, h3⟩

theorem count_dealUnits (q : Int → Option Int) (k : Int) : ∀ (deal : List Int),
    (dealUnits q deal).count k = deal.count k * (quantityOf q k).toNat
  | [] => by simp [dealUnits]
  | i :: rest => by
    unfold dealUnits
    rw [List.count_append, count_dealUnits q k rest, List.count_cons]
    by_cases hik : i = k
    · subst hik
      cases hq : q i <;> simp [quantityOf, hq, List.count_replicate, Nat.add_mul]
      omega
    · cases hq : q i <;> simp [quantityOf, hq, List.count_replicate, hik]

theorem dealUnits_congr {q q1 : Int → Option Int} : ∀ {deal : List Int},
    (∀ x ∈ deal, q1 x = q x) → dealUnits q1 deal = dealUnits q deal
  | [], _ => rfl
  | i :: rest, h => by
    unfold dealUnits
    rw [h i (List.mem_cons_self _ _),
      @dealUnits_congr q q1 rest (fun x hx => h x (List.mem_cons_of_mem _ hx))]

theorem dealUnits_length (q : Int → Option Int) : ∀ (deal : List Int),
    (dealUnits q deal).length = (deal.map (fun i => (quantityOf q i).toNat)).sum
  | [] => rfl
  | i :: rest => by
    unfold dealUnits
    rw [List.length_append, dealUnits_length q rest]
    cases hq : q i <;> simp [quantityOf, hq]

/-! ## Quantities after one deal -/

theorem zeroDeal_apply (k : Int) : ∀ (deal : List Int) (q : Int → Option Int),
    zeroDeal deal q k = if k ∈ deal then (q k).map (fun _ => 0) else q k
  | [], q => by simp [zeroDeal]
  | i :: rest, q => by
    unfold zeroDeal
    cases hq : q i with
    | none =>
      simp only
      rw [zeroDeal_apply k rest q]
      by_cases hk : k = i
      · subst hk
        simp [hq]
      · simp [hk]
    | some n =>
      simp only
      rw [zeroDeal_apply k rest (mapSet q i 0)]
      by_cases hk : k = i
      · subst hk
        simp [hq, mapSet]
      · simp [hk, mapSet]

theorem restoreAll_apply (k : Int) (q : Int → Option Int) : ∀ (P : List Int),
    restoreAll P q k = if k ∈ P then some ((q k).getD 0 + (P.count k : Int)) else q k
  | [] => by simp [restoreAll]
  | x :: rest => by
    unfold restoreAll
    by_cases hk : k = x
    · subst hk
      simp only [mapSet, if_true, List.mem_cons, true_or, List.count_cons_self]
      rw [restoreAll_apply k q rest]
      by_cases hr : k ∈ rest
      · simp [hr]
        omega
      · simp [hr, List.count_eq_zero_of_not_mem hr]
    · have hx : ¬ x = k := fun h => hk h.symm
      simp only [mapSet, hk, if_false, List.mem_cons, false_or]
      rw [restoreAll_apply k q rest]
      simp [List.count_cons, hx]

theorem getDeal_of_valid {cat : Catalog} {d : Int} (h : ValidDeal cat d) :
    getDeal cat d = Lookup.ref (dealOf cat d) := by
  obtain ⟨h0, h1⟩ := h
  have hlt : d.toNat < cat.deals.length := by omega
  have hget : cat.deals[d.toNat]? = some cat.deals[d.toNat] := List.getElem?_eq_getElem hlt
  have hc : ¬ (d < 0 ∨ d > (cat.deals.length : Int)) := by omega
  simp [dealOf, getDeal, hc, hget]

/-- One pass of the loop over the potential deals: the complete groups of the
deal's units are appended, and the leftover units go back to the cart. -/
theorem resolveDeal_eq {cat : Catalog} {d : Int} (h : ValidDeal cat d) (r : CheckoutRegister) :
    resolveDeal cat d r = some
      { r with
        quantityOfCartItem :=
          restoreAll (leftoverOf (dealUnits r.quantityOfCartItem (dealOf cat d)))
            (zeroDeal (dealOf cat d) r.quantityOfCartItem),
        dealGroups :=
          r.dealGroups ++ groupsOf (dealUnits r.quantityOfCartItem (dealOf cat d)) } := by
  unfold resolveDeal
  rw [getDeal_of_valid h]
  simp only
  have hp : Pending (GroupBuilder.mk (Array3.mk (-1) (-1) (-1)) 0 r.dealGroups) [] := by
    simp [Pending]
  rw [groupDeal_eq _ _ _ (by simp)]
  simp only
  obtain ⟨h1, h2⟩ := pushAll_spec (dealUnits r.quantityOfCartItem (dealOf cat d)) _ [] hp
  rw [restoreLeftover_eq _ _ h2]
  simp only [List.nil_append] at h1 ⊢
  rw [h1]

/-- The quantity of an item after one pass: a member of the deal that has a
cart entry holds its share of the leftover, everything else is as before. -/
theorem resolveDeal_quantity (q : Int → Option Int) (deal : List Int) (k : Int) :
    restoreAll (leftoverOf (dealUnits q deal)) (zeroDeal deal q) k =
      if k ∈ deal then (q k).map (fun _ => ((leftoverOf (dealUnits q deal)).count k : Int))
      else q k := by
  rw [restoreAll_apply, zeroDeal_apply]
  by_cases hL : k ∈ leftoverOf (dealUnits q deal)
  · obtain ⟨hd, n, hn, _⟩ := mem_dealUnits.mp (mem_of_mem_leftoverOf hL)
    simp [hL, hd, hn]
  · simp [hL, List.count_eq_zero_of_not_mem hL]

/-! ## The loop over the potential deals -/

theorem dealOf_eq_getElem {cat : Catalog} {d : Int} (h : ValidDeal cat d) :
    ∃ hlt : d.toNat < cat.deals.length, dealOf cat d = cat.deals[d.toNat] := by
  obtain ⟨h0, h1⟩ := h
  have hlt : d.toNat < cat.deals.length := by omega
  have hget : cat.deals[d.toNat]? = some cat.deals[d.toNat] := List.getElem?_eq_getElem hlt
  have hc : ¬ (d < 0 ∨ d > (cat.deals.length : Int)) := by omega
  exact ⟨hlt, by simp [dealOf, getDeal, hc, hget]⟩

/-- Two different deals of a catalog with disjoint deals share no member. -/
theorem dealOf_disjoint {cat : Catalog} (hdis : DealsDisjoint cat) {d1 d2 : Int}
    (h1 : ValidDeal cat d1) (h2 : ValidDeal cat d2) (hne : d1 ≠ d2) :
    ∀ x ∈ dealOf cat d1, x ∉ dealOf cat d2 := by
  obtain ⟨l1, e1⟩ := dealOf_eq_getElem h1
  obtain ⟨l2, e2⟩ := dealOf_eq_getElem h2
  rw [e1, e2]
  have hne' : d1.toNat ≠ d2.toNat := by
    obtain ⟨a, _⟩ := h1
    obtain ⟨b, _⟩ := h2
    omega
  have hp := List.pairwise_iff_getElem.mp hdis
  rcases Nat.lt_or_gt_of_ne hne' with hlt | hgt
  · exact hp _ _ l1 l2 hlt
  · intro x hx1 hx2
    exact hp _ _ l2 l1 hgt x hx2 hx1

/-- With disjoint deals the loop over the potential deals returns, and each
deal is resolved on the quantities the cart had before the call. -/
theorem calculateDealsLoop_closed {cat : Catalog} (hdis : DealsDisjoint cat) :
    ∀ (pd : List Int) (r : CheckoutRegister), (∀ d ∈ pd, ValidDeal cat d) → pd.Nodup →
    ∃ r1, calculateDealsLoop cat pd r = some r1 ∧
      r1.cartIds = r.cartIds ∧ r1.potentialDeals = r.potentialDeals ∧
      r1.dealGroups = r.dealGroups ++ allGroups cat r.quantityOfCartItem pd ∧
      (∀ k, (∀ d ∈ pd, k ∉ dealOf cat d) → r1.quantityOfCartItem k = r.quantityOfCartItem k) ∧
      (∀ d ∈ pd, ∀ k ∈ dealOf cat d, r1.quantityOfCartItem k =
        (r.quantityOfCartItem k).map (fun _ =>
          ((leftoverOf (dealUnits r.quantityOfCartItem (dealOf cat d))).count k : Int)))
  | [], r, _, _ => ⟨r, rfl, rfl, rfl, by simp [allGroups], fun _ _ => rfl, by simp⟩
  | d :: rest, r, hv, hnd => by
    have hvd : ValidDeal cat d := hv d (List.mem_cons_self _ _)
    have hvr : ∀ e ∈ rest, ValidDeal cat e := fun e he => hv e (List.mem_cons_of_mem _ he)
    obtain ⟨hdn, hndr⟩ := List.nodup_cons.mp hnd
    obtain ⟨r1, hr1, hc, hp, hg, hout, hin⟩ :=
      calculateDealsLoop_closed hdis rest _ hvr hndr
    have hq1 : ∀ k, k ∉ dealOf cat d →
        restoreAll (leftoverOf (dealUnits r.quantityOfCartItem (dealOf cat d)))
          (zeroDeal (dealOf cat d) r.quantityOfCartItem) k = r.quantityOfCartItem k := by
      intro k hk
      rw [resolveDeal_quantity]
      simp [hk]
    have hsep : ∀ e ∈ rest, ∀ x ∈ dealOf cat e, x ∉ dealOf cat d := by
      intro e he
      have hne : e ≠ d := fun h => hdn (h ▸ he)
      exact dealOf_disjoint hdis (hvr e he) hvd hne
    have hunits : ∀ e ∈ rest,
        dealUnits (restoreAll (leftoverOf (dealUnits r.quantityOfCartItem (dealOf cat d)))
          (zeroDeal (dealOf cat d) r.quantityOfCartItem)) (dealOf cat e) =
        dealUnits r.quantityOfCartItem (dealOf cat e) := by
      intro e he
      exact dealUnits_congr (fun x hx => hq1 x (hsep e he x hx))
    have hall : ∀ (l : List Int), (∀ e ∈ l, e ∈ rest) →
        allGroups cat (restoreAll (leftoverOf (dealUnits r.quantityOfCartItem (dealOf cat d)))
          (zeroDeal (dealOf cat d) r.quantityOfCartItem)) l =
        allGroups cat r.quantityOfCartItem l := by
      intro l
      induction l with
      | nil => intro _; rfl
      | cons e l ih =>
        intro hl
        simp only [allGroups]
        rw [hunits e (hl e (List.mem_cons_self _ _)),
          ih (fun x hx => hl x (List.mem_cons_of_mem _ hx))]
    refine ⟨r1, ?_, ?_, ?_, ?_, ?_, ?_⟩
    · simp only [calculateDealsLoop, resolveDeal_eq hvd]
      exact hr1
    · simpa using hc
    · simpa using hp
    · rw [hg]
      simp only [allGroups, List.append_assoc]
      rw [hall rest (fun _ h => h)]
    · intro k hk
      rw [hout k (fun e he => hk e (List.mem_cons_of_mem _ he))]
      exact hq1 k (hk d (List.mem_cons_self _ _))
    · intro e he k hk
      rcases List.mem_cons.mp he with rfl | he
      · have hkr : ∀ e' ∈ rest, k ∉ dealOf cat e' := by
          intro e' he' hk'
          exact hsep e' he' k hk' hk
        rw [hout k hkr]
        simp only
        rw [resolveDeal_quantity]
        simp [hk]
      · rw [hin e he k hk]
        simp only
        rw [hunits e he, hq1 k (hsep e he k hk)]

theorem emitted_eq {r r1 : CheckoutRegister} {E : List Array3}
    (h : r1.dealGroups = r.dealGroups ++ E) : emitted r r1 = E := by
  simp [emitted, h]

theorem groupsOf_a0_mem : ∀ {U : List Int} {g : Array3}, g ∈ groupsOf U → g.a0 ∈ U
  | [], _, h => by simp [groupsOf] at h
  | [_], _, h => by simp [groupsOf] at h
  | [_, _], _, h => by simp [groupsOf] at h
  | a :: b :: c :: rest, g, h => by
    simp only [groupsOf, List.mem_cons] at h
    rcases h with rfl | h
    · simp
    · have := groupsOf_a0_mem h
      simp [this]

theorem groupsOf_slots_mem : ∀ {U : List Int} {g : Array3}, g ∈ groupsOf U →
    ∀ x ∈ g.slots, x ∈ U := by
  intro U g hg x hx
  exact mem_of_mem_slotsOf_groupsOf (mem_slotsOf.mpr ⟨g, hg, hx⟩)

theorem dealUnits_subset {q : Int → Option Int} {deal : List Int} {x : Int}
    (h : x ∈ dealUnits q deal) : x ∈ deal :=
  (mem_dealUnits.mp h).1

/-- With disjoint deals, the groups whose first slot is a member of a deal
are the groups cut from the units of that deal. -/
theorem filter_allGroups {cat : Catalog} (hdis : DealsDisjoint cat) (q : Int → Option Int)
    {d : Int} (hd : ValidDeal cat d) :
    ∀ (pd : List Int), (∀ e ∈ pd, ValidDeal cat e) → pd.Nodup →
      (allGroups cat q pd).filter (fun g => decide (g.a0 ∈ dealOf cat d)) =
        if d ∈ pd then groupsOf (dealUnits q (dealOf cat d)) else []
  | [], _, _ => by simp [allGroups]
  | e :: rest, hv, hnd => by
    obtain ⟨hen, hndr⟩ := List.nodup_cons.mp hnd
    have ih := filter_allGroups hdis q hd rest
      (fun x hx => hv x (List.mem_cons_of_mem _ hx)) hndr
    simp only [allGroups, List.filter_append]
    rw [ih]
    by_cases hed : e = d
    · subst hed
      have hall : (groupsOf (dealUnits q (dealOf cat e))).filter
          (fun g => decide (g.a0 ∈ dealOf cat e)) = groupsOf (dealUnits q (dealOf cat e)) := by
        rw [List.filter_eq_self]
        intro g hg
        simpa using dealUnits_subset (groupsOf_a0_mem hg)
      simp [hall, hen]
    · have hnone : (groupsOf (dealUnits q (dealOf cat e))).filter
          (fun g => decide (g.a0 ∈ dealOf cat d)) = [] := by
        rw [List.filter_eq_nil_iff]
        intro g hg
        have h1 := dealUnits_subset (groupsOf_a0_mem hg)
        simpa using dealOf_disjoint hdis (hv e (List.mem_cons_self _ _)) hd hed _ h1
      have hde : ¬ d = e := fun h => hed h.symm
      simp [hnone, hde]

/-- With disjoint deals `calculateDeals` returns; the cart list and the
potential deals are untouched, the groups of each potential deal are those
cut from its units, and each member keeps its share of the leftover. -/
theorem calculateDeals_closed {cat : Catalog} (hdis : DealsDisjoint cat) (r : CheckoutRegister)
    (hv : ∀ d ∈ r.potentialDeals, ValidDeal cat d) (hnd : r.potentialDeals.Nodup) :
    ∃ r1, calculateDeals cat r = some r1 ∧
      r1.cartIds = r.cartIds ∧ r1.potentialDeals = r.potentialDeals ∧
      emitted r r1 = allGroups cat r.quantityOfCartItem r.potentialDeals ∧
      (∀ d ∈ r.potentialDeals,
        emittedFor cat d r r1 = groupsOf (dealUnits r.quantityOfCartItem (dealOf cat d))) ∧
      (∀ k, (∀ d ∈ r.potentialDeals, k ∉ dealOf cat d) →
        r1.quantityOfCartItem k = r.quantityOfCartItem k) ∧
      (∀ d ∈ r.potentialDeals, ∀ k ∈ dealOf cat d, r1.quantityOfCartItem k =
        (r.quantityOfCartItem k).map (fun _ =>
          ((leftoverOf (dealUnits r.quantityOfCartItem (dealOf cat d))).count k : Int))) := by
  obtain ⟨r1, h1, hc, hp, hg, hout, hin⟩ :=
    calculateDealsLoop_closed hdis r.potentialDeals r hv hnd
  refine ⟨r1, h1, hc, hp, emitted_eq hg, ?_, hout, hin⟩
  intro d hd
  unfold emittedFor
  rw [emitted_eq hg, filter_allGroups hdis _ (hv d hd) _ hv hnd]
  simp [hd]

theorem natCast_sum_map (f : Int → Nat) : ∀ (l : List Int),
    (((l.map f).sum : Nat) : Int) = (l.map (fun i => (f i : Int))).sum
  | [] => rfl
  | x :: l => by simp [natCast_sum_map f l]

theorem sum_indicator (x : Int) : ∀ (deal : List Int),
    (deal.map (fun i => if x = i then 1 else 0)).sum = deal.count x
  | [] => rfl
  | i :: deal => by
    rw [List.map_cons, List.sum_cons, sum_indicator x deal, List.count_cons]
    by_cases h : x = i
    · subst h
      simp
      omega
    · have h' : ¬ i = x := fun e => h e.symm
      simp [h, h']

/-- Over a list of distinct ids that contains every element of `L`, the
counts of the ids in `L` add up to the length of `L`. -/
theorem sum_count_eq_length {deal : List Int} (hnd : deal.Nodup) : ∀ (L : List Int),
    (∀ x ∈ L, x ∈ deal) → (deal.map (fun i => L.count i)).sum = L.length
  | [], _ => by simp
  | x :: L, h => by
    have ih := sum_count_eq_length hnd L (fun y hy => h y (List.mem_cons_of_mem _ hy))
    have hx : deal.count x = 1 := List.count_eq_one_of_mem hnd (h x (List.mem_cons_self _ _))
    have hsplit : (deal.map (fun i => (x :: L).count i)) =
        deal.map (fun i => L.count i + (if x = i then 1 else 0)) := by
      apply List.map_congr_left
      intro i _
      rw [List.count_cons]
      by_cases e : x = i <;> simp [e]
    rw [hsplit, List.sum_map_add, ih, sum_indicator, hx]
    simp

theorem dealTotal_eq_length {q : Int → Option Int} (hq : QuantitiesNonneg q) :
    ∀ (deal : List Int), dealTotal q deal = ((dealUnits q deal).length : Int)
  | [] => rfl
  | i :: rest => by
    have ih := dealTotal_eq_length hq rest
    unfold dealTotal at ih ⊢
    unfold dealUnits
    rw [List.map_cons, List.sum_cons, ih, List.length_append]
    cases hqi : q i with
    | none => simp [quantityOf, hqi]
    | some n =>
      have := hq i n hqi
      simp [quantityOf, hqi]
      omega

theorem Grouping.length_le {q : Int → Option Int} {deal : List Int} {G : List Array3}
    (hnd : deal.Nodup) (hG : Grouping q deal G) : 3 * G.length ≤ (dealUnits q deal).length := by
  obtain ⟨hmem, hcount⟩ := hG
  rw [← slotsOf_length, ← sum_count_eq_length hnd (slotsOf G) hmem, dealUnits_length]
  exact List.sum_le_sum (fun i _ => hcount i)

/-- C1: for every deal id `d` of the potential-deals set whose member ids are
distinct, `calculateDeals` returns and has emitted for `d` exactly
`floor(T/3)` groups, `T` being the sum of the cart quantities of the members
of `d` (0 for a member without cart entry); no collection of disjoint
3-unit groups drawn from those units has more groups; afterwards the cart
quantities of the members of `d` sum to `T mod 3`.  The catalog and the cart
satisfy the invariants of the data model: potential deal ids are deal ids
of the catalog, the potential-deals set has no repetition, different deals
share no item, recorded quantities are not negative. -/
theorem calculateDeals_group_count (cat : Catalog) (r : CheckoutRegister)
    (hdis : DealsDisjoint cat)
    (hv : ∀ d ∈ r.potentialDeals, ValidDeal cat d) (hnd : r.potentialDeals.Nodup)
    (hq : QuantitiesNonneg r.quantityOfCartItem)
    (d : Int) (hd : d ∈ r.potentialDeals) (hdd : (dealOf cat d).Nodup) :
    ∃ r1, calculateDeals cat r = some r1 ∧
      ((emittedFor cat d r r1).length : Int)
        = dealTotal r.quantityOfCartItem (dealOf cat d) / 3 ∧
      (∀ G, Grouping r.quantityOfCartItem (dealOf cat d) G →
        (G.length : Int) ≤ dealTotal r.quantityOfCartItem (dealOf cat d) / 3) ∧
      dealTotal r1.quantityOfCartItem (dealOf cat d)
        = dealTotal r.quantityOfCartItem (dealOf cat d) % 3 := by
  obtain ⟨r1, h1, _, _, _, hfor, _, hin⟩ := calculateDeals_closed hdis r hv hnd
  have hT := dealTotal_eq_length hq (dealOf cat d)
  refine ⟨r1, h1, ?_, ?_, ?_⟩
  · rw [hfor d hd, groupsOf_length, hT]
    omega
  · intro G hG
    have := hG.length_le hdd
    rw [hT]
    omega
  · have hafter : ∀ k ∈ dealOf cat d, quantityOf r1.quantityOfCartItem k =
        (((leftoverOf (dealUnits r.quantityOfCartItem (dealOf cat d))).count k : Nat) : Int) := by
      intro k hk
      unfold quantityOf
      rw [hin d hd k hk]
      cases hqk : r.quantityOfCartItem k with
      | some n => simp
      | none =>
        have : k ∉ leftoverOf (dealUnits r.quantityOfCartItem (dealOf cat d)) := by
          intro hmem
          obtain ⟨_, n, hn, _⟩ := mem_dealUnits.mp (mem_of_mem_leftoverOf hmem)
          rw [hqk] at hn
          exact Option.noConfusion hn
        simp [List.count_eq_zero_of_not_mem this]
    have hsum : dealTotal r1.quantityOfCartItem (dealOf cat d) =
        (((dealOf cat d).map (fun i =>
          (leftoverOf (dealUnits r.quantityOfCartItem (dealOf cat d))).count i)).sum : Nat) := by
      rw [natCast_sum_map]
      unfold dealTotal
      congr 1
      exact List.map_congr_left hafter
    rw [hsum, sum_count_eq_length hdd _
      (fun x hx => dealUnits_subset (mem_of_mem_leftoverOf hx)), leftoverOf_length, hT]
    omega

/-- With disjoint deals, an item of one deal fills slots only in the groups of
that deal. -/
theorem count_slotsOf_allGroups {cat : Catalog} (hdis : DealsDisjoint cat)
    (q : Int → Option Int) {d : Int} (hd : ValidDeal cat d) {k : Int} (hk : k ∈ dealOf cat d) :
    ∀ (pd : List Int), (∀ e ∈ pd, ValidDeal cat e) → pd.Nodup →
      (slotsOf (allGroups cat q pd)).count k =
        if d ∈ pd then (slotsOf (groupsOf (dealUnits q (dealOf cat d)))).count k else 0
  | [], _, _ => by simp [allGroups, slotsOf]
  | e :: rest, hv, hnd => by
    obtain ⟨hen, hndr⟩ := List.nodup_cons.mp hnd
    have ih := count_slotsOf_allGroups hdis q hd hk rest
      (fun x hx => hv x (List.mem_cons_of_mem _ hx)) hndr
    simp only [allGroups, slotsOf_append, List.count_append]
    rw [ih]
    by_cases hed : e = d
    · subst hed
      simp [hen]
    · have hnot : k ∉ slotsOf (groupsOf (dealUnits q (dealOf cat e))) := by
        intro hmem
        have h1 := dealUnits_subset (mem_of_mem_slotsOf_groupsOf hmem)
        exact dealOf_disjoint hdis (hv e (List.mem_cons_self _ _)) hd hed _ h1 hk
      have hde : ¬ d = e := fun h => hed h.symm
      simp [List.count_eq_zero_of_not_mem hnot, hde]

/-- C2: `calculateDeals` conserves units.  For every item that is a member of
a deal of the potential-deals set, the number of slots holding the item in
the groups emitted by the call plus the item's cart quantity after the call
is the item's cart quantity before the call (0 for an item without cart
entry).  The catalog and the cart satisfy the invariants of the data model:
potential deal ids are deal ids of the catalog, the potential-deals set has
no repetition, no item occurs in two deals or twice in its deal, recorded
quantities are not negative. -/
theorem calculateDeals_conserves_units (cat : Catalog) (r : CheckoutRegister)
    (hdis : DealsDisjoint cat)
    (hv : ∀ d ∈ r.potentialDeals, ValidDeal cat d) (hnd : r.potentialDeals.Nodup)
    (hq : QuantitiesNonneg r.quantityOfCartItem) :
    ∃ r1, calculateDeals cat r = some r1 ∧
      ∀ d ∈ r.potentialDeals, (dealOf cat d).Nodup → ∀ i ∈ dealOf cat d,
        ((slotsOf (emitted r r1)).count i : Int) + quantityOf r1.quantityOfCartItem i
          = quantityOf r.quantityOfCartItem i := by
  obtain ⟨r1, h1, _, _, hall, _, _, hin⟩ := calculateDeals_closed hdis r hv hnd
  refine ⟨r1, h1, ?_⟩
  intro d hd hdd i hi
  rw [hall, count_slotsOf_allGroups hdis _ (hv d hd) hi _ hv hnd]
  simp only [hd, if_true]
  have hunits := count_units i (dealUnits r.quantityOfCartItem (dealOf cat d))
  rw [count_dealUnits, List.count_eq_one_of_mem hdd hi, Nat.one_mul] at hunits
  unfold quantityOf at hunits ⊢
  rw [hin d hd i hi]
  cases hqi : r.quantityOfCartItem i with
  | none =>
    rw [hqi] at hunits
    simp at hunits ⊢
    omega
  | some n =>
    have hn := hq i n hqi
    rw [hqi] at hunits
    simp at hunits ⊢
    omega

/-! ## Price order inside a group -/

theorem dealUnits_pairwise {R : Int → Int → Prop} (hrefl : ∀ a, R a a)
    (q : Int → Option Int) : ∀ {deal : List Int}, deal.Pairwise R →
    (dealUnits q deal).Pairwise R
  | [], _ => by simp [dealUnits]
  | i :: rest, h => by
    obtain ⟨hi, hrest⟩ := List.pairwise_cons.mp h
    unfold dealUnits
    rw [List.pairwise_append]
    refine ⟨?_, dealUnits_pairwise hrefl q hrest, ?_⟩
    · cases q i with
      | none => simp
      | some n => exact List.pairwise_replicate.mpr (Or.inr (hrefl i))
    · intro a ha b hb
      have hb' := dealUnits_subset hb
      cases hqi : q i with
      | none => simp [hqi] at ha
      | some n =>
        rw [hqi] at ha
        obtain rfl := (List.mem_replicate.mp ha).2
        exact hi b hb'

theorem groupsOf_ordered {R : Int → Int → Prop} : ∀ {U : List Int}, U.Pairwise R →
    ∀ g ∈ groupsOf U, R g.a0 g.a1 ∧ R g.a1 g.a2
  | [], _, g, hg => by simp [groupsOf] at hg
  | [_], _, g, hg => by simp [groupsOf] at hg
  | [_, _], _, g, hg => by simp [groupsOf] at hg
  | a :: b :: c :: rest, h, g, hg => by
    simp only [groupsOf, List.mem_cons] at hg
    rcases hg with rfl | hg
    · simp only [List.pairwise_cons, List.mem_cons] at h
      exact ⟨h.1 b (Or.inl rfl), h.2.1 c (Or.inl rfl)⟩
    · have h3 : rest.Pairwise R := by
        simp only [List.pairwise_cons] at h
        exact h.2.2.2
      exact groupsOf_ordered h3 g hg

/-- C4: for every deal whose member ids are stored in non-increasing price
order and every cart, each group `calculateDeals` emits for the deal has
price(slot 1) >= price(slot 2) >= price(slot 3), so the third slot, the one
the receipt prints as FREE, is a cheapest unit of its group.  The catalog
and the register satisfy the invariants of the data model: potential deal
ids are deal ids of the catalog, the potential-deals set has no repetition,
different deals share no item. -/
theorem calculateDeals_group_price_order (cat : Catalog) (r : CheckoutRegister)
    (hdis : DealsDisjoint cat)
    (hv : ∀ d ∈ r.potentialDeals, ValidDeal cat d) (hnd : r.potentialDeals.Nodup)
    (d : Int) (hd : d ∈ r.potentialDeals) (hs : PriceSorted cat (dealOf cat d)) :
    ∃ r1, calculateDeals cat r = some r1 ∧
      ∀ g ∈ emittedFor cat d r r1,
        unitPrice cat g.a0 ≥ unitPrice cat g.a1 ∧ unitPrice cat g.a1 ≥ unitPrice cat g.a2 ∧
        cheapest cat g = unitPrice cat g.a2 := by
  obtain ⟨r1, h1, _, _, _, hfor, _, _⟩ := calculateDeals_closed hdis r hv hnd
  refine ⟨r1, h1, ?_⟩
  intro g hg
  rw [hfor d hd] at hg
  have hU := dealUnits_pairwise (R := fun a b => unitPrice cat a ≥ unitPrice cat b)
    (fun a => le_refl _) r.quantityOfCartItem hs
  obtain ⟨h01, h12⟩ := groupsOf_ordered hU g hg
  refine ⟨h01, h12, ?_⟩
  unfold cheapest
  rw [min_eq_right h12, min_eq_right (le_trans h12 h01)]

/-! ## Every emitted group is full -/

theorem groupsOf_slots_positive {q : Int → Option Int} {deal : List Int} {g : Array3}
    (hg : g ∈ groupsOf (dealUnits q deal)) :
    ∀ x ∈ g.slots, x ∈ deal ∧ ∃ n, q x = some n ∧ 0 < n :=
  fun x hx => mem_dealUnits.mp (groupsOf_slots_mem hg x hx)

/-- The loop over the potential deals returns whenever the deal ids are deal
ids of the catalog; it keeps the set of cart entries, and every group it
appends is made of members of one of the deals that have a cart entry. -/
theorem calculateDealsLoop_emitted (cat : Catalog) :
    ∀ (pd : List Int) (r : CheckoutRegister), (∀ d ∈ pd, ValidDeal cat d) →
    ∃ r1, calculateDealsLoop cat pd r = some r1 ∧
      (∀ k, (r1.quantityOfCartItem k).isSome = (r.quantityOfCartItem k).isSome) ∧
      ∃ E, r1.dealGroups = r.dealGroups ++ E ∧
        ∀ g ∈ E, ∃ d ∈ pd, ∀ x ∈ g.slots,
          x ∈ dealOf cat d ∧ (r.quantityOfCartItem x).isSome = true
  | [], r, _ => ⟨r, rfl, fun _ => rfl, [], by simp, by simp⟩
  | d :: rest, r, hv => by
    have hvd : ValidDeal cat d := hv d (List.mem_cons_self _ _)
    obtain ⟨r1, hr1, hkeys, E, hE, hmem⟩ := calculateDealsLoop_emitted cat rest
      { r with
        quantityOfCartItem :=
          restoreAll (leftoverOf (dealUnits r.quantityOfCartItem (dealOf cat d)))
            (zeroDeal (dealOf cat d) r.quantityOfCartItem),
        dealGroups :=
          r.dealGroups ++ groupsOf (dealUnits r.quantityOfCartItem (dealOf cat d)) }
      (fun e he => hv e (List.mem_cons_of_mem _ he))
    have hsame : ∀ k, (restoreAll (leftoverOf (dealUnits r.quantityOfCartItem (dealOf cat d)))
        (zeroDeal (dealOf cat d) r.quantityOfCartItem) k).isSome
          = (r.quantityOfCartItem k).isSome := by
      intro k
      rw [resolveDeal_quantity]
      by_cases hk : k ∈ dealOf cat d
      · cases r.quantityOfCartItem k <;> simp [hk]
      · simp [hk]
    refine ⟨r1, ?_, ?_, groupsOf (dealUnits r.quantityOfCartItem (dealOf cat d)) ++ E, ?_, ?_⟩
    · simp only [calculateDealsLoop, resolveDeal_eq hvd]
      exact hr1
    · intro k
      rw [hkeys k]
      exact hsame k
    · rw [hE]
      simp
    · intro g hg
      rcases List.mem_append.mp hg with hg | hg
      · refine ⟨d, List.mem_cons_self _ _, ?_⟩
        intro x hx
        obtain ⟨h1, n, hn, _⟩ := groupsOf_slots_positive hg x hx
        exact ⟨h1, by simp [hn]⟩
      · obtain ⟨e, he, hx⟩ := hmem g hg
        refine ⟨e, List.mem_cons_of_mem _ he, ?_⟩
        intro x hxs
        obtain ⟨h1, h2⟩ := hx x hxs
        refine ⟨h1, ?_⟩
        simp only at h2
        rw [hsame x] at h2
        exact h2

/-- C5: `calculateDeals` never emits a group with fewer than three filled
slots.  Whenever the potential deal ids are deal ids of the catalog and the
members of those deals are item ids (so none is the empty marker -1), the
call returns and every group it appended has no slot equal to -1, and its
three slots hold ids of members of one potential deal, each with an entry
in the cart. -/
theorem calculateDeals_groups_full (cat : Catalog) (r : CheckoutRegister)
    (hv : ∀ d ∈ r.potentialDeals, ValidDeal cat d)
    (hm : ∀ d ∈ r.potentialDeals, ∀ x ∈ dealOf cat d, ValidItem cat x) :
    ∃ r1, calculateDeals cat r = some r1 ∧
      ∀ g ∈ emitted r r1,
        (g.a0 ≠ -1 ∧ g.a1 ≠ -1 ∧ g.a2 ≠ -1) ∧
        ∃ d ∈ r.potentialDeals, ∀ x ∈ g.slots,
          x ∈ dealOf cat d ∧ (r.quantityOfCartItem x).isSome = true := by
  obtain ⟨r1, h1, _, E, hE, hmem⟩ := calculateDealsLoop_emitted cat r.potentialDeals r hv
  refine ⟨r1, h1, ?_⟩
  intro g hg
  rw [emitted_eq hE] at hg
  obtain ⟨d, hd, hx⟩ := hmem g hg
  have hne : ∀ x ∈ g.slots, x ≠ -1 := by
    intro x hxs
    have := (hm d hd x (hx x hxs).1).1
    omega
  refine ⟨⟨hne _ (by simp [Array3.slots]), hne _ (by simp [Array3.slots]),
    hne _ (by simp [Array3.slots])⟩, d, hd, hx⟩

/-! ## The greedy groups save the most -/

theorem thirds_nonneg : ∀ (L : List ℚ), (∀ x ∈ L, 0 ≤ x) → 0 ≤ thirds L
  | [], _ => le_refl _
  | [_], _ => le_refl _
  | [_, _], _ => le_refl _
  | a :: b :: c :: rest, h => by
    have hc : 0 ≤ c := h c (by simp)
    have hr := thirds_nonneg rest (fun x hx => h x (by simp [hx]))
    simp only [thirds]
    linarith

theorem indicator_le_one (p : Prop) [Decidable p] : (if p then 1 else 0) ≤ 1 := by
  split <;> simp

/-- Among prices in non-increasing order, numbers `M` of which, for every
threshold, three times as many reach the threshold as there are prices
reaching it, sum to at most every third price. -/
theorem thirds_optimal : ∀ (M L : List ℚ), M.Pairwise (fun a b => a ≥ b) →
    L.Pairwise (fun a b => a ≥ b) → (∀ x ∈ L, 0 ≤ x) →
    (∀ v : ℚ, 3 * M.countP (fun x => decide (v ≤ x)) ≤ L.countP (fun x => decide (v ≤ x))) →
    M.sum ≤ thirds L
  | [], L, _, _, hnn, _ => by simpa using thirds_nonneg L hnn
  | m :: M, [], _, _, _, hP => by
    have h3 := hP m
    simp [List.countP_cons] at h3
  | m :: M, [a], _, _, _, hP => by
    have h3 := hP m
    have := indicator_le_one (decide (m ≤ a) = true)
    simp only [List.countP_cons, List.countP_nil, le_refl, decide_True, if_true] at h3
    omega
  | m :: M, [a, b], _, _, _, hP => by
    have h3 := hP m
    have := indicator_le_one (decide (m ≤ a) = true)
    have := indicator_le_one (decide (m ≤ b) = true)
    simp only [List.countP_cons, List.countP_nil, le_refl, decide_True, if_true] at h3
    omega
  | m :: M, a :: b :: c :: R, hM, hL, hnn, hP => by
    obtain ⟨hm, hM'⟩ := List.pairwise_cons.mp hM
    have hR : R.Pairwise (fun a b => a ≥ b) := by
      simp only [List.pairwise_cons] at hL
      exact hL.2.2.2
    have hcR : ∀ x ∈ R, c ≥ x := by
      simp only [List.pairwise_cons] at hL
      exact hL.2.2.1
    have hmc : m ≤ c := by
      by_contra hlt
      have hlt : c < m := not_le.mp hlt
      have hzero : R.countP (fun x => decide (m ≤ x)) = 0 := by
        rw [List.countP_eq_zero]
        intro x hx
        have := hcR x hx
        simp only [decide_eq_true_eq, not_le]
        exact lt_of_le_of_lt this hlt
      have hc0 : (if decide (m ≤ c) = true then 1 else 0) = 0 := by
        simp [not_le.mpr hlt]
      have h3 := hP m
      have := indicator_le_one (decide (m ≤ a) = true)
      have := indicator_le_one (decide (m ≤ b) = true)
      simp only [List.countP_cons, hzero, hc0, le_refl, decide_True, if_true] at h3
      omega
    have ih := thirds_optimal M R hM' hR (fun x hx => hnn x (by simp [hx])) (by
      intro v
      by_cases hv : v ≤ m
      · have h3 := hP v
        have := indicator_le_one (decide (v ≤ a) = true)
        have := indicator_le_one (decide (v ≤ b) = true)
        have := indicator_le_one (decide (v ≤ c) = true)
        simp only [List.countP_cons, hv, decide_True, if_true] at h3
        omega
      · have hzero : M.countP (fun x => decide (v ≤ x)) = 0 := by
          rw [List.countP_eq_zero]
          intro x hx
          have := hm x hx
          simp only [decide_eq_true_eq, not_le]
          exact lt_of_le_of_lt this (not_le.mp hv)
        rw [hzero]
        omega)
    simp only [List.sum_cons, thirds]
    linarith

theorem savingsOf_groupsOf (cat : Catalog) : ∀ (U : List Int),
    savingsOf cat (groupsOf U) = thirds (U.map (unitPrice cat))
  | [] => rfl
  | [_] => rfl
  | [_, _] => rfl
  | a :: b :: c :: rest => by
    have ih := savingsOf_groupsOf cat rest
    unfold savingsOf at ih ⊢
    simp [groupsOf, thirds, ih]

/-- A group whose cheapest unit reaches a threshold has three units that
reach it. -/
theorem countP_cheapest_le (cat : Catalog) (v : ℚ) : ∀ (G : List Array3),
    3 * (G.map (cheapest cat)).countP (fun x => decide (v ≤ x)) ≤
      (slotsOf G).countP (fun i => decide (v ≤ unitPrice cat i))
  | [] => by simp [slotsOf]
  | g :: G => by
    have ih := countP_cheapest_le cat v G
    simp only [List.map_cons, slotsOf, List.countP_cons]
    by_cases hv : v ≤ cheapest cat g
    · have h0 : v ≤ unitPrice cat g.a0 := le_trans hv (min_le_left _ _)
      have h1 : v ≤ unitPrice cat g.a1 :=
        le_trans hv (le_trans (min_le_right _ _) (min_le_left _ _))
      have h2 : v ≤ unitPrice cat g.a2 :=
        le_trans hv (le_trans (min_le_right _ _) (min_le_right _ _))
      simp only [hv, h0, h1, h2, decide_True, if_true]
      omega
    · have e : (if decide (v ≤ cheapest cat g) = true then 1 else 0) = 0 := by simp [hv]
      rw [e]
      omega

/-- The slots of a grouping are units of the deal in the cart. -/
theorem Grouping.subperm {q : Int → Option Int} {deal : List Int} {G : List Array3}
    (hG : Grouping q deal G) : List.Subperm (slotsOf G) (dealUnits q deal) := by
  obtain ⟨hmem, hcount⟩ := hG
  rw [List.subperm_ext_iff]
  intro x hx
  rw [count_dealUnits]
  have h1 : 1 ≤ deal.count x := List.count_pos_iff.mpr (hmem x hx)
  calc (slotsOf G).count x ≤ (quantityOf q x).toNat := hcount x
    _ = 1 * (quantityOf q x).toNat := (Nat.one_mul _).symm
    _ ≤ deal.count x * (quantityOf q x).toNat := Nat.mul_le_mul_right _ h1

/-- The groups cut from the units of a deal stored in non-increasing price
order save at least as much as any grouping of the cart's units of the deal. -/
theorem savingsOf_groupsOf_optimal (cat : Catalog) (q : Int → Option Int) (deal : List Int)
    (hs : PriceSorted cat deal) (hnn : ∀ i ∈ deal, 0 ≤ unitPrice cat i)
    (G : List Array3) (hG : Grouping q deal G) :
    (G.map (cheapest cat)).sum ≤ savingsOf cat (groupsOf (dealUnits q deal)) := by
  rw [savingsOf_groupsOf]
  have hperm := List.perm_insertionSort (fun a b : ℚ => a ≥ b) (G.map (cheapest cat))
  rw [← hperm.sum_eq]
  apply thirds_optimal
  · exact List.sorted_insertionSort (fun a b : ℚ => a ≥ b) _
  · rw [List.pairwise_map]
    exact dealUnits_pairwise (R := fun a b => unitPrice cat a ≥ unitPrice cat b)
      (fun a => le_refl _) q hs
  · intro x hx
    obtain ⟨i, hi, rfl⟩ := List.mem_map.mp hx
    exact hnn i (dealUnits_subset hi)
  · intro v
    rw [hperm.countP_eq]
    have hmap : ((dealUnits q deal).map (unitPrice cat)).countP (fun x => decide (v ≤ x)) =
        (dealUnits q deal).countP (fun i => decide (v ≤ unitPrice cat i)) := by
      rw [List.countP_map]
      rfl
    rw [hmap]
    exact le_trans (countP_cheapest_le cat v G) (hG.subperm.countP_le _)

/-- C3: for every deal whose member ids are stored in non-increasing price
order and whose prices are not negative, and for every cart, the savings of
the groups `calculateDeals` emits for the deal (the sum of the unit prices
of their third slots) is at least the savings of any other grouping: any
collection of disjoint 3-unit groups drawn from the cart's units of the
deal's members, each group saving the price of its cheapest unit.  The
catalog and the register satisfy the invariants of the data model:
potential deal ids are deal ids of the catalog, the potential-deals set has
no repetition, different deals share no item. -/
theorem calculateDeals_savings_optimal (cat : Catalog) (r : CheckoutRegister)
    (hdis : DealsDisjoint cat)
    (hv : ∀ d ∈ r.potentialDeals, ValidDeal cat d) (hnd : r.potentialDeals.Nodup)
    (d : Int) (hd : d ∈ r.potentialDeals) (hs : PriceSorted cat (dealOf cat d))
    (hnn : ∀ i ∈ dealOf cat d, 0 ≤ unitPrice cat i) :
    ∃ r1, calculateDeals cat r = some r1 ∧
      ∀ G, Grouping r.quantityOfCartItem (dealOf cat d) G →
        (G.map (cheapest cat)).sum ≤ savingsOf cat (emittedFor cat d r r1) := by
  obtain ⟨r1, h1, _, _, _, hfor, _, _⟩ := calculateDeals_closed hdis r hv hnd
  refine ⟨r1, h1, ?_⟩
  intro G hG
  rw [hfor d hd]
  exact savingsOf_groupsOf_optimal cat _ _ hs hnn G hG

/-! ## The totals of the receipt -/

theorem getItem_of_valid {cat : Catalog} {id : Int} (h : ValidItem cat id) :
    ∃ item, getItem cat id = Lookup.ref item ∧ item.price = unitPrice cat id := by
  obtain ⟨h0, h1⟩ := h
  have hlt : id.toNat < cat.items.length := by omega
  have hget : cat.items[id.toNat]? = some cat.items[id.toNat] := List.getElem?_eq_getElem hlt
  have hc : ¬ (id < 0 ∨ id > (cat.items.length : Int)) := by omega
  exact ⟨cat.items[id.toNat], by simp [getItem, hc, hget], by simp [unitPrice, priceAt, hget]⟩

/-- The rows of one group: the first two slots are charged, merged into one
row at doubled price when they hold the same id, and the third is saved. -/
theorem receiptGroup_eq (cat : Catalog) (g : Array3) (acc : Receipt)
    (h : ∀ x ∈ g.slots, ValidItem cat x) :
    receiptGroup cat g 4 0 acc = some
      { total := acc.total + (unitPrice cat g.a0 + unitPrice cat g.a1),
        savings := acc.savings + unitPrice cat g.a2 } := by
  obtain ⟨a0, a1, a2⟩ := g
  obtain ⟨i0, e0, p0⟩ := getItem_of_valid (h a0 (by simp [Array3.slots]))
  obtain ⟨i1, e1, p1⟩ := getItem_of_valid (h a1 (by simp [Array3.slots]))
  obtain ⟨i2, e2, p2⟩ := getItem_of_valid (h a2 (by simp [Array3.slots]))
  by_cases hm : a0 = a1
  · subst hm
    simp [receiptGroup, Array3.get?, e0, e2, p0, p2]
    ring
  · simp [receiptGroup, Array3.get?, e0, e1, e2, hm, p0, p1, p2]
    ring

theorem receiptGroups_eq (cat : Catalog) : ∀ (groups : List Array3) (acc : Receipt),
    (∀ g ∈ groups, ∀ x ∈ g.slots, ValidItem cat x) →
    receiptGroups cat groups acc = some
      { total := acc.total + chargedOf cat groups,
        savings := acc.savings + savingsOf cat groups }
  | [], acc, _ => by simp [receiptGroups, chargedOf, savingsOf]
  | g :: rest, acc, h => by
    unfold receiptGroups
    rw [receiptGroup_eq cat g acc (h g (List.mem_cons_self _ _))]
    simp only
    rw [receiptGroups_eq cat rest _ (fun g' hg' => h g' (List.mem_cons_of_mem _ hg'))]
    simp only [chargedOf, savingsOf, List.map_cons, List.sum_cons]
    congr 2 <;> ring

theorem receiptItems_eq (cat : Catalog) (q : Int → Option Int) (hq : QuantitiesNonneg q) :
    ∀ (cartIds : List Int) (acc : Receipt), (∀ i ∈ cartIds, ValidItem cat i) →
    receiptItems cat q cartIds acc = some
      { total := acc.total + remainingOf cat q cartIds, savings := acc.savings }
  | [], acc, _ => by simp [receiptItems, remainingOf]
  | i :: rest, acc, h => by
    have ih := fun acc' => receiptItems_eq cat q hq rest acc'
      (fun j hj => h j (List.mem_cons_of_mem _ hj))
    unfold receiptItems
    cases hqi : q i with
    | none =>
      simp only
      rw [ih]
      simp [remainingOf, List.filter_cons, quantityOf, hqi]
    | some n =>
      simp only
      have hn := hq i n hqi
      by_cases h0 : n = 0
      · subst h0
        simp only [if_true]
        rw [ih]
        simp [remainingOf, List.filter_cons, quantityOf, hqi]
      · obtain ⟨item, e, p⟩ := getItem_of_valid (h i (List.mem_cons_self _ _))
        have hpos : 0 < n := by omega
        simp only [h0, if_false, e]
        rw [ih]
        simp [remainingOf, List.filter_cons, quantityOf, hqi, hpos, p]
        ring

/-- The two totals `printReceipt` computes. -/
theorem printReceipt_eq (cat : Catalog) (r : CheckoutRegister)
    (hg : ∀ g ∈ r.dealGroups, ∀ x ∈ g.slots, ValidItem cat x)
    (hc : ∀ i ∈ r.cartIds, ValidItem cat i)
    (hq : QuantitiesNonneg r.quantityOfCartItem) :
    printReceipt cat r = some
        { total := chargedOf cat r.dealGroups
            + remainingOf cat r.quantityOfCartItem r.cartIds,
          savings := savingsOf cat r.dealGroups } := by
  unfold printReceipt
  rw [receiptGroups_eq cat _ _ hg]
  simp only
  rw [receiptItems_eq cat _ hq _ _ hc]
  simp

/-- C7: for every list of deal groups and every cart as deal resolution leaves
it (no negative quantity), `printReceipt` returns with savings = the sum over
the groups of the unit price of slot 3, and grand total = the sum over the
groups of (unit price of slot 1 + unit price of slot 2) plus the sum over the
cart items with quantity > 0 of quantity * unit price.  Per group this is
what one pass of the slot loop adds, whether slots 1 and 2 hold the same id
(one row, doubled price) or not; the price of slot 3 goes to the savings
only.  The ids in the groups and in the cart are item ids of the catalog. -/
theorem printReceipt_totals (cat : Catalog) (r : CheckoutRegister)
    (hg : ∀ g ∈ r.dealGroups, ∀ x ∈ g.slots, ValidItem cat x)
    (hc : ∀ i ∈ r.cartIds, ValidItem cat i)
    (hq : QuantitiesNonneg r.quantityOfCartItem) :
    printReceipt cat r = some
        { total := chargedOf cat r.dealGroups
            + remainingOf cat r.quantityOfCartItem r.cartIds,
          savings := savingsOf cat r.dealGroups } ∧
      ∀ g ∈ r.dealGroups, ∀ acc : Receipt,
        receiptGroup cat g 4 0 acc = some
          { total := acc.total + (unitPrice cat g.a0 + unitPrice cat g.a1),
            savings := acc.savings + unitPrice cat g.a2 } ∧
        (g.a0 = g.a1 →
          unitPrice cat g.a0 + unitPrice cat g.a1 = unitPrice cat g.a0 * 2) := by
  refine ⟨printReceipt_eq cat r hg hc hq, ?_⟩
  intro g hgm acc
  refine ⟨receiptGroup_eq cat g acc (hg g hgm), ?_⟩
  intro h
  rw [← h]
  ring

/-! ## Buy two, get one free -/

theorem groupsOf_replicate (i : Int) : ∀ (n : Nat),
    groupsOf (List.replicate n i) = List.replicate (n / 3) { a0 := i, a1 := i, a2 := i }
  | 0 => rfl
  | 1 => rfl
  | 2 => rfl
  | n + 3 => by
    have e : (n + 3) / 3 = n / 3 + 1 := by omega
    rw [e]
    simp only [List.replicate_succ, groupsOf]
    rw [groupsOf_replicate i n]

theorem leftoverOf_replicate (i : Int) : ∀ (n : Nat),
    leftoverOf (List.replicate n i) = List.replicate (n % 3) i
  | 0 => rfl
  | 1 => rfl
  | 2 => rfl
  | n + 3 => by
    have e : (n + 3) % 3 = n % 3 := by omega
    rw [e]
    simp only [List.replicate_succ, leftoverOf]
    exact leftoverOf_replicate i n

theorem validDeal_of_getDeal {cat : Catalog} {d : Int} {deal : List Int}
    (h : getDeal cat d = Lookup.ref deal) : ValidDeal cat d ∧ dealOf cat d = deal := by
  have hd : dealOf cat d = deal := by simp [dealOf, h]
  refine ⟨?_, hd⟩
  unfold getDeal at h
  split_ifs at h with hc
  cases hget : cat.deals[d.toNat]? with
  | none => simp [hget] at h
  | some x =>
    obtain ⟨hlt, _⟩ := List.getElem?_eq_some_iff.mp hget
    constructor <;> omega

theorem validItem_of_getItem {cat : Catalog} {i : Int} {item : CatalogItem}
    (h : getItem cat i = Lookup.ref item) : ValidItem cat i ∧ unitPrice cat i = item.price := by
  unfold getItem at h
  split_ifs at h with hc
  cases hget : cat.items[i.toNat]? with
  | none => simp [hget] at h
  | some x =>
    have hx : x = item := by simpa [hget] using h
    obtain ⟨hlt, _⟩ := List.getElem?_eq_some_iff.mp hget
    refine ⟨by constructor <;> omega, ?_⟩
    simp [unitPrice, priceAt, hget, hx]

/-- C6: a single-member (buy-2-get-1-free) deal on an item of unit price `p`,
and a cart holding only `q >= 1` units of that item (one scan on an empty
register).  Deal resolution emits exactly `floor(q/3)` groups, each with all
three slots equal to the item, and leaves the item's quantity at `q mod 3`;
checkout returns a receipt with savings = `floor(q/3) * p` and grand total =
`(q - floor(q/3)) * p`, and clears the register. -/
theorem checkOut_buy_two_get_one (cat : Catalog) (itemName : String) (i d q : Int)
    (item : CatalogItem)
    (hid : getItemId cat itemName = i) (hitem : getItem cat i = Lookup.ref item)
    (hdeal : item.dealId = d) (hd : getDeal cat d = Lookup.ref [i]) (hq : 1 ≤ q) :
    (scanItem cat CheckoutRegister.empty itemName q).1 = Status.ok ∧
    ∃ r1, calculateDeals cat (scanItem cat CheckoutRegister.empty itemName q).2 = some r1 ∧
      r1.dealGroups = List.replicate (q / 3).toNat { a0 := i, a1 := i, a2 := i } ∧
      r1.quantityOfCartItem i = some (q % 3) ∧
      (∀ k, k ≠ i → r1.quantityOfCartItem k = none) ∧
      checkOut cat (scanItem cat CheckoutRegister.empty itemName q).2 = some
        ({ total := ((q - q / 3 : Int) : ℚ) * item.price,
           savings := ((q / 3 : Int) : ℚ) * item.price }, clearSession r1) := by
  obtain ⟨hvd, hdo⟩ := validDeal_of_getDeal hd
  obtain ⟨hvi, hp⟩ := validItem_of_getItem hitem
  have hi1 : i ≠ -1 := by
    obtain ⟨h0, _⟩ := hvi
    omega
  have hd1 : d ≠ -1 := by
    obtain ⟨h0, _⟩ := hvd
    omega
  have hscan : scanItem cat CheckoutRegister.empty itemName q =
      (Status.ok, { cartIds := [i], quantityOfCartItem := mapSet (fun _ => none) i q,
                    potentialDeals := [d], dealGroups := [] }) := by
    simp [scanItem, not_lt.mpr hq, hid, hi1, CheckoutRegister.empty, hitem, hdeal, hd1,
      setInsert]
  rw [hscan]
  simp only
  have hunits : dealUnits (mapSet (fun _ => none) i q) [i] = List.replicate q.toNat i := by
    simp [dealUnits, mapSet]
  have hcalc : calculateDeals cat
      { cartIds := [i], quantityOfCartItem := mapSet (fun _ => none) i q,
        potentialDeals := [d], dealGroups := [] } = some
      { cartIds := [i],
        quantityOfCartItem := restoreAll (List.replicate (q.toNat % 3) i)
          (zeroDeal [i] (mapSet (fun _ => none) i q)),
        potentialDeals := [d],
        dealGroups := List.replicate (q.toNat / 3) { a0 := i, a1 := i, a2 := i } } := by
    simp [calculateDeals, calculateDealsLoop, resolveDeal_eq hvd, hdo, hunits,
      groupsOf_replicate, leftoverOf_replicate]
  have hqi : restoreAll (List.replicate (q.toNat % 3) i)
      (zeroDeal [i] (mapSet (fun _ => none) i q)) i = some (q % 3) := by
    rw [restoreAll_apply, zeroDeal_apply]
    by_cases h0 : q.toNat % 3 = 0
    · have : q % 3 = 0 := by omega
      simp [h0, mapSet, this]
    · have hmem : i ∈ List.replicate (q.toNat % 3) i := by
        simp [List.mem_replicate, h0]
      simp only [hmem, if_true, List.count_replicate_self]
      simp [mapSet]
      omega
  have hqk : ∀ k, k ≠ i → restoreAll (List.replicate (q.toNat % 3) i)
      (zeroDeal [i] (mapSet (fun _ => none) i q)) k = none := by
    intro k hk
    rw [restoreAll_apply, zeroDeal_apply]
    have hmem : k ∉ List.replicate (q.toNat % 3) i := by
      intro h
      exact hk (List.mem_replicate.mp h).2
    simp [hmem, hk, mapSet]
  have hdiv : (q / 3).toNat = q.toNat / 3 := by omega
  refine ⟨trivial, _, hcalc, ?_, hqi, hqk, ?_⟩
  · simp only
    rw [hdiv]
  · unfold checkOut
    rw [hcalc]
    simp only
    have hnn : QuantitiesNonneg (restoreAll (List.replicate (q.toNat % 3) i)
        (zeroDeal [i] (mapSet (fun _ => none) i q))) := by
      intro k n hk
      by_cases hki : k = i
      · subst hki
        rw [hqi] at hk
        cases hk
        omega
      · rw [hqk k hki] at hk
        exact Option.noConfusion hk
    have hpr := printReceipt_eq cat
      { cartIds := [i],
        quantityOfCartItem := restoreAll (List.replicate (q.toNat % 3) i)
          (zeroDeal [i] (mapSet (fun _ => none) i q)),
        potentialDeals := [d],
        dealGroups := List.replicate (q.toNat / 3) { a0 := i, a1 := i, a2 := i } }
      (by
        intro g hg x hx
        obtain rfl := (List.mem_replicate.mp hg).2
        simp only [Array3.slots, List.mem_cons, List.mem_singleton, List.not_mem_nil,
          or_false, or_self] at hx
        rw [hx]
        exact hvi)
      (by
        intro k hk
        simp only [List.mem_singleton] at hk
        rw [hk]
        exact hvi)
      hnn
    rw [hpr]
    simp only [Option.some.injEq, Prod.mk.injEq, and_true]
    have hcharged : chargedOf cat (List.replicate (q.toNat / 3) { a0 := i, a1 := i, a2 := i })
        = ((q / 3 : Int) : ℚ) * (item.price + item.price) := by
      simp only [chargedOf, List.map_replicate, List.sum_replicate, hp, nsmul_eq_mul]
      rw [← hdiv]
      have : (((q / 3).toNat : ℕ) : ℚ) = ((q / 3 : Int) : ℚ) := by
        have h3 : 0 ≤ q / 3 := by omega
        exact_mod_cast congrArg (Int.cast : Int → ℚ) (Int.toNat_of_nonneg h3)
      rw [this]
    have hsaved : savingsOf cat (List.replicate (q.toNat / 3) { a0 := i, a1 := i, a2 := i })
        = ((q / 3 : Int) : ℚ) * item.price := by
      simp only [savingsOf, List.map_replicate, List.sum_replicate, hp, nsmul_eq_mul]
      rw [← hdiv]
      have : (((q / 3).toNat : ℕ) : ℚ) = ((q / 3 : Int) : ℚ) := by
        have h3 : 0 ≤ q / 3 := by omega
        exact_mod_cast congrArg (Int.cast : Int → ℚ) (Int.toNat_of_nonneg h3)
      rw [this]
    have hrem : remainingOf cat (restoreAll (List.replicate (q.toNat % 3) i)
        (zeroDeal [i] (mapSet (fun _ => none) i q))) [i] = ((q % 3 : Int) : ℚ) * item.price := by
      unfold remainingOf
      by_cases h0 : 0 < q % 3
      · simp [List.filter_cons, quantityOf, hqi, h0, hp]
      · have : q % 3 = 0 := by omega
        simp [List.filter_cons, quantityOf, hqi, this]
    rw [hcharged, hsaved, hrem]
    have hsplit : ((q - q / 3 : Int) : ℚ) = ((q / 3 : Int) : ℚ) * 2 + ((q % 3 : Int) : ℚ) := by
      have : q - q / 3 = q / 3 * 2 + q % 3 := by omega
      rw [this]
      push_cast
      ring
    rw [hsplit]
    congr 1
    ring

/-! ## Catalog lookups by id -/

/-- Inside the dense range `getItem` returns the stored item, and it throws
for every id below 0 and every id above the number of items. -/
theorem getItem_range (c : Catalog) (id : Int) :
    ((id < 0 ∨ (c.items.length : Int) < id) → getItem c id = Lookup.runtime_error) ∧
    (∀ h : 0 ≤ id ∧ id.toNat < c.items.length,
      getItem c id = Lookup.ref (c.items.get ⟨id.toNat, h.2⟩)) := by
  constructor
  · intro h
    have hc : id < 0 ∨ id > (c.items.length : Int) := h
    simp [getItem, hc]
  · rintro ⟨h0, hlt⟩
    have hc : ¬ (id < 0 ∨ id > (c.items.length : Int)) := by omega
    simp [getItem, hc, List.getElem?_eq_getElem hlt]

/-- Inside the dense range `getDeal` returns the stored deal, and it throws
for every id below 0 and every id above the number of deals. -/
theorem getDeal_range (c : Catalog) (id : Int) :
    ((id < 0 ∨ (c.deals.length : Int) < id) → getDeal c id = Lookup.runtime_error) ∧
    (∀ h : 0 ≤ id ∧ id.toNat < c.deals.length,
      getDeal c id = Lookup.ref (c.deals.get ⟨id.toNat, h.2⟩)) := by
  constructor
  · intro h
    have hc : id < 0 ∨ id > (c.deals.length : Int) := h
    simp [getDeal, hc]
  · rintro ⟨h0, hlt⟩
    have hc : ¬ (id < 0 ∨ id > (c.deals.length : Int)) := by omega
    simp [getDeal, hc, List.getElem?_eq_getElem hlt]

/-- C9 (the code at the failing input): for the id equal to the number of
items, the first id past the dense range, `getItem` does not throw: the
guard `itemId > items.size()` lets it through and `items[itemId]` reads past
the end of the vector.  `getDeal` does the same at the number of deals. -/
theorem getItem_getDeal_at_size (c : Catalog) :
    getItem c c.items.length = Lookup.undefined ∧
    getDeal c c.deals.length = Lookup.undefined := by
  constructor
  · simp [getItem]
  · simp [getDeal]

/-! ## `addDeal` -/

/-- C8 (the code at the failing inputs): a deal row naming an item that is not
in the catalog, and a deal row naming an item that already has a deal, both
make `addDeal` throw, but the catalog is not as before: a new deal has been
appended (holding the ids read before the offending name), and the items
read before the offending name carry the new deal id. -/
theorem addDeal_failure_changes_catalog :
    (addDeal insertionStdSort chipsCatalog "chips,zzz").1 = Status.runtime_error ∧
    chipsCatalog.deals = [] ∧
    (addDeal insertionStdSort chipsCatalog "chips,zzz").2.deals = [[0]] ∧
    chipsCatalog.items.map (fun it => it.dealId) = [-1] ∧
    (addDeal insertionStdSort chipsCatalog "chips,zzz").2.items.map (fun it => it.dealId) = [0] ∧
    (addDeal insertionStdSort snackCatalog "soda,chips").1 = Status.runtime_error ∧
    snackCatalog.deals = [[2, 0, 1]] ∧
    (addDeal insertionStdSort snackCatalog "soda,chips").2.deals = [[2, 0, 1], [3]] ∧
    snackCatalog.items.map (fun it => it.dealId) = [0, 0, 0, -1] ∧
    (addDeal insertionStdSort snackCatalog "soda,chips").2.items.map (fun it => it.dealId)
      = [0, 0, 0, 1] := by
  decide

theorem backPushBack_append (id : Int) (deal : List Int) : ∀ (ds : List (List Int)),
    backPushBack (ds ++ [deal]) id = ds ++ [deal ++ [id]]
  | [] => rfl
  | [d] => by simp [backPushBack]
  | d :: e :: ds => by
    have ih := backPushBack_append id deal (e :: ds)
    simp only [List.cons_append] at ih ⊢
    simp only [backPushBack, ih]

theorem sortBack_append (S : StdSort) (comp : Int → Int → Bool) (deal : List Int) :
    ∀ (ds : List (List Int)), sortBack S comp (ds ++ [deal]) = ds ++ [S.sort comp deal]
  | [] => rfl
  | [d] => by simp [sortBack]
  | d :: e :: ds => by
    have ih := sortBack_append S comp deal (e :: ds)
    simp only [List.cons_append] at ih ⊢
    simp only [sortBack, ih]

theorem strictWeak_priceGreater (items : List CatalogItem) : StrictWeak (priceGreater items) := by
  refine ⟨?_, ?_, ?_⟩
  · intro a
    simp [priceGreater]
  · intro a b c hab hbc
    simp only [priceGreater, decide_eq_true_eq] at *
    exact lt_trans hbc hab
  · intro a b c hab hbc
    simp only [priceGreater, decide_eq_false_iff_not, not_lt, gt_iff_lt] at *
    exact le_trans hab hbc

/-- What a run of the name loop that reaches the end of the names has done. -/
theorem addDealLoop_ok (dealId : Int) : ∀ (names : List String) (c c2 : Catalog)
    (ds : List (List Int)) (deal0 : List Int), c.deals = ds ++ [deal0] →
    addDealLoop dealId names c = (Status.ok, c2) →
    c2.itemIdMap = c.itemIdMap ∧ c2.items.length = c.items.length ∧
    c2.deals = ds ++ [deal0 ++ names.map (getItemId c)] ∧
    (∀ k, priceAt c2.items k = priceAt c.items k) ∧
    (∀ (k : Nat) (it : CatalogItem), c.items[k]? = some it → it.dealId = dealId →
      ∃ it2, c2.items[k]? = some it2 ∧ it2.dealId = dealId) ∧
    (∀ name ∈ names, 0 ≤ getItemId c name ∧
      ∃ it2, c2.items[(getItemId c name).toNat]? = some it2 ∧ it2.dealId = dealId)
  | [], c, c2, ds, deal0, hdeals, h => by
    simp only [addDealLoop, Prod.mk.injEq, true_and] at h
    subst h
    refine ⟨rfl, rfl, by simpa using hdeals, fun _ => rfl, ?_, by simp⟩
    intro k it hk hit
    exact ⟨it, hk, hit⟩
  | name :: rest, c, c2, ds, deal0, hdeals, h => by
    unfold addDealLoop at h
    cases hmap : c.itemIdMap name with
    | none => simp [hmap] at h
    | some id =>
      simp only [hmap] at h
      by_cases hneg : id < 0
      · simp [hneg] at h
      · simp only [hneg, if_false] at h
        cases hget : c.items[id.toNat]? with
        | none => simp [hget] at h
        | some item =>
          simp only [hget] at h
          by_cases hdid : item.dealId ≠ -1
          · simp [hdid] at h
          · simp only [hdid, if_false] at h
            have hdeals' : (backPushBack c.deals id) = ds ++ [deal0 ++ [id]] := by
              rw [hdeals, backPushBack_append]
            obtain ⟨hm, hl, hd, hp, hk, hn⟩ := addDealLoop_ok dealId rest _ c2 ds
              (deal0 ++ [id]) hdeals' h
            have hid : getItemId c name = id := by simp [getItemId, hmap]
            have hsame : ∀ n, getItemId
                { c with items := c.items.set id.toNat { item with dealId := dealId },
                         deals := backPushBack c.deals id } n = getItemId c n := fun _ => rfl
            have hset : ∀ k : Nat, (c.items.set id.toNat { item with dealId := dealId })[k]? =
                if id.toNat = k then some { item with dealId := dealId } else c.items[k]? := by
              intro k
              rw [List.getElem?_set]
              by_cases e : id.toNat = k
              · subst e
                have hlt := (List.getElem?_eq_some_iff.mp hget).1
                simp [hlt]
              · simp [e]
            refine ⟨hm, ?_, ?_, ?_, ?_, ?_⟩
            · rw [hl]
              simp
            · rw [hd]
              simp [hid, hsame]
            · intro k
              rw [hp k]
              simp only [priceAt, hset]
              by_cases e : id.toNat = k.toNat
              · rw [if_pos e, ← e, hget]
              · rw [if_neg e]
            · intro k it hkit hit
              by_cases e : id.toNat = k
              · exact hk k { item with dealId := dealId } (by rw [hset, if_pos e]) rfl
              · exact hk k it (by rw [hset, if_neg e]; exact hkit) hit
            · intro n hn'
              rcases List.mem_cons.mp hn' with rfl | hn'
              · rw [hid]
                refine ⟨by omega, ?_⟩
                exact hk id.toNat { item with dealId := dealId } (by rw [hset, if_pos rfl]) rfl
              · have := hn n hn'
                simpa [hsame] using this

/-- C10: after a successful `addDeal` over a list of item names on a catalog
holding `M` deals, the catalog holds `M+1` deals, `getDeal(M)` is a
permutation of the ids of the listed items, every listed item's `dealId` is
`M`, and the unit prices along `getDeal(M)` are non-increasing. -/
theorem addDeal_ok (S : StdSort) (c : Catalog) (names : String)
    (h : (addDeal S c names).1 = Status.ok) :
    (addDeal S c names).2.deals.length = c.deals.length + 1 ∧
    ∃ deal, getDeal (addDeal S c names).2 c.deals.length = Lookup.ref deal ∧
      deal.Perm ((dealNames names).map (getItemId c)) ∧
      (∀ name ∈ dealNames names, ∃ item,
        getItem (addDeal S c names).2 (getItemId c name) = Lookup.ref item ∧
        item.dealId = c.deals.length) ∧
      deal.Pairwise (fun a b =>
        unitPrice (addDeal S c names).2 a ≥ unitPrice (addDeal S c names).2 b) := by
  unfold addDeal at h ⊢
  by_cases he : names.data = []
  · simp [he] at h
  · simp only [he, if_false] at h ⊢
    cases hloop : addDealLoop (c.deals.length : Int) (dealNames names)
        { c with deals := c.deals ++ [[]] } with
    | mk st c2 =>
      rw [hloop] at h
      cases st with
      | runtime_error => simp at h
      | undefined => simp at h
      | ok =>
        simp only
        obtain ⟨_, hl, hd, hp, _, hn⟩ := addDealLoop_ok _ _ _ c2 c.deals [] rfl hloop
        have hgid : getItemId { c with deals := c.deals ++ [[]] } = getItemId c := rfl
        simp only [List.nil_append, hgid] at hd hn
        rw [hd, sortBack_append]
        refine ⟨by simp, S.sort (priceGreater c2.items) ((dealNames names).map (getItemId c)),
          ?_, S.perm _ _, ?_, ?_⟩
        · have hc : ¬ ((c.deals.length : Int) < 0) := by omega
          simp [getDeal, hc]
        · intro name hname
          obtain ⟨h0, it2, hit, hdeal⟩ := hn name hname
          refine ⟨it2, ?_, hdeal⟩
          have hlt := (List.getElem?_eq_some_iff.mp hit).1
          have hc : ¬ (getItemId c name < 0 ∨
              getItemId c name > (c2.items.length : Int)) := by omega
          simp [getItem, hc, hit]
        · have hs := S.sorted (priceGreater c2.items) ((dealNames names).map (getItemId c))
            (strictWeak_priceGreater c2.items)
          refine hs.imp ?_
          intro a b hab
          simp only [priceGreater, decide_eq_false_iff_not, not_lt, gt_iff_lt] at hab
          exact hab

/-! ## Quantities stay non-negative -/

theorem quantitiesNonneg_empty : QuantitiesNonneg CheckoutRegister.empty.quantityOfCartItem := by
  intro i n h
  simp [CheckoutRegister.empty] at h

/-- A scan keeps every recorded quantity at 0 or more. -/
theorem scanItem_quantitiesNonneg (cat : Catalog) (r : CheckoutRegister) (itemName : String)
    (quantity : Int) (h : QuantitiesNonneg r.quantityOfCartItem) :
    QuantitiesNonneg (scanItem cat r itemName quantity).2.quantityOfCartItem := by
  unfold scanItem
  by_cases h1 : quantity < 1
  · simpa [h1] using h
  · simp only [h1, if_false]
    by_cases h2 : getItemId cat itemName = -1
    · simpa [h2] using h
    · simp only [h2, if_false]
      have hset : ∀ v : Int, 0 ≤ v →
          QuantitiesNonneg (mapSet r.quantityOfCartItem (getItemId cat itemName) v) := by
        intro v hv i n hi
        unfold mapSet at hi
        by_cases e : i = getItemId cat itemName
        · simp only [e, if_true, Option.some.injEq] at hi
          omega
        · simp only [e, if_false] at hi
          exact h i n hi
      cases hq : r.quantityOfCartItem (getItemId cat itemName) with
      | some q0 =>
        have hq0 := h _ _ hq
        simp only
        by_cases h3 : q0 + quantity > INT_MAX
        · simpa [h3] using h
        · simp only [h3, if_false]
          exact hset _ (by omega)
      | none =>
        simp only
        cases getItem cat (getItemId cat itemName) with
        | ref item =>
          simp only
          split <;> exact hset _ (by omega)
        | runtime_error => exact hset _ (by omega)
        | undefined => exact hset _ (by omega)

/-- Deal resolution keeps every recorded quantity at 0 or more. -/
theorem calculateDealsLoop_quantitiesNonneg (cat : Catalog) :
    ∀ (pd : List Int) (r r1 : CheckoutRegister), (∀ d ∈ pd, ValidDeal cat d) →
    QuantitiesNonneg r.quantityOfCartItem → calculateDealsLoop cat pd r = some r1 →
    QuantitiesNonneg r1.quantityOfCartItem
  | [], r, r1, _, hq, h => by
    simp only [calculateDealsLoop, Option.some.injEq] at h
    subst h
    exact hq
  | d :: rest, r, r1, hv, hq, h => by
    simp only [calculateDealsLoop, resolveDeal_eq (hv d (List.mem_cons_self _ _))] at h
    refine calculateDealsLoop_quantitiesNonneg cat rest _ r1
      (fun e he => hv e (List.mem_cons_of_mem _ he)) ?_ h
    intro k n hk
    simp only at hk
    rw [resolveDeal_quantity] at hk
    by_cases hkd : k ∈ dealOf cat d
    · simp only [hkd, if_true] at hk
      cases hqk : r.quantityOfCartItem k with
      | none => simp [hqk] at hk
      | some m =>
        simp only [hqk, Option.map_some', Option.some.injEq] at hk
        omega
    · simp only [hkd, if_false] at hk
      exact hq k n hk

/-! ## The statements at concrete catalogs and carts -/

theorem quantitiesNonneg_mixedCart : QuantitiesNonneg mixedCart.quantityOfCartItem :=
  scanItem_quantitiesNonneg _ _ _ _ (scanItem_quantitiesNonneg _ _ _ _
    (scanItem_quantitiesNonneg _ _ _ _ (scanItem_quantitiesNonneg _ _ _ _
      quantitiesNonneg_empty)))

theorem quantitiesNonneg_sodaResolved : QuantitiesNonneg sodaResolved.quantityOfCartItem := by
  intro i n h
  simp only [sodaResolved] at h
  split_ifs at h
  · cases h
    omega

theorem sodaCatalog_items : sodaCatalog.items =
    [{ name := "Chips", price := 3, dealId := 0 }, { name := "Salsa", price := 2, dealId := 0 },
     { name := "Guac", price := 4, dealId := 0 }, { name := "Soda", price := 1, dealId := 1 }] := by
  decide

theorem sodaCatalog_disjoint : DealsDisjoint sodaCatalog := by
  decide

theorem mixedCart_validDeals : ∀ d ∈ mixedCart.potentialDeals, ValidDeal sodaCatalog d := by
  decide

theorem mixedCart_nodup : mixedCart.potentialDeals.Nodup := by
  decide

set_option maxHeartbeats 4000000 in
theorem mixedCart_resolved :
    (calculateDeals sodaCatalog mixedCart).map
        (fun r => (r.dealGroups, [0, 1, 2, 3].map r.quantityOfCartItem)) =
      some ([{ a0 := 2, a1 := 0, a2 := 0 }, { a0 := 3, a1 := 3, a2 := 3 }],
        [some 0, some 1, some 0, some 2]) := by
  decide

/-- C1 at the catalog with the deals {Guac, Chips, Salsa} and {Soda} and the
cart Guac 1, Chips 2, Salsa 1, Soda 5: for the Soda deal `T = 5`, one group
is emitted and 2 units stay; the call as a whole emits the groups
[Guac, Chips, Chips] and [Soda, Soda, Soda]. -/
theorem calculateDeals_group_count_witness :
    (DealsDisjoint sodaCatalog ∧ (∀ d ∈ mixedCart.potentialDeals, ValidDeal sodaCatalog d) ∧
      mixedCart.potentialDeals.Nodup ∧ QuantitiesNonneg mixedCart.quantityOfCartItem ∧
      (1 : Int) ∈ mixedCart.potentialDeals ∧ (dealOf sodaCatalog 1).Nodup) ∧
    dealTotal mixedCart.quantityOfCartItem (dealOf sodaCatalog 1) = 5 ∧
    (calculateDeals sodaCatalog mixedCart).map (fun r => r.dealGroups) =
      some [{ a0 := 2, a1 := 0, a2 := 0 }, { a0 := 3, a1 := 3, a2 := 3 }] ∧
    ∃ r1, calculateDeals sodaCatalog mixedCart = some r1 ∧
      ((emittedFor sodaCatalog 1 mixedCart r1).length : Int)
        = dealTotal mixedCart.quantityOfCartItem (dealOf sodaCatalog 1) / 3 ∧
      (∀ G, Grouping mixedCart.quantityOfCartItem (dealOf sodaCatalog 1) G →
        (G.length : Int) ≤ dealTotal mixedCart.quantityOfCartItem (dealOf sodaCatalog 1) / 3) ∧
      dealTotal r1.quantityOfCartItem (dealOf sodaCatalog 1)
        = dealTotal mixedCart.quantityOfCartItem (dealOf sodaCatalog 1) % 3 :=
  ⟨⟨sodaCatalog_disjoint, mixedCart_validDeals, mixedCart_nodup, quantitiesNonneg_mixedCart,
      by decide, by decide⟩,
    by decide, by decide,
    calculateDeals_group_count sodaCatalog mixedCart sodaCatalog_disjoint mixedCart_validDeals
      mixedCart_nodup quantitiesNonneg_mixedCart 1 (by decide) (by decide)⟩

/-- C2 at the cart Guac 1, Chips 2, Salsa 1, Soda 5: the call emits
[Guac, Chips, Chips] and [Soda, Soda, Soda] and leaves Salsa 1 and Soda 2. -/
theorem calculateDeals_conserves_units_witness :
    (DealsDisjoint sodaCatalog ∧ (∀ d ∈ mixedCart.potentialDeals, ValidDeal sodaCatalog d) ∧
      mixedCart.potentialDeals.Nodup ∧ QuantitiesNonneg mixedCart.quantityOfCartItem) ∧
    (calculateDeals sodaCatalog mixedCart).map
        (fun r => (r.dealGroups, [0, 1, 2, 3].map r.quantityOfCartItem)) =
      some ([{ a0 := 2, a1 := 0, a2 := 0 }, { a0 := 3, a1 := 3, a2 := 3 }],
        [some 0, some 1, some 0, some 2]) ∧
    ∃ r1, calculateDeals sodaCatalog mixedCart = some r1 ∧
      ∀ d ∈ mixedCart.potentialDeals, (dealOf sodaCatalog d).Nodup →
        ∀ i ∈ dealOf sodaCatalog d,
          ((slotsOf (emitted mixedCart r1)).count i : Int)
              + quantityOf r1.quantityOfCartItem i
            = quantityOf mixedCart.quantityOfCartItem i :=
  ⟨⟨sodaCatalog_disjoint, mixedCart_validDeals, mixedCart_nodup, quantitiesNonneg_mixedCart⟩,
    mixedCart_resolved,
    calculateDeals_conserves_units sodaCatalog mixedCart sodaCatalog_disjoint
      mixedCart_validDeals mixedCart_nodup quantitiesNonneg_mixedCart⟩

/-- C3 at the cart Guac 1, Chips 2, Salsa 1, Soda 5, for the deal
{Guac 4.00, Chips 3.00, Salsa 2.00}. -/
theorem calculateDeals_savings_optimal_witness :
    (DealsDisjoint sodaCatalog ∧ (∀ d ∈ mixedCart.potentialDeals, ValidDeal sodaCatalog d) ∧
      mixedCart.potentialDeals.Nodup ∧ (0 : Int) ∈ mixedCart.potentialDeals ∧
      PriceSorted sodaCatalog (dealOf sodaCatalog 0) ∧
      (∀ i ∈ dealOf sodaCatalog 0, 0 ≤ unitPrice sodaCatalog i)) ∧
    ∃ r1, calculateDeals sodaCatalog mixedCart = some r1 ∧
      ∀ G, Grouping mixedCart.quantityOfCartItem (dealOf sodaCatalog 0) G →
        (G.map (cheapest sodaCatalog)).sum
          ≤ savingsOf sodaCatalog (emittedFor sodaCatalog 0 mixedCart r1) :=
  ⟨⟨sodaCatalog_disjoint, mixedCart_validDeals, mixedCart_nodup, by decide, by decide,
      by decide⟩,
    calculateDeals_savings_optimal sodaCatalog mixedCart sodaCatalog_disjoint
      mixedCart_validDeals mixedCart_nodup 0 (by decide) (by decide) (by decide)⟩

/-- C4 at the deal with members Guac 4.00, Chips 3.00, Salsa 2.00 and one unit
of each in the cart: the single group is [Guac, Chips, Salsa], Salsa in the
third slot. -/
theorem calculateDeals_group_price_order_witness :
    (DealsDisjoint snackCatalog ∧ (∀ d ∈ snackCart.potentialDeals, ValidDeal snackCatalog d) ∧
      snackCart.potentialDeals.Nodup ∧ (0 : Int) ∈ snackCart.potentialDeals ∧
      PriceSorted snackCatalog (dealOf snackCatalog 0)) ∧
    snackCatalog.items.map (fun it => it.name) = ["Chips", "Salsa", "Guac", "Soda"] ∧
    (calculateDeals snackCatalog snackCart).map (fun r => r.dealGroups) =
      some [{ a0 := 2, a1 := 0, a2 := 1 }] ∧
    ∃ r1, calculateDeals snackCatalog snackCart = some r1 ∧
      ∀ g ∈ emittedFor snackCatalog 0 snackCart r1,
        unitPrice snackCatalog g.a0 ≥ unitPrice snackCatalog g.a1 ∧
        unitPrice snackCatalog g.a1 ≥ unitPrice snackCatalog g.a2 ∧
        cheapest snackCatalog g = unitPrice snackCatalog g.a2 :=
  ⟨⟨by decide, by decide, by decide, by decide, by decide⟩, by decide, by decide,
    calculateDeals_group_price_order snackCatalog snackCart (by decide) (by decide)
      (by decide) 0 (by decide) (by decide)⟩

/-- C5 at the cart Guac 1, Chips 2, Salsa 1, Soda 5. -/
theorem calculateDeals_groups_full_witness :
    ((∀ d ∈ mixedCart.potentialDeals, ValidDeal sodaCatalog d) ∧
      (∀ d ∈ mixedCart.potentialDeals, ∀ x ∈ dealOf sodaCatalog d, ValidItem sodaCatalog x)) ∧
    ∃ r1, calculateDeals sodaCatalog mixedCart = some r1 ∧
      ∀ g ∈ emitted mixedCart r1,
        (g.a0 ≠ -1 ∧ g.a1 ≠ -1 ∧ g.a2 ≠ -1) ∧
        ∃ d ∈ mixedCart.potentialDeals, ∀ x ∈ g.slots,
          x ∈ dealOf sodaCatalog d ∧ (mixedCart.quantityOfCartItem x).isSome = true :=
  ⟨⟨mixedCart_validDeals, by decide⟩,
    calculateDeals_groups_full sodaCatalog mixedCart mixedCart_validDeals (by decide)⟩

/-- C6 at Soda, 1.00 a unit, with 5 units in the cart: one group, 2 units
left, grand total 4.00, savings 1.00. -/
theorem checkOut_buy_two_get_one_witness :
    (getItemId sodaCatalog "Soda" = 3 ∧
      getItem sodaCatalog 3 = Lookup.ref { name := "Soda", price := 1, dealId := 1 } ∧
      getDeal sodaCatalog 1 = Lookup.ref [3] ∧ (1 : Int) ≤ 5) ∧
    ∃ r1, calculateDeals sodaCatalog sodaCart = some r1 ∧
      r1.dealGroups = [{ a0 := 3, a1 := 3, a2 := 3 }] ∧
      r1.quantityOfCartItem 3 = some 2 ∧
      checkOut sodaCatalog sodaCart = some ({ total := 4, savings := 1 }, clearSession r1) := by
  refine ⟨⟨by decide, by decide, by decide, by decide⟩, ?_⟩
  obtain ⟨_, r1, h1, hg, hq, _, hc⟩ := checkOut_buy_two_get_one sodaCatalog "Soda" 3 1 5
    { name := "Soda", price := 1, dealId := 1 } (by decide) (by decide) rfl (by decide)
    (by decide)
  refine ⟨r1, h1, ?_, ?_, ?_⟩
  · rw [hg]
    decide
  · rw [hq]
    decide
  · unfold sodaCart
    rw [hc]
    norm_num

/-- C7 at the register deal resolution leaves for five Soda at 1.00: the
group [Soda, Soda, Soda] is charged 2.00 and saves 1.00, the two units left
are charged 2.00. -/
theorem printReceipt_totals_witness :
    ((∀ g ∈ sodaResolved.dealGroups, ∀ x ∈ g.slots, ValidItem sodaCatalog x) ∧
      (∀ i ∈ sodaResolved.cartIds, ValidItem sodaCatalog i) ∧
      QuantitiesNonneg sodaResolved.quantityOfCartItem) ∧
    printReceipt sodaCatalog sodaResolved = some { total := 4, savings := 1 } := by
  refine ⟨⟨by decide, by decide, quantitiesNonneg_sodaResolved⟩, ?_⟩
  rw [(printReceipt_totals sodaCatalog sodaResolved (by decide) (by decide)
    quantitiesNonneg_sodaResolved).1]
  simp [chargedOf, savingsOf, remainingOf, unitPrice, priceAt, sodaCatalog_items, sodaResolved,
    quantityOf]
  norm_num

/-- C10 at the catalog Chips 3.00, Salsa 2.00, Guac 4.00, Soda 1.00 without
deals and the row "chips,salsa,guac": the new deal 0 is stored as
[Guac, Chips, Salsa]. -/
theorem addDeal_ok_witness :
    (addDeal insertionStdSort snackItems "chips,salsa,guac").1 = Status.ok ∧
    (addDeal insertionStdSort snackItems "chips,salsa,guac").2.deals = [[2, 0, 1]] ∧
    ((addDeal insertionStdSort snackItems "chips,salsa,guac").2.deals.length
        = snackItems.deals.length + 1 ∧
      ∃ deal, getDeal (addDeal insertionStdSort snackItems "chips,salsa,guac").2
          snackItems.deals.length = Lookup.ref deal ∧
        deal.Perm ((dealNames "chips,salsa,guac").map (getItemId snackItems)) ∧
        (∀ name ∈ dealNames "chips,salsa,guac", ∃ item,
          getItem (addDeal insertionStdSort snackItems "chips,salsa,guac").2
            (getItemId snackItems name) = Lookup.ref item ∧
          item.dealId = snackItems.deals.length) ∧
        deal.Pairwise (fun a b =>
          unitPrice (addDeal insertionStdSort snackItems "chips,salsa,guac").2 a
            ≥ unitPrice (addDeal insertionStdSort snackItems "chips,salsa,guac").2 b)) :=
  ⟨by decide, by decide,
    addDeal_ok insertionStdSort snackItems "chips,salsa,guac" (by decide)⟩

/-! ## `addItem` and the name map -/

/-- C14: `addItem` with a name that is already present in the catalog, or with
one of the reserved names (Remove, Cart, Items, Deals, Checkout, Options),
throws and leaves the catalog as it was: the items and their number, the
name-to-id map and the deals are those of before the call. -/
theorem addItem_rejected (c : Catalog) (name : String) (price : ℚ)
    (h : name ∈ reservedNames ∨ (c.itemIdMap name).isSome = true) :
    (addItem c name price).1 = Status.runtime_error ∧
    (addItem c name price).2.items.length = c.items.length ∧
    (addItem c name price).2.itemIdMap = c.itemIdMap ∧
    (addItem c name price).2.deals = c.deals ∧
    (addItem c name price).2.items = c.items := by
  unfold addItem
  rcases h with h | h
  · simp [h]
  · by_cases hr : name ∈ reservedNames
    · simp [hr]
    · simp [hr, h]

theorem reservedNames_eq :
    reservedNames = ["Remove", "Cart", "Items", "Deals", "Checkout", "Options"] := rfl

/-- The name loop of `addDeal` never touches the name map or the number of
items, however it ends. -/
theorem addDealLoop_map (dealId : Int) : ∀ (names : List String) (c : Catalog),
    (addDealLoop dealId names c).2.itemIdMap = c.itemIdMap ∧
    (addDealLoop dealId names c).2.items.length = c.items.length
  | [], c => ⟨rfl, rfl⟩
  | name :: rest, c => by
    unfold addDealLoop
    cases hmap : c.itemIdMap name with
    | none => exact ⟨rfl, rfl⟩
    | some id =>
      simp only
      by_cases hneg : id < 0
      · simp [hneg]
      · simp only [hneg, if_false]
        cases hget : c.items[id.toNat]? with
        | none => exact ⟨rfl, rfl⟩
        | some item =>
          simp only
          by_cases hd : item.dealId ≠ -1
          · simp [hd]
          · simp only [hd, if_false]
            obtain ⟨h1, h2⟩ := addDealLoop_map dealId rest
              { c with items := c.items.set id.toNat { item with dealId := dealId },
                       deals := backPushBack c.deals id }
            exact ⟨h1, by rw [h2]; simp⟩

theorem addDeal_map (S : StdSort) (c : Catalog) (names : String) :
    (addDeal S c names).2.itemIdMap = c.itemIdMap ∧
    (addDeal S c names).2.items.length = c.items.length := by
  unfold addDeal
  by_cases he : names.data = []
  · simp [he]
  · simp only [he, if_false]
    obtain ⟨h1, h2⟩ := addDealLoop_map (c.deals.length : Int) (dealNames names)
      { c with deals := c.deals ++ [[]] }
    cases hloop : addDealLoop (c.deals.length : Int) (dealNames names)
        { c with deals := c.deals ++ [[]] } with
    | mk st c2 =>
      rw [hloop] at h1 h2
      cases st <;> exact ⟨h1, h2⟩

theorem addItem_map_of_some (c : Catalog) (name : String) (price : ℚ) {n : String} {id : Int}
    (h : c.itemIdMap n = some id) : (addItem c name price).2.itemIdMap n = some id := by
  unfold addItem
  by_cases hr : name ∈ reservedNames
  · simpa [hr] using h
  · by_cases hs : (c.itemIdMap name).isSome = true
    · simpa [hr, hs] using h
    · have hne : n ≠ name := by
        rintro rfl
        rw [h] at hs
        exact hs rfl
      simp [hr, hs, mapSet, hne, h]

theorem addItem_map_of_ne (c : Catalog) (name : String) (price : ℚ) {n : String}
    (hne : n ≠ name) : (addItem c name price).2.itemIdMap n = c.itemIdMap n := by
  unfold addItem
  by_cases hr : name ∈ reservedNames
  · simp [hr]
  · by_cases hs : (c.itemIdMap name).isSome = true
    · simp [hr, hs]
    · simp [hr, hs, mapSet, hne]

/-- An id a name has is the id it keeps through every later call. -/
theorem runCatalog_map_of_some (S : StdSort) {n : String} {id : Int} :
    ∀ (calls : List CatalogCall) (c : Catalog), c.itemIdMap n = some id →
    (runCatalog S calls c).itemIdMap n = some id
  | [], _, h => h
  | CatalogCall.addItem name price :: rest, c, h =>
    runCatalog_map_of_some S rest _ (addItem_map_of_some c name price h)
  | CatalogCall.addDeal names :: rest, c, h =>
    runCatalog_map_of_some S rest _ (by rw [(addDeal_map S c names).1]; exact h)

/-- A name no `addItem` call was made for has no id. -/
theorem runCatalog_map_of_not_added (S : StdSort) {n : String} :
    ∀ (calls : List CatalogCall) (c : Catalog), c.itemIdMap n = none →
    (∀ price, CatalogCall.addItem n price ∉ calls) →
    (runCatalog S calls c).itemIdMap n = none
  | [], _, h, _ => h
  | CatalogCall.addItem name price :: rest, c, h, hn => by
    have hne : n ≠ name := by
      rintro rfl
      exact hn price (List.mem_cons_self _ _)
    exact runCatalog_map_of_not_added S rest _
      (by rw [addItem_map_of_ne c name price hne]; exact h)
      (fun p hp => hn p (List.mem_cons_of_mem _ hp))
  | CatalogCall.addDeal names :: rest, c, h, hn =>
    runCatalog_map_of_not_added S rest _ (by rw [(addDeal_map S c names).1]; exact h)
      (fun p hp => hn p (List.mem_cons_of_mem _ hp))

/-- C13: after a successful `addItem(name, price)` on a catalog holding `N`
items, `getItemId(name)` returns `N` and `getItem(N)` is the item with that
name, that price and `dealId` -1; a name that has an id keeps that id through
every later sequence of `addItem` and `addDeal` calls, successful or not;
and in a catalog built from the empty one, a name no `addItem` call was made
for has `getItemId` -1. -/
theorem addItem_ok (S : StdSort) (c : Catalog) (name : String) (price : ℚ) :
    ((addItem c name price).1 = Status.ok →
      getItemId (addItem c name price).2 name = c.items.length ∧
      getItem (addItem c name price).2 c.items.length
        = Lookup.ref { name := name, price := price, dealId := -1 } ∧
      ∀ calls, getItemId (runCatalog S calls (addItem c name price).2) name
        = c.items.length) ∧
    (∀ (n : String) (id : Int), c.itemIdMap n = some id →
      ∀ calls, getItemId (runCatalog S calls c) n = getItemId c n) ∧
    (∀ (n : String) (calls : List CatalogCall),
      (∀ p, CatalogCall.addItem n p ∉ calls) →
      getItemId (runCatalog S calls Catalog.empty) n = -1) := by
  refine ⟨?_, ?_, ?_⟩
  · intro h
    unfold addItem at h
    by_cases hr : name ∈ reservedNames
    · simp [hr] at h
    · by_cases hs : (c.itemIdMap name).isSome = true
      · simp [hr, hs] at h
      · have hmap : (addItem c name price).2.itemIdMap name = some (c.items.length : Int) := by
          simp [addItem, hr, hs, mapSet]
        have hitems : (addItem c name price).2.items
            = c.items ++ [CatalogItem.new name price] := by
          simp [addItem, hr, hs]
        refine ⟨by simp [getItemId, hmap], ?_, ?_⟩
        · have hc : ¬ ((c.items.length : Int) < 0) := by omega
          simp [getItem, hitems, hc, CatalogItem.new]
        · intro calls
          simp [getItemId, runCatalog_map_of_some S calls _ hmap]
  · intro n id h calls
    simp [getItemId, runCatalog_map_of_some S calls c h, h]
  · intro n calls hn
    simp [getItemId, runCatalog_map_of_not_added S calls Catalog.empty rfl hn]

/-! ## Failing calls of the register -/

/-- C15: `scanItem(name, quantity)` throws exactly when `quantity < 1` or the
name is not in the catalog (`getItemId` returns -1), and `removeItem(name)`
throws exactly when the name is not in the catalog or the item has no entry
in the cart; a call that throws leaves the register (insertion-order list,
quantity map, potential-deals set, deal groups) as it was.  The name map of
the catalog points at items of the catalog. -/
theorem scanItem_removeItem_failure (cat : Catalog) (r : CheckoutRegister)
    (itemName : String) (quantity : Int) (hmap : MapValid cat) :
    ((scanItem cat r itemName quantity).1 = Status.runtime_error ↔
      (quantity < 1 ∨ getItemId cat itemName = -1)) ∧
    ((scanItem cat r itemName quantity).1 = Status.runtime_error →
      (scanItem cat r itemName quantity).2 = r) ∧
    ((removeItem cat r itemName).1 = Status.runtime_error ↔
      (getItemId cat itemName = -1 ∨
        r.quantityOfCartItem (getItemId cat itemName) = none)) ∧
    ((removeItem cat r itemName).1 = Status.runtime_error →
      (removeItem cat r itemName).2 = r) := by
  have hscan : ¬ quantity < 1 → getItemId cat itemName ≠ -1 →
      (scanItem cat r itemName quantity).1 ≠ Status.runtime_error := by
    intro h1 h2
    have hvalid : ValidItem cat (getItemId cat itemName) := by
      unfold getItemId at h2 ⊢
      cases hm : cat.itemIdMap itemName with
      | none => simp [hm] at h2
      | some id => exact hmap itemName id hm
    obtain ⟨item, hitem, _⟩ := getItem_of_valid hvalid
    unfold scanItem
    simp only [h1, h2, if_false]
    cases hq : r.quantityOfCartItem (getItemId cat itemName) with
    | some q0 =>
      simp only
      split <;> simp
    | none =>
      simp only [hitem]
      split <;> simp
  have hrem : getItemId cat itemName ≠ -1 →
      r.quantityOfCartItem (getItemId cat itemName) ≠ none →
      (removeItem cat r itemName).1 ≠ Status.runtime_error := by
    intro h1 h2
    unfold removeItem
    simp only [h1, if_false]
    cases hq : r.quantityOfCartItem (getItemId cat itemName) with
    | none => exact absurd hq h2
    | some q0 => simp
  have hscanfail : (quantity < 1 ∨ getItemId cat itemName = -1) →
      scanItem cat r itemName quantity = (Status.runtime_error, r) := by
    intro h
    unfold scanItem
    by_cases h1 : quantity < 1
    · simp [h1]
    · have h2 : getItemId cat itemName = -1 := h.resolve_left h1
      simp [h1, h2]
  have hremfail : (getItemId cat itemName = -1 ∨
      r.quantityOfCartItem (getItemId cat itemName) = none) →
      removeItem cat r itemName = (Status.runtime_error, r) := by
    intro h
    unfold removeItem
    by_cases h1 : getItemId cat itemName = -1
    · simp [h1]
    · have h2 := h.resolve_left h1
      simp [h1, h2]
  refine ⟨⟨?_, fun h => by rw [hscanfail h]⟩, ?_, ⟨?_, fun h => by rw [hremfail h]⟩, ?_⟩
  · intro h
    by_contra hc
    push_neg at hc
    exact hscan (by omega) hc.2 h
  · intro h
    have : quantity < 1 ∨ getItemId cat itemName = -1 := by
      by_contra hc
      push_neg at hc
      exact hscan (by omega) hc.2 h
    rw [hscanfail this]
  · intro h
    by_contra hc
    push_neg at hc
    exact hrem hc.1 hc.2 h
  · intro h
    have : getItemId cat itemName = -1 ∨
        r.quantityOfCartItem (getItemId cat itemName) = none := by
      by_contra hc
      push_neg at hc
      exact hrem hc.1 hc.2 h
    rw [hremfail this]

/-! ## The order of the members of a stored deal -/

/-- The deals after a successful `addDeal`: those of before, followed by the
listed ids as `std::sort` leaves them. -/
theorem addDeal_ok_deals (S : StdSort) (c : Catalog) (names : String)
    (h : (addDeal S c names).1 = Status.ok) :
    (addDeal S c names).2.deals = c.deals ++
      [S.sort (priceGreater (addDeal S c names).2.items)
        ((dealNames names).map (getItemId c))] := by
  unfold addDeal at h ⊢
  by_cases he : names.data = []
  · simp [he] at h
  · simp only [he, if_false] at h ⊢
    cases hloop : addDealLoop (c.deals.length : Int) (dealNames names)
        { c with deals := c.deals ++ [[]] } with
    | mk st c2 =>
      rw [hloop] at h
      cases st with
      | runtime_error => simp at h
      | undefined => simp at h
      | ok =>
        simp only
        obtain ⟨_, _, hd, _, _, _⟩ := addDealLoop_ok _ _ _ c2 c.deals [] rfl hloop
        have hgid : getItemId { c with deals := c.deals ++ [[]] } = getItemId c := rfl
        simp only [List.nil_append, hgid] at hd
        rw [hd, sortBack_append]

theorem dealOf_append_last (c : Catalog) (ds : List (List Int)) (deal : List Int)
    (h : c.deals = ds ++ [deal]) : dealOf c ds.length = deal := by
  have hc : ¬ ((ds.length : Int) < 0) := by omega
  simp [dealOf, getDeal, h, hc]

theorem getElem?_append_singleton {α : Type} (ds : List α) (x y : α) (d : Nat) :
    (ds ++ [x])[d]? = some y ↔ ds[d]? = some y ∨ (d = ds.length ∧ y = x) := by
  by_cases h : d < ds.length
  · rw [List.getElem?_append_left h]
    constructor
    · exact Or.inl
    · rintro (h1 | ⟨h1, _⟩)
      · exact h1
      · omega
  · have hnone : ds[d]? = none := List.getElem?_eq_none (by omega)
    rw [List.getElem?_append_right (by omega), hnone]
    by_cases he : d = ds.length
    · subst he
      simp [eq_comm]
    · have : d - ds.length ≠ 0 := by omega
      obtain ⟨m, hm⟩ := Nat.exists_eq_succ_of_ne_zero this
      simp [hm, he]

/-- Deals whose members carry the deal's id share no member. -/
theorem dealsDisjoint_of {cat : Catalog} (hm : MembersValid cat) (hd : DealIdsMatch cat) :
    DealsDisjoint cat := by
  unfold DealsDisjoint
  rw [List.pairwise_iff_getElem]
  intro i j hi hj hij x hxi hxj
  obtain ⟨h0, hlt⟩ := hm _ (List.getElem_mem hi) x hxi
  have hk : x.toNat < cat.items.length := by omega
  have hx : ((x.toNat : Nat) : Int) = x := Int.toNat_of_nonneg h0
  obtain ⟨_, hiff⟩ := hd x.toNat cat.items[x.toNat] (List.getElem?_eq_getElem hk)
  have e1 := (hiff i cat.deals[i] (List.getElem?_eq_getElem hi)).mpr (by rw [hx]; exact hxi)
  have e2 := (hiff j cat.deals[j] (List.getElem?_eq_getElem hj)).mpr (by rw [hx]; exact hxj)
  omega

theorem catalogInv_of {cat : Catalog} (h1 : MapValid cat) (h2 : MembersValid cat)
    (h3 : DealsNodup cat) (h4 : DealIdsMatch cat) : CatalogInv cat :=
  ⟨h1, h2, dealsDisjoint_of h2 h4, h3, h4⟩

theorem catalogInv_empty : CatalogInv Catalog.empty := by
  refine catalogInv_of ?_ ?_ ?_ ?_
  · intro n id h
    simp [Catalog.empty] at h
  · intro deal h
    simp [Catalog.empty] at h
  · intro deal h
    simp [Catalog.empty] at h
  · intro k item h
    simp [Catalog.empty] at h

/-- An item that carries no deal id is a member of no deal. -/
theorem not_mem_deal_of_no_dealId {cat : Catalog} (hd : DealIdsMatch cat) {k : Nat}
    {item : CatalogItem} (hk : cat.items[k]? = some item) (hno : item.dealId = -1)
    {deal : List Int} (hdeal : deal ∈ cat.deals) : (k : Int) ∉ deal := by
  intro hmem
  obtain ⟨d, hlt, hget⟩ := List.getElem_of_mem hdeal
  have := ((hd k item hk).2 d deal (by rw [List.getElem?_eq_getElem hlt, hget])).mpr hmem
  omega

theorem addItem_inv (c : Catalog) (name : String) (price : ℚ) (h : CatalogInv c) :
    CatalogInv (addItem c name price).2 := by
  unfold addItem
  by_cases hr : name ∈ reservedNames
  · simpa [hr] using h
  · by_cases hs : (c.itemIdMap name).isSome = true
    · simpa [hr, hs] using h
    · simp only [hr, hs, if_false]
      refine catalogInv_of ?_ ?_ ?_ ?_
      · intro n id hn
        have hn' : (if n = name then some (c.items.length : Int) else c.itemIdMap n)
            = some id := hn
        by_cases e : n = name
        · rw [if_pos e] at hn'
          cases hn'
          constructor <;> simp
        · rw [if_neg e] at hn'
          obtain ⟨h0, h1⟩ := h.mapValid n id hn'
          exact ⟨h0, by simp; omega⟩
      · intro deal hdeal i hi
        obtain ⟨h0, h1⟩ := h.membersValid deal hdeal i hi
        exact ⟨h0, by simp; omega⟩
      · exact h.nodup
      · intro k item hk
        have hk : (c.items ++ [CatalogItem.new name price])[k]? = some item := hk
        by_cases hlt : k < c.items.length
        · rw [List.getElem?_append_left hlt] at hk
          exact h.dealIds k item hk
        · rw [getElem?_append_singleton] at hk
          rcases hk with hk | ⟨hk, hitem⟩
          · rw [List.getElem?_eq_none (by omega)] at hk
            exact Option.noConfusion hk
          · subst hitem
            refine ⟨Or.inl rfl, ?_⟩
            intro d deal hdeal
            simp only [CatalogItem.new]
            constructor
            · intro e
              omega
            · intro hmem
              have := (h.membersValid deal (List.getElem?_mem hdeal) _ hmem).2
              omega

/-- Appending the empty deal that `addDeal` starts with keeps the invariants. -/
theorem appendEmptyDeal_inv (c : Catalog) (h : CatalogInv c) :
    CatalogInv { c with deals := c.deals ++ [[]] } := by
  refine catalogInv_of h.mapValid ?_ ?_ ?_
  · intro deal hdeal i hi
    simp only [List.mem_append, List.mem_singleton] at hdeal
    rcases hdeal with hdeal | rfl
    · exact h.membersValid deal hdeal i hi
    · simp at hi
  · intro deal hdeal
    simp only [List.mem_append, List.mem_singleton] at hdeal
    rcases hdeal with hdeal | rfl
    · exact h.nodup deal hdeal
    · exact List.nodup_nil
  · intro k item hk
    obtain ⟨hrange, hiff⟩ := h.dealIds k item hk
    refine ⟨?_, ?_⟩
    · rcases hrange with e | ⟨h0, h1⟩
      · exact Or.inl e
      · exact Or.inr ⟨h0, by simp; omega⟩
    · intro d deal hdeal
      simp only at hdeal
      rw [getElem?_append_singleton] at hdeal
      rcases hdeal with hdeal | ⟨hd, rfl⟩
      · exact hiff d deal hdeal
      · subst hd
        simp only [List.not_mem_nil, iff_false]
        rcases hrange with e | ⟨_, h1⟩ <;> omega

/-- One pass of the name loop of `addDeal` that gets to the end of its body
keeps the invariants. -/
theorem addDealStep_inv (c : Catalog) (ds : List (List Int)) (deal0 : List Int) (id : Int)
    (item : CatalogItem) (hdeals : c.deals = ds ++ [deal0]) (h : CatalogInv c)
    (h0 : 0 ≤ id) (hget : c.items[id.toNat]? = some item) (hno : item.dealId = -1) :
    CatalogInv { c with
      items := c.items.set id.toNat { item with dealId := (ds.length : Int) },
      deals := ds ++ [deal0 ++ [id]] } := by
  have hlt : id.toNat < c.items.length := (List.getElem?_eq_some_iff.mp hget).1
  have hid : ((id.toNat : Nat) : Int) = id := Int.toNat_of_nonneg h0
  have hfree : ∀ deal ∈ c.deals, id ∉ deal := by
    intro deal hdeal
    have := not_mem_deal_of_no_dealId h.dealIds hget hno hdeal
    rwa [hid] at this
  have hmem0 : deal0 ∈ c.deals := by simp [hdeals]
  have hmemds : ∀ deal ∈ ds, deal ∈ c.deals := by
    intro deal hd
    simp [hdeals, hd]
  refine catalogInv_of ?_ ?_ ?_ ?_
  · intro n i hn
    obtain ⟨a, b⟩ := h.mapValid n i hn
    exact ⟨a, by simpa using b⟩
  · intro deal hdeal i hi
    simp only [List.mem_append, List.mem_singleton] at hdeal
    have hval : ∀ j, ValidItem c j → ValidItem { c with
        items := c.items.set id.toNat { item with dealId := (ds.length : Int) },
        deals := ds ++ [deal0 ++ [id]] } j := by
      intro j hj
      exact ⟨hj.1, by simpa using hj.2⟩
    rcases hdeal with hdeal | rfl
    · exact hval i (h.membersValid deal (hmemds deal hdeal) i hi)
    · rcases List.mem_append.mp hi with hi | hi
      · exact hval i (h.membersValid deal0 hmem0 i hi)
      · simp only [List.mem_singleton] at hi
        subst hi
        exact hval i ⟨h0, by omega⟩
  · intro deal hdeal
    simp only [List.mem_append, List.mem_singleton] at hdeal
    rcases hdeal with hdeal | rfl
    · exact h.nodup deal (hmemds deal hdeal)
    · rw [List.nodup_append]
      refine ⟨h.nodup deal0 hmem0, List.nodup_singleton id, ?_⟩
      intro x hx hx'
      simp only [List.mem_singleton] at hx'
      subst hx'
      exact hfree deal0 hmem0 hx
  · intro k it hk
    simp only at hk
    rw [List.getElem?_set] at hk
    by_cases e : id.toNat = k
    · subst e
      simp only [if_true, hlt] at hk
      have hit : it = { item with dealId := (ds.length : Int) } := by
        simpa using hk.symm
      subst hit
      refine ⟨Or.inr ⟨by simp, by simp⟩, ?_⟩
      intro d deal hdeal
      simp only at hdeal ⊢
      rw [getElem?_append_singleton] at hdeal
      rcases hdeal with hdeal | ⟨hd, rfl⟩
      · have hdlt : d < ds.length := (List.getElem?_eq_some_iff.mp hdeal).1
        have hin : deal ∈ ds := List.getElem?_mem hdeal
        constructor
        · intro e
          omega
        · intro hmem
          rw [hid] at hmem
          exact absurd hmem (hfree deal (hmemds deal hin))
      · subst hd
        simp [hid]
    · simp only [e, if_false] at hk
      obtain ⟨hrange, hiff⟩ := h.dealIds k it hk
      refine ⟨?_, ?_⟩
      · simpa [hdeals] using hrange
      · intro d deal hdeal
        simp only at hdeal
        rw [getElem?_append_singleton] at hdeal
        rcases hdeal with hdeal | ⟨hd, rfl⟩
        · exact hiff d deal (by rw [hdeals, getElem?_append_singleton]; exact Or.inl hdeal)
        · subst hd
          have hold := hiff ds.length deal0
            (by rw [hdeals, getElem?_append_singleton]; exact Or.inr ⟨rfl, rfl⟩)
          rw [hold]
          have hne : (k : Int) ≠ id := by
            intro hk'
            apply e
            omega
          simp [hne]

/-- The name loop of `addDeal` keeps the invariants, however it ends, and
changes only the last deal. -/
theorem addDealLoop_inv : ∀ (names : List String) (c : Catalog) (ds : List (List Int))
    (deal0 : List Int), c.deals = ds ++ [deal0] → CatalogInv c →
    CatalogInv (addDealLoop (ds.length : Int) names c).2 ∧
    ∃ deal1, (addDealLoop (ds.length : Int) names c).2.deals = ds ++ [deal1]
  | [], c, ds, deal0, hdeals, h => ⟨h, deal0, hdeals⟩
  | name :: rest, c, ds, deal0, hdeals, h => by
    unfold addDealLoop
    cases hmap : c.itemIdMap name with
    | none => exact ⟨h, deal0, hdeals⟩
    | some id =>
      simp only
      by_cases hneg : id < 0
      · simp only [hneg, if_true]
        exact ⟨h, deal0, hdeals⟩
      · simp only [hneg, if_false]
        cases hget : c.items[id.toNat]? with
        | none => exact ⟨h, deal0, hdeals⟩
        | some item =>
          simp only
          by_cases hd : item.dealId ≠ -1
          · rw [if_pos hd]
            exact ⟨h, deal0, hdeals⟩
          · rw [if_neg hd]
            have hback : backPushBack c.deals id = ds ++ [deal0 ++ [id]] := by
              rw [hdeals, backPushBack_append]
            rw [hback]
            exact addDealLoop_inv rest _ ds (deal0 ++ [id]) rfl
              (addDealStep_inv c ds deal0 id item hdeals h (by omega) hget
                (by simpa using hd))

/-- Storing the last deal in another order keeps the invariants. -/
theorem permLastDeal_inv (c : Catalog) (ds : List (List Int)) (deal1 deal2 : List Int)
    (hdeals : c.deals = ds ++ [deal1]) (hperm : deal2.Perm deal1) (h : CatalogInv c) :
    CatalogInv { c with deals := ds ++ [deal2] } := by
  refine catalogInv_of h.mapValid ?_ ?_ ?_
  · intro deal hdeal i hi
    simp only [List.mem_append, List.mem_singleton] at hdeal
    rcases hdeal with hdeal | rfl
    · exact h.membersValid deal (by simp [hdeals, hdeal]) i hi
    · exact h.membersValid deal1 (by simp [hdeals]) i (hperm.mem_iff.mp hi)
  · intro deal hdeal
    simp only [List.mem_append, List.mem_singleton] at hdeal
    rcases hdeal with hdeal | rfl
    · exact h.nodup deal (by simp [hdeals, hdeal])
    · exact hperm.nodup_iff.mpr (h.nodup deal1 (by simp [hdeals]))
  · intro k item hk
    obtain ⟨hrange, hiff⟩ := h.dealIds k item hk
    refine ⟨by simpa [hdeals] using hrange, ?_⟩
    intro d deal hdeal
    simp only at hdeal
    rw [getElem?_append_singleton] at hdeal
    rcases hdeal with hdeal | ⟨hd, rfl⟩
    · exact hiff d deal (by rw [hdeals, getElem?_append_singleton]; exact Or.inl hdeal)
    · rw [hperm.mem_iff]
      exact hiff d deal1 (by rw [hdeals, getElem?_append_singleton]; exact Or.inr ⟨hd, rfl⟩)

theorem addDeal_inv (S : StdSort) (c : Catalog) (names : String) (h : CatalogInv c) :
    CatalogInv (addDeal S c names).2 := by
  unfold addDeal
  by_cases he : names.data = []
  · simpa [he] using h
  · simp only [he, if_false]
    obtain ⟨hinv, deal1, hd⟩ := addDealLoop_inv (dealNames names)
      { c with deals := c.deals ++ [[]] } c.deals [] rfl (appendEmptyDeal_inv c h)
    cases hloop : addDealLoop (c.deals.length : Int) (dealNames names)
        { c with deals := c.deals ++ [[]] } with
    | mk st c2 =>
      rw [hloop] at hinv hd
      simp only at hinv hd
      cases st with
      | runtime_error => exact hinv
      | undefined => exact hinv
      | ok =>
        simp only
        rw [hd, sortBack_append]
        exact permLastDeal_inv c2 c.deals deal1 _ hd (S.perm _ _) hinv

/-- The invariants hold in every catalog reachable from the empty catalog by
`addItem` and `addDeal` calls, successful or failed. -/
theorem runCatalog_inv (S : StdSort) : ∀ (calls : List CatalogCall) (c : Catalog),
    CatalogInv c → CatalogInv (runCatalog S calls c)
  | [], _, h => h
  | CatalogCall.addItem name price :: rest, c, h =>
    runCatalog_inv S rest _ (addItem_inv c name price h)
  | CatalogCall.addDeal names :: rest, c, h =>
    runCatalog_inv S rest _ (addDeal_inv S c names h)

/-! ## Empty deals -/

theorem getlinePieces_ne_nil : ∀ (l cur : List Char), (cur ≠ [] ∨ l ≠ []) →
    getlinePieces cur l ≠ []
  | [], cur, h => by
    have hc : cur ≠ [] := by
      rcases h with h | h
      · exact h
      · exact absurd rfl h
    simp [getlinePieces, hc]
  | ch :: rest, cur, _ => by
    unfold getlinePieces
    by_cases hch : ch = ','
    · simp [hch]
    · rw [if_neg hch]
      exact getlinePieces_ne_nil rest (ch :: cur) (Or.inl (List.cons_ne_nil _ _))

/-- A successful `addDeal` stores a deal with at least one member. -/
theorem addDeal_ok_noEmptyDeal (S : StdSort) (c : Catalog) (names : String)
    (hc : NoEmptyDeal c) (h : (addDeal S c names).1 = Status.ok) :
    NoEmptyDeal (addDeal S c names).2 := by
  have hne : names.data ≠ [] := by
    intro he
    simp [addDeal, he] at h
  intro deal hdeal
  rw [addDeal_ok_deals S c names h] at hdeal
  simp only [List.mem_append, List.mem_singleton] at hdeal
  rcases hdeal with hdeal | rfl
  · exact hc deal hdeal
  · intro hnil
    have hperm := S.perm (priceGreater (addDeal S c names).2.items)
      ((dealNames names).map (getItemId c))
    rw [hnil] at hperm
    have hlen := hperm.length_eq
    simp only [List.length_nil, List.length_map, dealNames] at hlen
    have := getlinePieces_ne_nil names.data [] (Or.inr hne)
    exact this (List.length_eq_zero.mp hlen.symm)

/-- C12 (the code at the failing input): on the catalog with the one item
Chips, the deal row "zzz" makes `addDeal` throw, and the catalog it leaves
holds an empty deal; the same row on the empty catalog does the same.  The
other invariants of the claim hold after every call, failed ones included:
see `runCatalog_inv`. -/
theorem runCatalog_failed_addDeal_leaves_empty_deal :
    (addDeal insertionStdSort chipsCatalog "zzz").1 = Status.runtime_error ∧
    (runCatalog insertionStdSort
      [CatalogCall.addItem "Chips" 3, CatalogCall.addDeal "zzz"] Catalog.empty).deals = [[]] ∧
    ¬ NoEmptyDeal (runCatalog insertionStdSort
      [CatalogCall.addItem "Chips" 3, CatalogCall.addDeal "zzz"] Catalog.empty) ∧
    (runCatalog insertionStdSort [CatalogCall.addDeal "zzz"] Catalog.empty).deals = [[]] := by
  decide

/-! ## Sequences of scans -/

theorem mem_firstScans {x : Int} : ∀ {ids : List Int}, x ∈ firstScans ids ↔ x ∈ ids
  | [] => by simp [firstScans]
  | i :: rest => by
    simp only [firstScans, List.mem_cons, List.mem_filter, decide_eq_true_eq,
      @mem_firstScans x rest]
    constructor
    · rintro (h | ⟨h, _⟩)
      · exact Or.inl h
      · exact Or.inr h
    · intro h
      by_cases e : x = i
      · exact Or.inl e
      · exact Or.inr ⟨h.resolve_left e, e⟩

theorem firstScans_nodup : ∀ (ids : List Int), (firstScans ids).Nodup
  | [] => List.nodup_nil
  | i :: rest => by
    simp only [firstScans, List.nodup_cons, List.mem_filter, decide_eq_true_eq]
    exact ⟨fun h => h.2 rfl, (firstScans_nodup rest).filter _⟩

/-- What a successful scan does to the cart. -/
theorem scanItem_ok_cart (cat : Catalog) (r : CheckoutRegister) (itemName : String)
    (quantity : Int) (hk : KeysMatch r)
    (h : (scanItem cat r itemName quantity).1 = Status.ok) :
    (scanItem cat r itemName quantity).2.cartIds =
      (if getItemId cat itemName ∈ r.cartIds then r.cartIds
       else r.cartIds ++ [getItemId cat itemName]) ∧
    (scanItem cat r itemName quantity).2.quantityOfCartItem =
      mapSet r.quantityOfCartItem (getItemId cat itemName)
        (quantityOf r.quantityOfCartItem (getItemId cat itemName) + quantity) ∧
    (scanItem cat r itemName quantity).2.dealGroups = r.dealGroups := by
  unfold scanItem at h ⊢
  by_cases h1 : quantity < 1
  · simp [h1] at h
  · simp only [h1, if_false] at h ⊢
    by_cases h2 : getItemId cat itemName = -1
    · simp [h2] at h
    · simp only [h2, if_false] at h ⊢
      cases hq : r.quantityOfCartItem (getItemId cat itemName) with
      | some q0 =>
        have hin : getItemId cat itemName ∈ r.cartIds := (hk _).mpr (by simp [hq])
        simp only [hq] at h ⊢
        by_cases h3 : q0 + quantity > INT_MAX
        · simp [h3] at h
        · simp [h3, hin, quantityOf, hq]
      | none =>
        have hin : getItemId cat itemName ∉ r.cartIds := by
          intro hmem
          have := (hk _).mp hmem
          simp [hq] at this
        simp only [hq] at h ⊢
        cases hg : getItem cat (getItemId cat itemName) with
        | ref item =>
          simp only
          split <;> simp [hin, quantityOf, hq]
        | runtime_error => simp [hg] at h
        | undefined => simp [hg] at h

theorem keysMatch_scan (r : CheckoutRegister) (i v : Int) (hk : KeysMatch r)
    (cartIds : List Int) (q : Int → Option Int)
    (hc : cartIds = if i ∈ r.cartIds then r.cartIds else r.cartIds ++ [i])
    (hq : q = mapSet r.quantityOfCartItem i v) (pd : List Int) (dg : List Array3) :
    KeysMatch { cartIds := cartIds, quantityOfCartItem := q, potentialDeals := pd,
                dealGroups := dg } := by
  intro j
  simp only [hc, hq, mapSet]
  by_cases e : j = i
  · subst e
    by_cases hin : j ∈ r.cartIds <;> simp [hin]
  · have := hk j
    by_cases hin : i ∈ r.cartIds <;> simp [hin, e, this]

/-- The cart after a sequence of successful scans, from any register. -/
theorem scanAll_from (cat : Catalog) : ∀ (scans : List (String × Int))
    (r r1 : CheckoutRegister), KeysMatch r → scanAll cat scans r = some r1 →
    r1.cartIds = r.cartIds ++
      (firstScans (scans.map (fun s => getItemId cat s.1))).filter
        (fun j => decide (j ∉ r.cartIds)) ∧
    (∀ j, quantityOf r1.quantityOfCartItem j
      = quantityOf r.quantityOfCartItem j + scannedQuantity cat j scans) ∧
    KeysMatch r1 ∧ r1.dealGroups = r.dealGroups
  | [], r, r1, hk, h => by
    simp only [scanAll, Option.some.injEq] at h
    subst h
    simp [firstScans, scannedQuantity, hk]
  | (itemName, quantity) :: rest, r, r1, hk, h => by
    unfold scanAll at h
    cases hs : scanItem cat r itemName quantity with
    | mk st r2 =>
      rw [hs] at h
      cases st with
      | runtime_error => simp at h
      | undefined => simp at h
      | ok =>
        simp only at h
        obtain ⟨hc, hq, hdg⟩ := scanItem_ok_cart cat r itemName quantity hk (by rw [hs])
        rw [hs] at hc hq hdg
        simp only at hc hq hdg
        have hk2 : KeysMatch r2 := by
          have := keysMatch_scan r (getItemId cat itemName) _ hk r2.cartIds
            r2.quantityOfCartItem hc hq r2.potentialDeals r2.dealGroups
          exact this
        obtain ⟨ihc, ihq, ihk, ihdg⟩ := scanAll_from cat rest r2 r1 hk2 h
        refine ⟨?_, ?_, ihk, by rw [ihdg, hdg]⟩
        · rw [ihc, hc]
          simp only [List.map_cons, firstScans]
          by_cases hin : getItemId cat itemName ∈ r.cartIds
          · simp only [hin, if_true, List.filter_cons, not_true_eq_false, decide_False,
              Bool.false_eq_true, if_false, List.filter_filter]
            congr 1
            apply List.filter_congr
            intro x _
            by_cases hx : x ∈ r.cartIds
            · simp [hx]
            · have : x ≠ getItemId cat itemName := fun e => hx (e ▸ hin)
              simp [hx, this]
          · simp only [hin, if_false, List.filter_cons, not_false_eq_true, decide_True,
              if_true, List.filter_filter, List.append_assoc, List.singleton_append]
            congr 2
            apply List.filter_congr
            intro x _
            by_cases hx : x ∈ r.cartIds
            · simp [hx]
            · by_cases e : x = getItemId cat itemName <;> simp [hx, e]
        · intro j
          rw [ihq j, hq]
          simp only [scannedQuantity, quantityOf, mapSet]
          by_cases e : j = getItemId cat itemName
          · subst e
            simp
            ring
          · have e' : ¬ getItemId cat itemName = j := fun h => e h.symm
            simp [e, e']

/-- C16: for every sequence of successful `scanItem` calls starting from an
empty register, the insertion-order list holds each distinct scanned item id
exactly once, in the order of the first scan of each item, the items with a
quantity entry are the scanned ones, and the quantity recorded for each is
the sum of the quantities of all the scans of that item. -/
theorem scanAll_cart (cat : Catalog) (scans : List (String × Int)) (r : CheckoutRegister)
    (h : scanAll cat scans CheckoutRegister.empty = some r) :
    r.cartIds = firstScans (scans.map (fun s => getItemId cat s.1)) ∧
    r.cartIds.Nodup ∧
    (∀ i, i ∈ r.cartIds ↔ i ∈ scans.map (fun s => getItemId cat s.1)) ∧
    (∀ i, r.cartIds.count i = if i ∈ scans.map (fun s => getItemId cat s.1) then 1 else 0) ∧
    (∀ i ∈ r.cartIds, r.quantityOfCartItem i = some (scannedQuantity cat i scans)) ∧
    (∀ i, i ∉ r.cartIds → r.quantityOfCartItem i = none) := by
  have hk0 : KeysMatch CheckoutRegister.empty := by
    intro i
    simp [CheckoutRegister.empty]
  obtain ⟨hc, hq, hk, _⟩ := scanAll_from cat scans _ r hk0 h
  have hc' : r.cartIds = firstScans (scans.map (fun s => getItemId cat s.1)) := by
    rw [hc]
    simp [CheckoutRegister.empty]
  have hnd : r.cartIds.Nodup := by
    rw [hc']
    exact firstScans_nodup _
  have hmem : ∀ i, i ∈ r.cartIds ↔ i ∈ scans.map (fun s => getItemId cat s.1) := by
    intro i
    rw [hc']
    exact mem_firstScans
  refine ⟨hc', hnd, hmem, ?_, ?_, ?_⟩
  · intro i
    by_cases hi : i ∈ scans.map (fun s => getItemId cat s.1)
    · rw [if_pos hi]
      exact List.count_eq_one_of_mem hnd ((hmem i).mpr hi)
    · rw [if_neg hi]
      exact List.count_eq_zero_of_not_mem (fun h' => hi ((hmem i).mp h'))
  · intro i hi
    have hsome := (hk i).mp hi
    have hqi := hq i
    simp only [quantityOf, CheckoutRegister.empty, Option.getD_none, zero_add] at hqi
    cases hv : r.quantityOfCartItem i with
    | none => simp [hv] at hsome
    | some v =>
      rw [hv] at hqi
      simpa using hqi
  · intro i hi
    cases hv : r.quantityOfCartItem i with
    | none => rfl
    | some v =>
      exact absurd ((hk i).mpr (by simp [hv])) hi

/-! ## The potential deals cover the cart -/

theorem mem_setInsert {x y : Int} : ∀ {l : List Int}, y ∈ setInsert x l ↔ y = x ∨ y ∈ l
  | [] => by simp [setInsert]
  | z :: zs => by
    unfold setInsert
    by_cases h1 : x < z
    · simp [h1]
    · rw [if_neg h1]
      by_cases h2 : x = z
      · subst h2
        simp
      · rw [if_neg h2]
        simp only [List.mem_cons, @mem_setInsert x y zs]
        tauto

theorem setInsert_ascending {x : Int} : ∀ {l : List Int}, l.Pairwise (fun a b => a < b) →
    (setInsert x l).Pairwise (fun a b => a < b)
  | [], _ => by simp [setInsert]
  | z :: zs, h => by
    obtain ⟨hz, hzs⟩ := List.pairwise_cons.mp h
    unfold setInsert
    by_cases h1 : x < z
    · rw [if_pos h1]
      refine List.pairwise_cons.mpr ⟨?_, h⟩
      intro b hb
      rcases List.mem_cons.mp hb with rfl | hb
      · exact h1
      · exact lt_trans h1 (hz b hb)
    · rw [if_neg h1]
      by_cases h2 : x = z
      · rw [if_pos h2]
        exact h
      · rw [if_neg h2]
        refine List.pairwise_cons.mpr ⟨?_, setInsert_ascending hzs⟩
        intro b hb
        rcases mem_setInsert.mp hb with rfl | hb
        · omega
        · exact hz b hb

theorem registerInv_empty (cat : Catalog) : RegisterInv cat CheckoutRegister.empty where
  nonneg := quantitiesNonneg_empty
  keysValid := by
    intro i h
    simp [CheckoutRegister.empty] at h
  dealsKnown := by
    intro i item h
    simp [CheckoutRegister.empty] at h
  potentialValid := by
    intro d h
    simp [CheckoutRegister.empty] at h
  ascending := by simp [CheckoutRegister.empty]

/-- The deal id of an item of the catalog is -1 or a deal id of the catalog. -/
theorem validDeal_of_dealId {cat : Catalog} (hcat : CatalogInv cat) {i : Int}
    {item : CatalogItem} (hg : getItem cat i = Lookup.ref item) (hne : item.dealId ≠ -1) :
    ValidDeal cat item.dealId := by
  unfold getItem at hg
  split_ifs at hg with hc
  cases hget : cat.items[i.toNat]? with
  | none => simp [hget] at hg
  | some x =>
    have hx : x = item := by simpa [hget] using hg
    subst hx
    rcases (hcat.dealIds i.toNat x hget).1 with e | e
    · exact absurd e hne
    · exact e

/-- A scan that does not run into undefined behaviour keeps the invariants of
the register. -/
theorem scanItem_inv (cat : Catalog) (hcat : CatalogInv cat) (r : CheckoutRegister)
    (itemName : String) (quantity : Int) (h : RegisterInv cat r) :
    RegisterInv cat (scanItem cat r itemName quantity).2 := by
  have hnn := scanItem_quantitiesNonneg cat r itemName quantity h.nonneg
  unfold scanItem at hnn ⊢
  by_cases h1 : quantity < 1
  · simpa [h1] using h
  · simp only [h1, if_false] at hnn ⊢
    by_cases h2 : getItemId cat itemName = -1
    · simpa [h2] using h
    · simp only [h2, if_false] at hnn ⊢
      have hvalid : ValidItem cat (getItemId cat itemName) := by
        unfold getItemId at h2 ⊢
        cases hm : cat.itemIdMap itemName with
        | none => simp [hm] at h2
        | some id => exact hcat.mapValid itemName id hm
      obtain ⟨item, hitem, _⟩ := getItem_of_valid hvalid
      have hkeys : ∀ (v : Int) (i : Int),
          (mapSet r.quantityOfCartItem (getItemId cat itemName) v i).isSome = true →
          i = getItemId cat itemName ∨ (r.quantityOfCartItem i).isSome = true := by
        intro v i hi
        unfold mapSet at hi
        by_cases e : i = getItemId cat itemName
        · exact Or.inl e
        · rw [if_neg e] at hi
          exact Or.inr hi
      cases hq : r.quantityOfCartItem (getItemId cat itemName) with
      | some q0 =>
        simp only [hq] at hnn ⊢
        by_cases h3 : q0 + quantity > INT_MAX
        · simpa [h3] using h
        · simp only [h3, if_false] at hnn ⊢
          refine ⟨hnn, ?_, ?_, h.potentialValid, h.ascending⟩
          · intro i hi
            rcases hkeys _ i hi with e | e
            · rw [e]
              exact hvalid
            · exact h.keysValid i e
          · intro i it hi hg hne
            rcases hkeys _ i hi with e | e
            · subst e
              exact h.dealsKnown _ it (by simp [hq]) hg hne
            · exact h.dealsKnown i it e hg hne
      | none =>
        simp only [hq, hitem] at hnn ⊢
        by_cases h4 : item.dealId ≠ -1
        · rw [if_pos h4] at hnn ⊢
          refine ⟨hnn, ?_, ?_, ?_, setInsert_ascending h.ascending⟩
          · intro i hi
            rcases hkeys _ i hi with e | e
            · rw [e]
              exact hvalid
            · exact h.keysValid i e
          · intro i it hi hg hne
            simp only
            rw [mem_setInsert]
            rcases hkeys _ i hi with e | e
            · subst e
              rw [hitem] at hg
              cases hg
              exact Or.inl rfl
            · exact Or.inr (h.dealsKnown i it e hg hne)
          · intro d hd
            simp only at hd
            rcases mem_setInsert.mp hd with rfl | hd
            · exact validDeal_of_dealId hcat hitem h4
            · exact h.potentialValid d hd
        · rw [if_neg h4] at hnn ⊢
          refine ⟨hnn, ?_, ?_, h.potentialValid, h.ascending⟩
          · intro i hi
            rcases hkeys _ i hi with e | e
            · rw [e]
              exact hvalid
            · exact h.keysValid i e
          · intro i it hi hg hne
            rcases hkeys _ i hi with e | e
            · subst e
              rw [hitem] at hg
              cases hg
              exact absurd hne h4
            · exact h.dealsKnown i it e hg hne

/-- `removeItem` never changes the potential-deals set. -/
theorem removeItem_potentialDeals (cat : Catalog) (r : CheckoutRegister) (itemName : String) :
    (removeItem cat r itemName).2.potentialDeals = r.potentialDeals := by
  unfold removeItem
  by_cases h1 : getItemId cat itemName = -1
  · simp [h1]
  · simp only [h1, if_false]
    cases r.quantityOfCartItem (getItemId cat itemName) <;> rfl

theorem removeItem_inv (cat : Catalog) (r : CheckoutRegister) (itemName : String)
    (h : RegisterInv cat r) : RegisterInv cat (removeItem cat r itemName).2 := by
  unfold removeItem
  by_cases h1 : getItemId cat itemName = -1
  · simpa [h1] using h
  · simp only [h1, if_false]
    cases hq : r.quantityOfCartItem (getItemId cat itemName) with
    | none => exact h
    | some q0 =>
      have hsub : ∀ i v, mapErase r.quantityOfCartItem (getItemId cat itemName) i = some v →
          r.quantityOfCartItem i = some v := by
        intro i v hi
        unfold mapErase at hi
        by_cases e : i = getItemId cat itemName
        · rw [if_pos e] at hi
          exact Option.noConfusion hi
        · rw [if_neg e] at hi
          exact hi
      have hsome : ∀ i, (mapErase r.quantityOfCartItem (getItemId cat itemName) i).isSome = true →
          (r.quantityOfCartItem i).isSome = true := by
        intro i hi
        obtain ⟨v, hv⟩ := Option.isSome_iff_exists.mp hi
        rw [hsub i v hv]
        rfl
      refine ⟨?_, ?_, ?_, h.potentialValid, h.ascending⟩
      · intro i v hi
        exact h.nonneg i v (hsub i v hi)
      · intro i hi
        exact h.keysValid i (hsome i hi)
      · intro i it hi hg hne
        exact h.dealsKnown i it (hsome i hi) hg hne

/-- The invariants of the register hold in every state reached by `scanItem`
and `removeItem` calls. -/
theorem runRegister_inv (cat : Catalog) (hcat : CatalogInv cat) :
    ∀ (calls : List RegisterCall) (r r1 : CheckoutRegister), RegisterInv cat r →
    runRegister cat calls r = some r1 → RegisterInv cat r1
  | [], r, r1, h, hr => by
    simp only [runRegister, Option.some.injEq] at hr
    subst hr
    exact h
  | RegisterCall.scanItem itemName quantity :: rest, r, r1, h, hr => by
    unfold runRegister at hr
    have hinv := scanItem_inv cat hcat r itemName quantity h
    cases hs : scanItem cat r itemName quantity with
    | mk st r2 =>
      rw [hs] at hr hinv
      cases st with
      | undefined => simp at hr
      | ok => exact runRegister_inv cat hcat rest r2 r1 hinv hr
      | runtime_error => exact runRegister_inv cat hcat rest r2 r1 hinv hr
  | RegisterCall.removeItem itemName :: rest, r, r1, h, hr => by
    unfold runRegister at hr
    have hinv := removeItem_inv cat r itemName h
    cases hs : removeItem cat r itemName with
    | mk st r2 =>
      rw [hs] at hr hinv
      cases st with
      | undefined => simp at hr
      | ok => exact runRegister_inv cat hcat rest r2 r1 hinv hr
      | runtime_error => exact runRegister_inv cat hcat rest r2 r1 hinv hr

theorem mem_deals_of_dealOf {cat : Catalog} {d : Int} (hd : ValidDeal cat d) :
    dealOf cat d ∈ cat.deals := by
  obtain ⟨hlt, e⟩ := dealOf_eq_getElem hd
  rw [e]
  exact List.getElem_mem hlt

/-- The sum of the quantities left to the members of a potential deal with
distinct members is the remainder of the sum before, divided by 3. -/
theorem dealTotal_after_resolution {cat : Catalog} {r r1 : CheckoutRegister} {d : Int}
    (hq : QuantitiesNonneg r.quantityOfCartItem) (hdd : (dealOf cat d).Nodup)
    (hin : ∀ k ∈ dealOf cat d, r1.quantityOfCartItem k =
      (r.quantityOfCartItem k).map (fun _ =>
        ((leftoverOf (dealUnits r.quantityOfCartItem (dealOf cat d))).count k : Int))) :
    dealTotal r1.quantityOfCartItem (dealOf cat d)
      = dealTotal r.quantityOfCartItem (dealOf cat d) % 3 := by
  have hT := dealTotal_eq_length hq (dealOf cat d)
  have hafter : ∀ k ∈ dealOf cat d, quantityOf r1.quantityOfCartItem k =
      (((leftoverOf (dealUnits r.quantityOfCartItem (dealOf cat d))).count k : Nat) : Int) := by
    intro k hk
    unfold quantityOf
    rw [hin k hk]
    cases hqk : r.quantityOfCartItem k with
    | some n => simp
    | none =>
      have : k ∉ leftoverOf (dealUnits r.quantityOfCartItem (dealOf cat d)) := by
        intro hmem
        obtain ⟨_, n, hn, _⟩ := mem_dealUnits.mp (mem_of_mem_leftoverOf hmem)
        rw [hqk] at hn
        exact Option.noConfusion hn
      simp [List.count_eq_zero_of_not_mem this]
  have hsum : dealTotal r1.quantityOfCartItem (dealOf cat d) =
      (((dealOf cat d).map (fun i =>
        (leftoverOf (dealUnits r.quantityOfCartItem (dealOf cat d))).count i)).sum : Nat) := by
    rw [natCast_sum_map]
    unfold dealTotal
    congr 1
    exact List.map_congr_left hafter
  rw [hsum, sum_count_eq_length hdd _
    (fun x hx => dealUnits_subset (mem_of_mem_leftoverOf hx)), leftoverOf_length, hT]
  omega

/-- C17: no available deal group is missed at checkout.  In every register
state reached from a cleared register by a sequence of `scanItem` and
`removeItem` calls, the deal id of every item that has an entry in the cart
is in the potential-deals set (`removeItem` leaves that set as it is), and
`calculateDeals` returns with, for every deal of the catalog, the cart
quantities of its members summing to less than 3.  The catalog satisfies
the invariants that hold after every `addItem` and `addDeal` call. -/
theorem calculateDeals_no_deal_missed (cat : Catalog) (hcat : CatalogInv cat)
    (calls : List RegisterCall) (r0 r : CheckoutRegister)
    (h : runRegister cat calls (clearSession r0) = some r) :
    (∀ i item, (r.quantityOfCartItem i).isSome = true → getItem cat i = Lookup.ref item →
      item.dealId ≠ -1 → item.dealId ∈ r.potentialDeals) ∧
    (∀ (r2 : CheckoutRegister) (itemName : String),
      (removeItem cat r2 itemName).2.potentialDeals = r2.potentialDeals) ∧
    ∃ r1, calculateDeals cat r = some r1 ∧
      ∀ d, ValidDeal cat d → dealTotal r1.quantityOfCartItem (dealOf cat d) < 3 := by
  have hinv : RegisterInv cat r :=
    runRegister_inv cat hcat calls _ r (registerInv_empty cat) h
  refine ⟨hinv.dealsKnown, removeItem_potentialDeals cat, ?_⟩
  have hnd : r.potentialDeals.Nodup := hinv.ascending.imp (fun hab => ne_of_lt hab)
  obtain ⟨r1, h1, _, _, _, _, hout, hin⟩ :=
    calculateDeals_closed hcat.disjoint r hinv.potentialValid hnd
  refine ⟨r1, h1, ?_⟩
  intro d hd
  by_cases hdp : d ∈ r.potentialDeals
  · rw [dealTotal_after_resolution hinv.nonneg (hcat.nodup _ (mem_deals_of_dealOf hd))
      (hin d hdp)]
    omega
  · have hnone : ∀ k ∈ dealOf cat d, r.quantityOfCartItem k = none := by
      intro k hk
      cases hqk : r.quantityOfCartItem k with
      | none => rfl
      | some n =>
        exfalso
        have hsome : (r.quantityOfCartItem k).isSome = true := by simp [hqk]
        obtain ⟨item, hitem, _⟩ := getItem_of_valid (hinv.keysValid k hsome)
        have hkv := hinv.keysValid k hsome
        have hklt : k.toNat < cat.items.length := by
          obtain ⟨a, b⟩ := hkv
          omega
        have hget : cat.items[k.toNat]? = some item := by
          have := (getItem_range cat k).2 ⟨hkv.1, hklt⟩
          rw [hitem] at this
          cases this
          exact List.getElem?_eq_getElem hklt
        obtain ⟨hdlt, hde⟩ := dealOf_eq_getElem hd
        have hmatch := (hcat.dealIds k.toNat item hget).2 d.toNat (dealOf cat d)
          (by rw [hde]; exact List.getElem?_eq_getElem hdlt)
        have hk' : ((k.toNat : Nat) : Int) ∈ dealOf cat d := by
          rw [Int.toNat_of_nonneg hkv.1]
          exact hk
        have hdeal := hmatch.mpr hk'
        have hdd : item.dealId = d := by
          rw [hdeal, Int.toNat_of_nonneg hd.1]
        have := hinv.dealsKnown k item hsome hitem (by rw [hdd]; have := hd.1; omega)
        rw [hdd] at this
        exact hdp this
    have hsame : ∀ k ∈ dealOf cat d, r1.quantityOfCartItem k = none := by
      intro k hk
      rw [hout k, hnone k hk]
      intro e he hke
      have hne : e ≠ d := fun heq => hdp (heq ▸ he)
      exact dealOf_disjoint hcat.disjoint (hinv.potentialValid e he) hd hne k hke hk
    have hzero : dealTotal r1.quantityOfCartItem (dealOf cat d) = 0 := by
      unfold dealTotal
      apply List.sum_eq_zero
      intro x hx
      obtain ⟨k, hk, rfl⟩ := List.mem_map.mp hx
      simp [quantityOf, hsame k hk]
    rw [hzero]
    norm_num

/-! ## Checkout conserves value -/

theorem chargedOf_add_savingsOf (cat : Catalog) : ∀ (G : List Array3),
    chargedOf cat G + savingsOf cat G = ((slotsOf G).map (unitPrice cat)).sum
  | [] => by simp [chargedOf, savingsOf, slotsOf]
  | g :: G => by
    have ih := chargedOf_add_savingsOf cat G
    unfold chargedOf savingsOf at ih ⊢
    simp only [List.map_cons, List.sum_cons, slotsOf]
    linarith

theorem remainingOf_eq_cartValue (cat : Catalog) {q : Int → Option Int}
    (hq : QuantitiesNonneg q) : ∀ (cartIds : List Int),
    remainingOf cat q cartIds = cartValue cat q cartIds
  | [] => by simp [remainingOf, cartValue]
  | i :: rest => by
    have ih := remainingOf_eq_cartValue cat hq rest
    unfold remainingOf cartValue at ih ⊢
    have hnn : 0 ≤ quantityOf q i := by
      unfold quantityOf
      cases hqi : q i with
      | none => simp
      | some n => simpa using hq i n hqi
    by_cases hpos : 0 < quantityOf q i
    · simp only [List.filter_cons, hpos, decide_True, if_true, List.map_cons, List.sum_cons, ih]
    · have hz : quantityOf q i = 0 := by omega
      simp only [List.filter_cons, hpos, decide_False, Bool.false_eq_true, if_false,
        List.map_cons, List.sum_cons, hz]
      simpa using ih

/-- A sum over a list, regrouped by the distinct ids that occur in it. -/
theorem sum_map_eq_sum_count (f : Int → ℚ) {ids : List Int} (hnd : ids.Nodup) :
    ∀ (L : List Int), (∀ x ∈ L, x ∈ ids) →
    (L.map f).sum = (ids.map (fun i => (L.count i : ℚ) * f i)).sum
  | [], _ => by simp
  | x :: L, h => by
    have ih := sum_map_eq_sum_count f hnd L (fun y hy => h y (List.mem_cons_of_mem _ hy))
    have hx : x ∈ ids := h x (List.mem_cons_self _ _)
    have hsplit : ids.map (fun i => ((x :: L).count i : ℚ) * f i) =
        ids.map (fun i => (L.count i : ℚ) * f i + (if x = i then f x else 0)) := by
      apply List.map_congr_left
      intro i _
      rw [List.count_cons]
      by_cases e : x = i
      · subst e
        simp
        ring
      · simp [e]
    have hind : (ids.map (fun i => if x = i then f x else 0)).sum = f x := by
      have hgen : ∀ (l : List Int), l.Nodup → x ∈ l →
          (l.map (fun i => if x = i then f x else 0)).sum = f x := by
        intro l
        induction l with
        | nil => intro _ hm; simp at hm
        | cons a l ihl =>
          intro hnd' hm
          obtain ⟨ha, hl⟩ := List.nodup_cons.mp hnd'
          by_cases e : x = a
          · subst e
            have hzero : (l.map (fun i => if x = i then f x else 0)).sum = 0 := by
              apply List.sum_eq_zero
              intro y hy
              obtain ⟨i, hi, rfl⟩ := List.mem_map.mp hy
              have : x ≠ i := fun e' => ha (e' ▸ hi)
              simp [this]
            simp [hzero]
          · have hm' : x ∈ l := by
              rcases List.mem_cons.mp hm with h' | h'
              · exact absurd h' e
              · exact h'
            simp [e, ihl hl hm']
      exact hgen ids hnd hx
    rw [hsplit, List.sum_map_add, ← ih, hind]
    simp
    ring

theorem mem_slotsOf_allGroups {cat : Catalog} {q : Int → Option Int} {x : Int} :
    ∀ {pd : List Int}, x ∈ slotsOf (allGroups cat q pd) →
    ∃ e ∈ pd, x ∈ dealOf cat e ∧ ∃ n, q x = some n ∧ 0 < n
  | [], h => by simp [allGroups, slotsOf] at h
  | d :: rest, h => by
    simp only [allGroups, slotsOf_append, List.mem_append] at h
    rcases h with h | h
    · obtain ⟨h1, h2⟩ := mem_dealUnits.mp (mem_of_mem_slotsOf_groupsOf h)
      exact ⟨d, List.mem_cons_self _ _, h1, h2⟩
    · obtain ⟨e, he, h1⟩ := mem_slotsOf_allGroups h
      exact ⟨e, List.mem_cons_of_mem _ he, h1⟩

/-- Units are conserved item by item: the slots an item fills in the groups of
all the potential deals, plus the quantity it is left with, is the quantity
it had. -/
theorem units_conserved {cat : Catalog} (hdis : DealsDisjoint cat) (hdn : DealsNodup cat)
    {r r1 : CheckoutRegister}
    (hv : ∀ d ∈ r.potentialDeals, ValidDeal cat d) (hnd : r.potentialDeals.Nodup)
    (hq : QuantitiesNonneg r.quantityOfCartItem)
    (hout : ∀ k, (∀ d ∈ r.potentialDeals, k ∉ dealOf cat d) →
      r1.quantityOfCartItem k = r.quantityOfCartItem k)
    (hin : ∀ d ∈ r.potentialDeals, ∀ k ∈ dealOf cat d, r1.quantityOfCartItem k =
      (r.quantityOfCartItem k).map (fun _ =>
        ((leftoverOf (dealUnits r.quantityOfCartItem (dealOf cat d))).count k : Int)))
    (i : Int) :
    ((slotsOf (allGroups cat r.quantityOfCartItem r.potentialDeals)).count i : Int)
      + quantityOf r1.quantityOfCartItem i = quantityOf r.quantityOfCartItem i := by
  by_cases hex : ∃ d ∈ r.potentialDeals, i ∈ dealOf cat d
  · obtain ⟨d, hd, hi⟩ := hex
    have hdd : (dealOf cat d).Nodup := hdn _ (mem_deals_of_dealOf (hv d hd))
    rw [count_slotsOf_allGroups hdis _ (hv d hd) hi _ hv hnd]
    simp only [hd, if_true]
    have hunits := count_units i (dealUnits r.quantityOfCartItem (dealOf cat d))
    rw [count_dealUnits, List.count_eq_one_of_mem hdd hi, Nat.one_mul] at hunits
    unfold quantityOf at hunits ⊢
    rw [hin d hd i hi]
    cases hqi : r.quantityOfCartItem i with
    | none =>
      rw [hqi] at hunits
      simp at hunits ⊢
      omega
    | some n =>
      have hn := hq i n hqi
      rw [hqi] at hunits
      simp at hunits ⊢
      omega
  · have hno : ∀ d ∈ r.potentialDeals, i ∉ dealOf cat d := by
      intro d hd hi
      exact hex ⟨d, hd, hi⟩
    have hzero : (slotsOf (allGroups cat r.quantityOfCartItem r.potentialDeals)).count i = 0 := by
      apply List.count_eq_zero_of_not_mem
      intro hmem
      obtain ⟨e, he, hie, _⟩ := mem_slotsOf_allGroups hmem
      exact hno e he hie
    unfold quantityOf
    rw [hzero, hout i hno]
    simp

/-- C18: checkout neither loses nor invents value.  For a catalog that
satisfies its invariants (prices are exact rationals) and a register at the
start of checkout whose insertion-order list has exactly the keys of the
quantity map, `checkOut` returns a receipt whose grand total plus savings is
the sum over the cart items of (quantity before deal resolution) * (unit
price); the quantity of an item that belongs to no deal is unchanged by
`calculateDeals`, and the grand total is the charged slots of the groups
plus quantity * unit price of every cart item as deal resolution leaves it.
The cart's ids are item ids, quantities are not negative, the potential
deals are deal ids without repetition, and no group is stored yet. -/
theorem checkOut_conserves_value (cat : Catalog) (r : CheckoutRegister)
    (hcat : CatalogInv cat) (hnodup : r.cartIds.Nodup) (hkeys : KeysMatch r)
    (hvalid : ∀ i ∈ r.cartIds, ValidItem cat i)
    (hv : ∀ d ∈ r.potentialDeals, ValidDeal cat d) (hnd : r.potentialDeals.Nodup)
    (hq : QuantitiesNonneg r.quantityOfCartItem) (hempty : r.dealGroups = []) :
    ∃ r1 receipt, calculateDeals cat r = some r1 ∧
      checkOut cat r = some (receipt, clearSession r1) ∧
      receipt.total + receipt.savings = cartValue cat r.quantityOfCartItem r.cartIds ∧
      (∀ i, (∀ deal ∈ cat.deals, i ∉ deal) →
        r1.quantityOfCartItem i = r.quantityOfCartItem i) ∧
      receipt.total
        = chargedOf cat r1.dealGroups + cartValue cat r1.quantityOfCartItem r.cartIds := by
  obtain ⟨r1, h1, hc, _, hg, hout, hin⟩ :=
    calculateDealsLoop_closed hcat.disjoint r.potentialDeals r hv hnd
  have hg' : r1.dealGroups = allGroups cat r.quantityOfCartItem r.potentialDeals := by
    rw [hg, hempty, List.nil_append]
  have hq1 : QuantitiesNonneg r1.quantityOfCartItem :=
    calculateDealsLoop_quantitiesNonneg cat r.potentialDeals r r1 hv hq h1
  have hslots : ∀ x ∈ slotsOf r1.dealGroups, x ∈ r.cartIds := by
    intro x hx
    rw [hg'] at hx
    obtain ⟨_, _, _, n, hn, _⟩ := mem_slotsOf_allGroups hx
    exact (hkeys x).mpr (by simp [hn])
  have hpr := printReceipt_eq cat r1
    (by
      intro g hgm x hx
      exact hvalid x (hslots x (mem_slotsOf.mpr ⟨g, hgm, hx⟩)))
    (by rw [hc]; exact hvalid) hq1
  have hcalc : calculateDeals cat r = some r1 := h1
  refine ⟨r1, Receipt.mk
    (chargedOf cat r1.dealGroups + remainingOf cat r1.quantityOfCartItem r1.cartIds)
    (savingsOf cat r1.dealGroups), hcalc, ?_, ?_, ?_, ?_⟩
  · unfold checkOut
    rw [hcalc]
    simp only
    rw [hpr]
  · simp only
    rw [hc, remainingOf_eq_cartValue cat hq1]
    have hsum : chargedOf cat r1.dealGroups + savingsOf cat r1.dealGroups
        = (r.cartIds.map (fun i =>
            ((slotsOf r1.dealGroups).count i : ℚ) * unitPrice cat i)).sum := by
      rw [chargedOf_add_savingsOf]
      exact sum_map_eq_sum_count (unitPrice cat) hnodup _ hslots
    have hcons : ∀ i, (((slotsOf r1.dealGroups).count i : Nat) : ℚ)
        + (quantityOf r1.quantityOfCartItem i : ℚ) = (quantityOf r.quantityOfCartItem i : ℚ) := by
      intro i
      have := units_conserved hcat.disjoint hcat.nodup hv hnd hq hout hin i
      rw [← hg'] at this
      exact_mod_cast this
    have hfinal : (r.cartIds.map (fun i =>
          ((slotsOf r1.dealGroups).count i : ℚ) * unitPrice cat i)).sum
        + cartValue cat r1.quantityOfCartItem r.cartIds
        = cartValue cat r.quantityOfCartItem r.cartIds := by
      unfold cartValue
      rw [← List.sum_map_add]
      congr 1
      apply List.map_congr_left
      intro i _
      rw [← hcons i]
      ring
    linarith
  · intro i hi
    apply hout
    intro d hd
    exact hi _ (mem_deals_of_dealOf (hv d hd))
  · simp only
    rw [hc, remainingOf_eq_cartValue cat hq1]

/-! ## The later statements at concrete catalogs and carts -/

theorem catalogInv_sodaCatalog : CatalogInv sodaCatalog :=
  addDeal_inv _ _ _ (addDeal_inv _ _ _ (addItem_inv _ _ _ (addItem_inv _ _ _
    (addItem_inv _ _ _ (addItem_inv _ _ _ catalogInv_empty)))))

theorem eq_some_getD_of_isSome {α : Type} {o : Option α} (d : α) (h : o.isSome = true) :
    o = some (o.getD d) := by
  cases o with
  | none => exact Bool.noConfusion h
  | some a => rfl

/-- A scan keeps the insertion-order list and the keys of the quantity map in
step, however it ends. -/
theorem scanItem_keysMatch (cat : Catalog) (r : CheckoutRegister) (itemName : String)
    (quantity : Int) (hk : KeysMatch r) : KeysMatch (scanItem cat r itemName quantity).2 := by
  unfold scanItem
  by_cases h1 : quantity < 1
  · simpa [h1] using hk
  · simp only [h1, if_false]
    by_cases h2 : getItemId cat itemName = -1
    · simpa [h2] using hk
    · simp only [h2, if_false]
      cases hq : r.quantityOfCartItem (getItemId cat itemName) with
      | some q0 =>
        have hin : getItemId cat itemName ∈ r.cartIds := (hk _).mpr (by simp [hq])
        simp only
        by_cases h3 : q0 + quantity > INT_MAX
        · simpa [h3] using hk
        · simp only [h3, if_false]
          exact keysMatch_scan r _ _ hk _ _ (by simp [hin]) rfl _ _
      | none =>
        have hin : getItemId cat itemName ∉ r.cartIds := by
          intro hmem
          have := (hk _).mp hmem
          simp [hq] at this
        simp only
        cases getItem cat (getItemId cat itemName) with
        | ref item =>
          simp only
          split <;> exact keysMatch_scan r _ _ hk _ _ (by simp [hin]) rfl _ _
        | runtime_error => exact keysMatch_scan r _ _ hk _ _ (by simp [hin]) rfl _ _
        | undefined => exact keysMatch_scan r _ _ hk _ _ (by simp [hin]) rfl _ _

theorem keysMatch_empty : KeysMatch CheckoutRegister.empty := by
  intro i
  simp [CheckoutRegister.empty]

theorem keysMatch_mixedCart : KeysMatch mixedCart :=
  scanItem_keysMatch _ _ _ _ (scanItem_keysMatch _ _ _ _
    (scanItem_keysMatch _ _ _ _ (scanItem_keysMatch _ _ _ _ keysMatch_empty)))

/-- C13 at the catalog with the one item Chips: adding Salsa at 2.00 gives it
the id 1. -/
theorem addItem_ok_witness :
    (addItem chipsCatalog "Salsa" 2).1 = Status.ok ∧
    getItemId (addItem chipsCatalog "Salsa" 2).2 "Salsa" = 1 ∧
    (getItemId (addItem chipsCatalog "Salsa" 2).2 "Salsa" = chipsCatalog.items.length ∧
      getItem (addItem chipsCatalog "Salsa" 2).2 chipsCatalog.items.length
        = Lookup.ref { name := "Salsa", price := 2, dealId := -1 } ∧
      ∀ calls, getItemId (runCatalog insertionStdSort calls (addItem chipsCatalog "Salsa" 2).2)
        "Salsa" = chipsCatalog.items.length) :=
  ⟨by decide, by decide, (addItem_ok insertionStdSort chipsCatalog "Salsa" 2).1 (by decide)⟩

/-- C14 at the catalog with Chips, Salsa, Guac and Soda: adding Soda again and
adding the reserved name Cart are both rejected. -/
theorem addItem_rejected_witness :
    (("Cart" ∈ reservedNames ∨ (sodaCatalog.itemIdMap "Cart").isSome = true) ∧
      (addItem sodaCatalog "Cart" 5).1 = Status.runtime_error ∧
      (addItem sodaCatalog "Cart" 5).2.items.length = sodaCatalog.items.length ∧
      (addItem sodaCatalog "Cart" 5).2.itemIdMap = sodaCatalog.itemIdMap ∧
      (addItem sodaCatalog "Cart" 5).2.deals = sodaCatalog.deals ∧
      (addItem sodaCatalog "Cart" 5).2.items = sodaCatalog.items) ∧
    (("Soda" ∈ reservedNames ∨ (sodaCatalog.itemIdMap "Soda").isSome = true) ∧
      (addItem sodaCatalog "Soda" 5).1 = Status.runtime_error) :=
  ⟨⟨Or.inl (by decide), addItem_rejected sodaCatalog "Cart" 5 (Or.inl (by decide))⟩,
    Or.inr (by decide), by decide⟩

/-- C15 at the cart with five Soda: scanning 0 Soda and removing Chips, which
has no entry in the cart, both throw and leave the register as it was. -/
theorem scanItem_removeItem_failure_witness :
    MapValid sodaCatalog ∧
    (scanItem sodaCatalog sodaCart "Soda" 0).1 = Status.runtime_error ∧
    (removeItem sodaCatalog sodaCart "Soda").1 = Status.ok ∧
    (((scanItem sodaCatalog sodaCart "Chips" 0).1 = Status.runtime_error ↔
        ((0 : Int) < 1 ∨ getItemId sodaCatalog "Chips" = -1)) ∧
      ((scanItem sodaCatalog sodaCart "Chips" 0).1 = Status.runtime_error →
        (scanItem sodaCatalog sodaCart "Chips" 0).2 = sodaCart) ∧
      ((removeItem sodaCatalog sodaCart "Chips").1 = Status.runtime_error ↔
        (getItemId sodaCatalog "Chips" = -1 ∨
          sodaCart.quantityOfCartItem (getItemId sodaCatalog "Chips") = none)) ∧
      ((removeItem sodaCatalog sodaCart "Chips").1 = Status.runtime_error →
        (removeItem sodaCatalog sodaCart "Chips").2 = sodaCart)) :=
  ⟨catalogInv_sodaCatalog.mapValid, by decide, by decide,
    scanItem_removeItem_failure sodaCatalog sodaCart "Chips" 0 catalogInv_sodaCatalog.mapValid⟩

theorem scannedCart_eq :
    scanAll sodaCatalog sodaScans CheckoutRegister.empty = some scannedCart :=
  eq_some_getD_of_isSome _ (by decide)

/-- C16 at the scans Soda 2, Chips 1, Soda 3: the insertion-order list is
[Soda, Chips], with Soda 5 and Chips 1. -/
theorem scanAll_cart_witness :
    scanAll sodaCatalog sodaScans CheckoutRegister.empty = some scannedCart ∧
    scannedCart.cartIds = [3, 0] ∧
    [3, 0].map scannedCart.quantityOfCartItem = [some 5, some 1] ∧
    (scannedCart.cartIds = firstScans (sodaScans.map (fun s => getItemId sodaCatalog s.1)) ∧
      scannedCart.cartIds.Nodup ∧
      (∀ i, i ∈ scannedCart.cartIds ↔ i ∈ sodaScans.map (fun s => getItemId sodaCatalog s.1)) ∧
      (∀ i, scannedCart.cartIds.count i =
        if i ∈ sodaScans.map (fun s => getItemId sodaCatalog s.1) then 1 else 0) ∧
      (∀ i ∈ scannedCart.cartIds,
        scannedCart.quantityOfCartItem i = some (scannedQuantity sodaCatalog i sodaScans)) ∧
      (∀ i, i ∉ scannedCart.cartIds → scannedCart.quantityOfCartItem i = none)) :=
  ⟨scannedCart_eq, by decide, by decide,
    scanAll_cart sodaCatalog sodaScans scannedCart scannedCart_eq⟩

theorem reachedCart_eq :
    runRegister sodaCatalog mixedCalls (clearSession CheckoutRegister.empty)
      = some reachedCart :=
  eq_some_getD_of_isSome _ (by decide)

/-- C17 at the calls scan Guac 1, scan Soda 5, remove Guac, scan Chips 2: both
deals stay in the potential-deals set after Guac is removed. -/
theorem calculateDeals_no_deal_missed_witness :
    (CatalogInv sodaCatalog ∧
      runRegister sodaCatalog mixedCalls (clearSession CheckoutRegister.empty)
        = some reachedCart) ∧
    reachedCart.cartIds = [3, 0] ∧ reachedCart.potentialDeals = [0, 1] ∧
    ((∀ i item, (reachedCart.quantityOfCartItem i).isSome = true →
        getItem sodaCatalog i = Lookup.ref item →
        item.dealId ≠ -1 → item.dealId ∈ reachedCart.potentialDeals) ∧
      (∀ (r2 : CheckoutRegister) (itemName : String),
        (removeItem sodaCatalog r2 itemName).2.potentialDeals = r2.potentialDeals) ∧
      ∃ r1, calculateDeals sodaCatalog reachedCart = some r1 ∧
        ∀ d, ValidDeal sodaCatalog d →
          dealTotal r1.quantityOfCartItem (dealOf sodaCatalog d) < 3) :=
  ⟨⟨catalogInv_sodaCatalog, reachedCart_eq⟩, by decide, by decide,
    calculateDeals_no_deal_missed sodaCatalog catalogInv_sodaCatalog mixedCalls
      CheckoutRegister.empty reachedCart reachedCart_eq⟩

theorem mixedCart_cartIds : mixedCart.cartIds = [2, 0, 1, 3] := by
  decide

/-- C18 at the cart Guac 1, Chips 2, Salsa 1, Soda 5. -/
theorem checkOut_conserves_value_witness :
    (CatalogInv sodaCatalog ∧ mixedCart.cartIds.Nodup ∧ KeysMatch mixedCart ∧
      (∀ i ∈ mixedCart.cartIds, ValidItem sodaCatalog i) ∧
      (∀ d ∈ mixedCart.potentialDeals, ValidDeal sodaCatalog d) ∧
      mixedCart.potentialDeals.Nodup ∧ QuantitiesNonneg mixedCart.quantityOfCartItem ∧
      mixedCart.dealGroups = []) ∧
    mixedCart.cartIds = [2, 0, 1, 3] ∧
    ∃ r1 receipt, calculateDeals sodaCatalog mixedCart = some r1 ∧
      checkOut sodaCatalog mixedCart = some (receipt, clearSession r1) ∧
      receipt.total + receipt.savings
        = cartValue sodaCatalog mixedCart.quantityOfCartItem mixedCart.cartIds ∧
      (∀ i, (∀ deal ∈ sodaCatalog.deals, i ∉ deal) →
        r1.quantityOfCartItem i = mixedCart.quantityOfCartItem i) ∧
      receipt.total = chargedOf sodaCatalog r1.dealGroups
        + cartValue sodaCatalog r1.quantityOfCartItem mixedCart.cartIds :=
  ⟨⟨catalogInv_sodaCatalog, by decide, keysMatch_mixedCart, by decide, mixedCart_validDeals,
      mixedCart_nodup, quantitiesNonneg_mixedCart, by decide⟩,
    mixedCart_cartIds,
    checkOut_conserves_value sodaCatalog mixedCart catalogInv_sodaCatalog (by decide)
      keysMatch_mixedCart (by decide) mixedCart_validDeals mixedCart_nodup
      quantitiesNonneg_mixedCart (by decide)⟩

end Supermarket
